import Mathlib

/-!
# A shallow embedding of bionic's `libc/tzcode/strftime.c`

Bytes are natural numbers (0..255); a C string is the list of its bytes, ended by the end of
the list or by the first zero byte.  A pointer into the output is an address (`Nat`), memory is
a map from addresses to bytes.  `int` fields are integers; C division and remainder are
`Int.tdiv` and `Int.tmod`; arithmetic on fields that can leave the `int` range is wrapped.
-/

namespace Strftime


set_option linter.unusedVariables false

/-! ## Bytes, strings, machine integers -/

/-- The bytes of a string constant. -/
def str (s : String) : List Nat := s.toList.map Char.toNat

/-- An `int` result, reduced to 32 bits (two's complement). -/
def wrapInt (x : Int) : Int := (x + 2147483648) % 4294967296 - 2147483648

/-- A `long` result, reduced to 64 bits (two's complement). -/
def wrapLong (x : Int) : Int :=
  (x + 9223372036854775808) % 18446744073709551616 - 9223372036854775808

/-- The byte stored by `*p = x` for an `int` value `x`. -/
def toByte (x : Int) : Nat := (x % 256).toNat

/-- Modelled from the spec: `isupper` of the C locale (not under src/), an ASCII upper-case
letter. -/
def isupper (c : Nat) : Bool := decide (65 ≤ c ∧ c ≤ 90)

/-- Modelled from the spec: `islower` of the C locale (not under src/), an ASCII lower-case
letter. -/
def islower (c : Nat) : Bool := decide (97 ≤ c ∧ c ≤ 122)

/-- Modelled from the spec: `tolower` of the C locale (not under src/): lower-case each byte. -/
def tolower (c : Nat) : Nat := if isupper c then c + 32 else c

/-- Modelled from the spec: `toupper` of the C locale (not under src/): upper-case each byte. -/
def toupper (c : Nat) : Nat := if islower c then c - 32 else c

/-! ## Constants of `private.h` / `tzfile.h` -/

/-- Modelled from the spec: the constant `DAYSPERWEEK` (header not under src/). -/
def DAYSPERWEEK : Int := 7
/-- Modelled from the spec: the constant `MONSPERYEAR` (header not under src/). -/
def MONSPERYEAR : Int := 12
/-- Modelled from the spec: the constant `HOURSPERDAY` (header not under src/). -/
def HOURSPERDAY : Int := 24
/-- Modelled from the spec: the constant `SECSPERMIN` (header not under src/). -/
def SECSPERMIN : Int := 60
/-- Modelled from the spec: the constant `MINSPERHOUR` (header not under src/). -/
def MINSPERHOUR : Int := 60
/-- Modelled from the spec: the constant `DAYSPERNYEAR` (header not under src/). -/
def DAYSPERNYEAR : Int := 365
/-- Modelled from the spec: the constant `DAYSPERLYEAR` (header not under src/). -/
def DAYSPERLYEAR : Int := 366
/-- Modelled from the spec: the constant `TM_YEAR_BASE`, base 1900 (header not under src/). -/
def TM_YEAR_BASE : Int := 1900
/-- Modelled from the spec: the error number `ERANGE`, "result too large" (header not
under src/). -/
def ERANGE : Nat := 34
/-- The error number `EOVERFLOW` of the null-pointer test in `strftime` (header not under
src/; only its being another number than `ERANGE` matters). -/
def EOVERFLOW : Nat := 75
/-- The sentinel `FORCE_LOWER_CASE 0x100`. -/
def FORCE_LOWER_CASE : Nat := 256

/-- Modelled from the spec: the macro `isleap` (header not under src/): a year is leap iff
divisible by 4, and not divisible by 100 unless divisible by 400. -/
def isleap (y : Int) : Bool :=
  decide (Int.tmod y 4 = 0 ∧ (Int.tmod y 100 ≠ 0 ∨ Int.tmod y 400 = 0))

/-- Modelled from the spec: the macro `isleap_sum` (header not under src/): the leap-year test
of the year with the base added. -/
def isleap_sum (a b : Int) : Bool := isleap (a + b)

/-! ## Data model -/

/-- The broken-down timestamp `struct tm`, with the advisory fields `tm_gmtoff` and `tm_zone`
(`none` is the null pointer). -/
structure tm where
  tm_sec : Int
  tm_min : Int
  tm_hour : Int
  tm_mday : Int
  tm_mon : Int
  tm_year : Int
  tm_wday : Int
  tm_yday : Int
  tm_isdst : Int
  tm_gmtoff : Int
  tm_zone : Option (List Nat)

/-- What the function reads from outside the file: the `tzname` pair, `mktime64`, the
variables `timezone` and `altzone`, and which of the build macros `TM_GMTOFF`, `USG_COMPAT`,
`ALTZONE` are set (`TM_ZONE` is set: the four-argument `_add` call compiles only then). -/
structure Env where
  tzname0 : Option (List Nat)
  tzname1 : Option (List Nat)
  mktime64 : tm → Int
  TM_GMTOFF : Bool
  USG_COMPAT : Bool
  ALTZONE : Bool
  timezone : Int
  altzone : Int

/-- The table `struct lc_time_T`. -/
structure lc_time_T where
  mon : List (List Nat)
  month : List (List Nat)
  wday : List (List Nat)
  weekday : List (List Nat)
  X_fmt : List Nat
  x_fmt : List Nat
  c_fmt : List Nat
  am : List Nat
  pm : List Nat
  date_fmt : List Nat

/-- The table `C_time_locale`. -/
def C_time_locale : lc_time_T where
  mon := ["Jan", "Feb", "Mar", "Apr", "May", "Jun",
          "Jul", "Aug", "Sep", "Oct", "Nov", "Dec"].map str
  month := ["January", "February", "March", "April", "May", "June",
            "July", "August", "September", "October", "November", "December"].map str
  wday := ["Sun", "Mon", "Tue", "Wed", "Thu", "Fri", "Sat"].map str
  weekday := ["Sunday", "Monday", "Tuesday", "Wednesday",
              "Thursday", "Friday", "Saturday"].map str
  X_fmt := str "%H:%M:%S"
  x_fmt := str "%m/%d/%y"
  c_fmt := str "%a %b %e %T %Y"
  am := str "AM"
  pm := str "PM"
  date_fmt := str "%a %b %e %H:%M:%S %Z %Y"

/-- The macro `Locale`. -/
def Locale : lc_time_T := C_time_locale

/-- An array access `table[i]`; `none` outside the array. -/
def lookup (table : List (List Nat)) (i : Int) : Option (List Nat) :=
  if 0 ≤ i then table.get? i.toNat else none

/-- The type `enum warn`. -/
inductive warn where
  | IN_NONE
  | IN_SOME
  | IN_THIS
  | IN_ALL
  deriving DecidableEq, Repr

/-- The integer value of an `enum warn` constant. -/
def warn.rank : warn → Nat
  | .IN_NONE => 0
  | .IN_SOME => 1
  | .IN_THIS => 2
  | .IN_ALL => 3

/-- The output: the write cursor `pt` and the memory it points into. -/
structure Buf where
  pt : Nat
  mem : Nat → Nat

/-- The store `*pt = c`. -/
def Buf.store (b : Buf) (c : Nat) : Buf := { b with mem := Function.update b.mem b.pt c }

/-- The step `++pt`. -/
def Buf.next (b : Buf) : Buf := { b with pt := b.pt + 1 }

/-- The bytes between a start address and the cursor. -/
def output (start : Nat) (b : Buf) : List Nat :=
  (List.range (b.pt - start)).map fun i => b.mem (start + i)

/-! ## `_add` -/

/-- The loop `while (pt < ptlim && (*pt = f(*str++)) != 0) ++pt;` of `_add`. -/
def addLoop (f : Nat → Nat) : List Nat → Buf → Nat → Buf
  | [], pt, ptlim => if pt.pt < ptlim then pt.store (f 0) else pt
  | c :: s, pt, ptlim =>
    if pt.pt < ptlim then
      if f c = 0 then pt.store (f c) else addLoop f s (pt.store (f c)).next ptlim
    else pt

/-- The case swap of the `#` loop of `_add`. -/
def swapcase (c : Nat) : Nat :=
  if isupper c then tolower c else if islower c then toupper c else c

/-- The loop of `case '#'` of `_add`: nothing is stored for the terminator. -/
def addSwapLoop : List Nat → Buf → Nat → Buf
  | [], pt, _ => pt
  | c :: s, pt, ptlim =>
    if pt.pt < ptlim ∧ c ≠ 0 then addSwapLoop s (pt.store (swapcase c)).next ptlim else pt

/-- The function `_add(str, pt, ptlim, modifier)`. -/
def _add (s : List Nat) (pt : Buf) (ptlim : Nat) (modifier : Nat) : Buf :=
  if modifier = FORCE_LOWER_CASE then addLoop tolower s pt ptlim
  else if modifier = 94 /- '^' -/ then addLoop toupper s pt ptlim
  else if modifier = 35 /- '#' -/ then addSwapLoop s pt ptlim
  else addLoop id s pt ptlim

/-! ## `_conv` -/

/-- The digit loop of `_conv`, `while (n >= 10) { *--p = '0' + n % 10; n /= 10; }` and then
`*--p = '0' + n`; the first argument bounds the number of rounds and `n` itself is enough. -/
def convDigits : Nat → Int → List Nat → List Nat
  | 0, n, buf => toByte (48 + n) :: buf
  | k + 1, n, buf =>
    if n ≥ 10 then convDigits k (Int.tdiv n 10) (toByte (48 + Int.tmod n 10) :: buf)
    else toByte (48 + n) :: buf

/-- The function `getformat`. -/
def getformat (modifier : Nat) (normal underscore dash zero : List Nat) : List Nat :=
  if modifier = 95 /- '_' -/ then underscore
  else if modifier = 45 /- '-' -/ then dash
  else if modifier = 48 /- '0' -/ then zero
  else normal

/-- The function `_conv(n, format, pt, ptlim)`. -/
def _conv (n : Int) (format : List Nat) (pt : Buf) (ptlim : Nat) : Buf :=
  let fill := format.getD 0 0
  let width : Int := if format.getD 1 0 = 32 then 0 else (format.getD 1 0 : Int) - 48
  let digits := convDigits n.toNat n []
  let buf := List.replicate (width - digits.length).toNat fill ++ digits
  _add buf pt ptlim 0

/-! ## `_yconv` -/

/-- The first half of `_yconv`: `(lead, trail)` computed from `a` and `b`. -/
def yearSplit (a b : Int) : Int × Int :=
  let trail := Int.tmod a 100 + Int.tmod b 100
  let lead := Int.tdiv a 100 + Int.tdiv b 100 + Int.tdiv trail 100
  let trail := Int.tmod trail 100
  if trail < 0 ∧ lead > 0 then (lead - 1, trail + 100)
  else if lead < 0 ∧ trail > 0 then (lead + 1, trail - 100)
  else (lead, trail)

/-- The function `_yconv(a, b, convert_top, convert_yy, pt, ptlim, modifier)`. -/
def _yconv (a b : Int) (convert_top convert_yy : Bool) (pt : Buf) (ptlim : Nat)
    (modifier : Nat) : Buf :=
  let lead := (yearSplit a b).1
  let trail := (yearSplit a b).2
  let pt :=
    if convert_top then
      if lead = 0 ∧ trail < 0 then _add (str "-0") pt ptlim modifier
      else _conv lead (getformat modifier (str "02") (str " 2") (str "  ") (str "02")) pt ptlim
    else pt
  if convert_yy then
    _conv (if trail < 0 then -trail else trail)
      (getformat modifier (str "02") (str " 2") (str "  ") (str "02")) pt ptlim
  else pt

/-! ## The ISO 8601 week loop of `_fmt` -/

/-- The year length chosen by `isleap_sum(year, base) ? DAYSPERLYEAR : DAYSPERNYEAR`. -/
def yearLen (year base : Int) : Int :=
  if isleap_sum year base then DAYSPERLYEAR else DAYSPERNYEAR

/-- The value of `bot` in the week loop: on what yday (-3 ... 3) the ISO year begins. -/
def isoBot (yday wday : Int) : Int :=
  Int.tmod (wrapInt (yday + 11 - wday)) DAYSPERWEEK - 3

/-- The value of `top` in the week loop: on what yday the next ISO year begins. -/
def isoTop (bot len : Int) : Int :=
  let top := bot - Int.tmod len DAYSPERWEEK
  let top := if top < -3 then top + DAYSPERWEEK else top
  top + len

/-- The loop `for ( ; ; )` of `case 'V'`, `'G'`, `'g'`: the result is `(base, w)`; the first
argument bounds the number of rounds (`none` when it is used up). -/
def isoLoop : Nat → Int → Int → Int → Int → Option (Int × Int)
  | 0, _, _, _, _ => none
  | k + 1, year, base, yday, wday =>
    let len := yearLen year base
    let bot := isoBot yday wday
    let top := isoTop bot len
    if yday ≥ top then some (wrapInt (base + 1), 1)
    else if yday ≥ bot then some (base, 1 + Int.tdiv (yday - bot) DAYSPERWEEK)
    else isoLoop k year (wrapInt (base - 1))
      (wrapInt (yday + yearLen year (wrapInt (base - 1)))) wday

/-- The week computation of `case 'V'`, `'G'`, `'g'` on a timestamp: `(base, w)` after the loop.
Every round that does not leave the loop adds a year length to `yday`, and the loop is left
once `yday` is 3 or more, so `3 - yday` rounds and one more are enough. -/
def isoWeek (t : tm) : Option (Int × Int) :=
  isoLoop ((3 - t.tm_yday).toNat + 1) t.tm_year TM_YEAR_BASE t.tm_yday t.tm_wday

/-- Modelled from the spec: `sprintf(buf, "%jd", n)` (libc, not under src/): the signed decimal
numeral of `n`. -/
def sprintfd (n : Int) : List Nat :=
  if n < 0 then 45 :: ((Nat.toDigits 10 (-n).toNat).map Char.toNat)
  else (Nat.toDigits 10 n.toNat).map Char.toNat

/-! ## `_fmt` -/

/-- What one `case` of the `switch` of `_fmt` does. -/
inductive Step where
  /-- Calls of the writers, then `continue`; the flag says that `*warnp = IN_ALL` is done. -/
  | write (all : Bool) (f : Buf → Nat → Buf)
  /-- A call of `_fmt` on a constant format, then `continue`; the flag says that the call has
  its own `warn2 = IN_SOME`, merged into `*warnp` afterwards. -/
  | sub (fresh : Bool) (format : List Nat)
  /-- The jump `goto label` with this value of `modifier`. -/
  | again (modifier : Nat)
  /-- The statement `break`: the byte `*format` is then copied as it is. -/
  | lit
  /-- No return: a null pointer is read, or the week loop does not end. -/
  | stuck

/-- The format code of the two-digit fields, `getformat(modifier, "02", " 2", "  ", "02")`. -/
def fmt02 (modifier : Nat) : List Nat :=
  getformat modifier (str "02") (str " 2") (str "  ") (str "02")

/-- The format code of the space-padded fields, `getformat(modifier, " 2", " 2", "  ", "02")`. -/
def fmt_2 (modifier : Nat) : List Nat :=
  getformat modifier (str " 2") (str " 2") (str "  ") (str "02")

/-- A name of a table, `(i < 0 || i >= n) ? "?" : table[i]`, given to `_add`. -/
def addName (table : List (List Nat)) (n i : Int) (modifier : Nat) : Step :=
  if i < 0 ∨ i ≥ n then .write false fun pt ptlim => _add (str "?") pt ptlim modifier
  else match lookup table i with
    | some s => .write false fun pt ptlim => _add s pt ptlim modifier
    | none => .stuck

/-- The body of `case 'z'` of `_fmt`. -/
def zoneOffset (modifier : Nat) (t : tm) (env : Env) : Step :=
  if !(env.TM_GMTOFF || env.USG_COMPAT || env.ALTZONE) then .write false fun pt _ => pt
  else
    let diff : Option Int :=
      if env.TM_GMTOFF then some t.tm_gmtoff
      else if t.tm_isdst < 0 then none
      else if t.tm_isdst = 0 then
        (if env.USG_COMPAT then some (wrapLong (-env.timezone)) else none)
      else (if env.ALTZONE then some (wrapLong (-env.altzone)) else none)
    match diff with
    | none => .write false fun pt _ => pt
    | some diff =>
      let negative : Option Bool :=
        if diff = 0 then t.tm_zone.map fun z => decide (z.headD 0 = 45 /- '-' -/)
        else some (decide (diff < 0))
      match negative with
      | none => .stuck
      | some negative =>
        let sign := if negative then str "-" else str "+"
        let diff := if negative then wrapLong (-diff) else diff
        .write false fun pt ptlim =>
          let pt := _add sign pt ptlim modifier
          let diff := Int.tdiv diff SECSPERMIN
          let diff := Int.tdiv diff MINSPERHOUR * 100 + Int.tmod diff MINSPERHOUR
          _conv (wrapInt diff)
            (getformat modifier (str "04") (str " 4") (str "  ") (str "04")) pt ptlim

/-- The body of `case 'Z'` of `_fmt`: the zone string given to `_add`. -/
def zoneName (t : tm) (env : Env) : List Nat :=
  let empty (z : Option (List Nat)) : Bool :=
    match z with
    | none => true
    | some s => decide (s.headD 0 = 0)
  let zone := t.tm_zone
  let zone :=
    if empty zone then
      let zone :=
        if t.tm_isdst = 0 then env.tzname0
        else if t.tm_isdst > 0 then env.tzname1
        else zone
      if empty zone then some [] else zone
    else zone
  zone.getD []

/-- The `switch (*++format)` of `_fmt` at the byte `c`, which is not the terminator. -/
def dispatch (c : Nat) (modifier : Nat) (t : tm) (env : Env) : Step :=
  match c with
  | 65 /- 'A' -/ => addName Locale.weekday DAYSPERWEEK t.tm_wday modifier
  | 97 /- 'a' -/ => addName Locale.wday DAYSPERWEEK t.tm_wday modifier
  | 66 /- 'B' -/ => addName Locale.month MONSPERYEAR t.tm_mon modifier
  | 98 /- 'b' -/ => addName Locale.mon MONSPERYEAR t.tm_mon modifier
  | 104 /- 'h' -/ => addName Locale.mon MONSPERYEAR t.tm_mon modifier
  | 67 /- 'C' -/ => .write false fun pt ptlim =>
      _yconv t.tm_year TM_YEAR_BASE true false pt ptlim modifier
  | 99 /- 'c' -/ => .sub true Locale.c_fmt
  | 68 /- 'D' -/ => .sub false (str "%m/%d/%y")
  | 100 /- 'd' -/ => .write false fun pt ptlim => _conv t.tm_mday (fmt02 modifier) pt ptlim
  | 69 /- 'E' -/ => .again modifier
  | 79 /- 'O' -/ => .again modifier
  | 95 /- '_' -/ => .again c
  | 45 /- '-' -/ => .again c
  | 48 /- '0' -/ => .again c
  | 94 /- '^' -/ => .again c
  | 35 /- '#' -/ => .again c
  | 101 /- 'e' -/ => .write false fun pt ptlim => _conv t.tm_mday (fmt_2 modifier) pt ptlim
  | 70 /- 'F' -/ => .sub false (str "%Y-%m-%d")
  | 72 /- 'H' -/ => .write false fun pt ptlim => _conv t.tm_hour (fmt02 modifier) pt ptlim
  | 73 /- 'I' -/ => .write false fun pt ptlim =>
      _conv (if Int.tmod t.tm_hour 12 ≠ 0 then Int.tmod t.tm_hour 12 else 12)
        (fmt02 modifier) pt ptlim
  | 106 /- 'j' -/ => .write false fun pt ptlim =>
      _conv (wrapInt (t.tm_yday + 1))
        (getformat modifier (str "03") (str " 3") (str "  ") (str "03")) pt ptlim
  | 107 /- 'k' -/ => .write false fun pt ptlim => _conv t.tm_hour (fmt_2 modifier) pt ptlim
  | 108 /- 'l' -/ => .write false fun pt ptlim =>
      _conv (if Int.tmod t.tm_hour 12 ≠ 0 then Int.tmod t.tm_hour 12 else 12)
        (fmt_2 modifier) pt ptlim
  | 77 /- 'M' -/ => .write false fun pt ptlim => _conv t.tm_min (fmt02 modifier) pt ptlim
  | 109 /- 'm' -/ => .write false fun pt ptlim =>
      _conv (wrapInt (t.tm_mon + 1)) (fmt02 modifier) pt ptlim
  | 110 /- 'n' -/ => .write false fun pt ptlim => _add (str "\n") pt ptlim modifier
  | 80 /- 'P' -/ => .write false fun pt ptlim =>
      _add (if t.tm_hour ≥ Int.tdiv HOURSPERDAY 2 then Locale.pm else Locale.am)
        pt ptlim FORCE_LOWER_CASE
  | 112 /- 'p' -/ => .write false fun pt ptlim =>
      _add (if t.tm_hour ≥ Int.tdiv HOURSPERDAY 2 then Locale.pm else Locale.am)
        pt ptlim modifier
  | 82 /- 'R' -/ => .sub false (str "%H:%M")
  | 114 /- 'r' -/ => .sub false (str "%I:%M:%S %p")
  | 83 /- 'S' -/ => .write false fun pt ptlim => _conv t.tm_sec (fmt02 modifier) pt ptlim
  | 115 /- 's' -/ => .write false fun pt ptlim =>
      _add (sprintfd (env.mktime64 t)) pt ptlim modifier
  | 84 /- 'T' -/ => .sub false (str "%H:%M:%S")
  | 116 /- 't' -/ => .write false fun pt ptlim => _add (str "\t") pt ptlim modifier
  | 85 /- 'U' -/ => .write false fun pt ptlim =>
      _conv (Int.tdiv (wrapInt (t.tm_yday + DAYSPERWEEK - t.tm_wday)) DAYSPERWEEK)
        (fmt02 modifier) pt ptlim
  | 117 /- 'u' -/ => .write false fun pt ptlim =>
      _conv (if t.tm_wday = 0 then DAYSPERWEEK else t.tm_wday) (str "  ") pt ptlim
  | 86 /- 'V' -/ =>
    match isoWeek t with
    | none => .stuck
    | some (_, w) => .write false fun pt ptlim => _conv w (fmt02 modifier) pt ptlim
  | 103 /- 'g' -/ =>
    match isoWeek t with
    | none => .stuck
    | some (base, _) => .write true fun pt ptlim =>
        _yconv t.tm_year base false true pt ptlim modifier
  | 71 /- 'G' -/ =>
    match isoWeek t with
    | none => .stuck
    | some (base, _) => .write false fun pt ptlim =>
        _yconv t.tm_year base true true pt ptlim modifier
  | 118 /- 'v' -/ => .sub false (str "%e-%b-%Y")
  | 87 /- 'W' -/ => .write false fun pt ptlim =>
      _conv (Int.tdiv (wrapInt (t.tm_yday + DAYSPERWEEK -
          (if t.tm_wday ≠ 0 then t.tm_wday - 1 else DAYSPERWEEK - 1))) DAYSPERWEEK)
        (fmt02 modifier) pt ptlim
  | 119 /- 'w' -/ => .write false fun pt ptlim => _conv t.tm_wday (str "  ") pt ptlim
  | 88 /- 'X' -/ => .sub false Locale.X_fmt
  | 120 /- 'x' -/ => .sub true Locale.x_fmt
  | 121 /- 'y' -/ => .write true fun pt ptlim =>
      _yconv t.tm_year TM_YEAR_BASE false true pt ptlim modifier
  | 89 /- 'Y' -/ => .write false fun pt ptlim =>
      _yconv t.tm_year TM_YEAR_BASE true true pt ptlim modifier
  | 90 /- 'Z' -/ => .write false fun pt ptlim => _add (zoneName t env) pt ptlim modifier
  | 122 /- 'z' -/ => zoneOffset modifier t env
  | 43 /- '+' -/ => .sub false Locale.date_fmt
  | _ /- '%' and default -/ => .lit

/-- The statements `if (pt == ptlim) break; *pt++ = c;` that end a round of the loop of
`_fmt`: `none` for the `break`. -/
def putByte (c : Nat) (pt : Buf) (ptlim : Nat) : Option Buf :=
  if pt.pt = ptlim then none else some (pt.store c).next

/-- The merge of the `warn2` of a call of `case 'c'` or `'x'` into `*warnp`. -/
def mergeWarn (warn2 warnp : warn) : warn :=
  let warn2 := if warn2 = warn.IN_ALL then warn.IN_THIS else warn2
  if warn2.rank > warnp.rank then warn2 else warnp

/-- The loop of `_fmt` over the format.  The calls of `_fmt` on the constant formats go to
`self`.  The mode is `none` at the head of the loop and `some (prev, modifier)` at `label:`,
where `prev` is the byte just before `*++format`.  The result `none` is no return. -/
def fmtLoop (self : List Nat → Buf → warn → Option (Buf × warn)) (t : tm) (env : Env)
    (ptlim : Nat) : Option (Nat × Nat) → List Nat → Buf → warn → Option (Buf × warn)
  | none, [], pt, w => some (pt, w)
  | none, c :: format, pt, w =>
    if c = 0 then some (pt, w)
    else if c = 37 /- '%' -/ then fmtLoop self t env ptlim (some (c, 0)) format pt w
    else match putByte c pt ptlim with
      | none => some (pt, w)
      | some pt => fmtLoop self t env ptlim none format pt w
  | some (prev, _), [], pt, w =>
    match putByte prev pt ptlim with
    | none => some (pt, w)
    | some pt => some (pt, w)
  | some (prev, modifier), c :: format, pt, w =>
    if c = 0 then
      match putByte prev pt ptlim with
      | none => some (pt, w)
      | some pt => some (pt, w)
    else match dispatch c modifier t env with
      | .write all f =>
        fmtLoop self t env ptlim none format (f pt ptlim) (if all then warn.IN_ALL else w)
      | .sub fresh sformat =>
        match self sformat pt (if fresh then warn.IN_SOME else w) with
        | none => none
        | some (pt, w2) =>
          fmtLoop self t env ptlim none format pt (if fresh then mergeWarn w2 w else w2)
      | .again m => fmtLoop self t env ptlim (some (c, m)) format pt w
      | .lit =>
        match putByte c pt ptlim with
        | none => some (pt, w)
        | some pt => fmtLoop self t env ptlim none format pt w
      | .stuck => none

/-- The calls that `_fmt` makes to itself when `depth` nested calls are left. -/
def fmtSelf (t : tm) (env : Env) (ptlim : Nat) :
    Nat → List Nat → Buf → warn → Option (Buf × warn)
  | 0 => fun _ _ _ => none
  | depth + 1 => fun format pt w => fmtLoop (fmtSelf t env ptlim depth) t env ptlim none format pt w

/-- The function `_fmt(format, t, pt, ptlim, warnp)`, with the number of nested calls of
itself it may make; the result is the cursor and `*warnp`, or `none` for no return. -/
def _fmt (depth : Nat) (format : List Nat) (t : tm) (env : Env) (pt : Buf) (ptlim : Nat)
    (warnp : warn) : Option (Buf × warn) :=
  fmtLoop (fmtSelf t env ptlim depth) t env ptlim none format pt warnp

/-! ## `strftime` -/

/-- What a call of `strftime` leaves: the return value, `errno` and the memory. -/
structure Result where
  ret : Nat
  errno : Nat
  mem : Nat → Nat

/-- The function `strftime(s, maxsize, format, t)`, with `errno` and the memory on entry.
The call `tzset()` only refreshes what `Env` holds, and the diagnostic under
`DEPRECATE_TWO_DIGIT_YEARS` (false by default) writes to `stderr` only: neither is part of
it. -/
def strftime (depth : Nat) (s maxsize : Nat) (format : List Nat) (t : tm) (env : Env)
    (errno : Nat) (mem : Nat → Nat) : Option Result :=
  let saved_errno := errno
  match _fmt depth format t env ⟨s, mem⟩ (s + maxsize) warn.IN_NONE with
  | none => none
  | some (p, _) =>
    if p.pt = 0 then some ⟨0, EOVERFLOW, p.mem⟩
    else if p.pt = s + maxsize then some ⟨0, ERANGE, p.mem⟩
    else some ⟨p.pt - s, saved_errno, (p.store 0).mem⟩

/-! ## Vocabulary of the statements -/

/-- The writer `f` appends the bytes `bs` at the cursor as far as the limit allows, and leaves
every byte below the cursor and from the limit on as it was. -/
def Emits (f : Buf → Nat → Buf) (bs : List Nat) : Prop :=
  ∀ (pt : Buf) (ptlim : Nat), pt.pt ≤ ptlim →
    (f pt ptlim).pt = min ptlim (pt.pt + bs.length) ∧
    (∀ i, i < bs.length → pt.pt + i < ptlim → (f pt ptlim).mem (pt.pt + i) = bs.getD i 0) ∧
    (∀ j, j < pt.pt ∨ ptlim ≤ j → (f pt ptlim).mem j = pt.mem j)

/-- The bytes that `_add` appends for a string and a modifier. -/
def addBytes (s : List Nat) (modifier : Nat) : List Nat :=
  if modifier = FORCE_LOWER_CASE then (s.takeWhile fun c => tolower c ≠ 0).map tolower
  else if modifier = 94 then (s.takeWhile fun c => toupper c ≠ 0).map toupper
  else if modifier = 35 then (s.takeWhile fun c => c ≠ 0).map swapcase
  else (s.takeWhile fun c => id c ≠ 0).map id

/-- The buffer that `_conv` hands to `_add`. -/
def convBuf (n : Int) (format : List Nat) : List Nat :=
  List.replicate
    ((if format.getD 1 0 = 32 then (0 : Int) else (format.getD 1 0 : Int) - 48)
      - (convDigits n.toNat n []).length).toNat (format.getD 0 0)
    ++ convDigits n.toNat n []

/-- The bytes that `_yconv` appends. -/
def yconvBytes (a b : Int) (convert_top convert_yy : Bool) (modifier : Nat) : List Nat :=
  (if convert_top then
    if (yearSplit a b).1 = 0 ∧ (yearSplit a b).2 < 0 then addBytes (str "-0") modifier
    else addBytes (convBuf (yearSplit a b).1
      (getformat modifier (str "02") (str " 2") (str "  ") (str "02"))) 0
  else [])
  ++ (if convert_yy then
    addBytes (convBuf (if (yearSplit a b).2 < 0 then -(yearSplit a b).2 else (yearSplit a b).2)
      (getformat modifier (str "02") (str " 2") (str "  ") (str "02"))) 0
  else [])

/-- How many nested calls of `_fmt` the specifier letter `c` needs: 2 for `c`, 1 for the other
letters with a format of their own, 0 for every other byte. -/
def nestRank (c : Nat) : Nat :=
  if c = 99 then 2
  else if c = 68 ∨ c = 70 ∨ c = 82 ∨ c = 114 ∨ c = 84 ∨ c = 118 ∨ c = 88 ∨ c = 120 ∨ c = 43 then 1
  else 0

/-- A cursor move from `pt` to `r` under the limit `ptlim`: the cursor does not go back, stays
within the limit, and no byte below the old cursor or from the limit on has changed. -/
def Within (pt : Buf) (ptlim : Nat) (r : Buf) : Prop :=
  pt.pt ≤ r.pt ∧ r.pt ≤ ptlim ∧ ∀ j, j < pt.pt ∨ ptlim ≤ j → r.mem j = pt.mem j

/-- The bytes `bs` are what a step from `pt` to `r` under the limit `ptlim` has appended: the
cursor has moved by their number or to the limit, and below the limit they stand there. -/
def Appends (pt : Buf) (ptlim : Nat) (bs : List Nat) (r : Buf) : Prop :=
  r.pt = min ptlim (pt.pt + bs.length) ∧
    ∀ i, i < bs.length → pt.pt + i < ptlim → r.mem (pt.pt + i) = bs.getD i 0

/-- The state `b` of a run under the limit `lim` is the state `u` of a run under a larger
limit, cut at `lim`. -/
def Cut (lim : Nat) (b u : Buf) : Prop :=
  b.pt = min lim u.pt ∧ ∀ i, i < b.pt → b.mem i = u.mem i

/-- What a format renders for a timestamp: wherever the bytes `bs` fit below the limit, `_fmt`
returns, has moved the cursor by their number, and they are the bytes it has put there. -/
def Renders (format : List Nat) (t : tm) (env : Env) (bs : List Nat) : Prop :=
  ∀ (depth : Nat) (pt : Buf) (ptlim : Nat) (w : warn), pt.pt + bs.length ≤ ptlim →
    ∃ r w2, _fmt depth format t env pt ptlim w = some (r, w2) ∧
      r.pt = pt.pt + bs.length ∧ output pt.pt r = bs

/-- A flag byte: one of `_`, `-`, `0`, `^`, `#`. -/
def flagByte (c : Nat) : Bool := decide (c = 95 ∨ c = 45 ∨ c = 48 ∨ c = 94 ∨ c = 35)

/-- A byte that may stand between `%` and the specifier letter: a flag byte, `E` or `O`. -/
def modByte (c : Nat) : Bool := flagByte c || decide (c = 69 ∨ c = 79)

/-- The last flag byte of a sequence, as a format fragment: empty when there is none. -/
def lastFlag (m : List Nat) : List Nat :=
  match (m.filter flagByte).getLast? with
  | some f => [f]
  | none => []

/-- Whether the scan of `_fmt` is inside a conversion specification after the bytes of a
format: a `%` opens one, flag bytes, `E` and `O` keep it open, any other byte closes it. -/
def inSpec : Bool → List Nat → Bool
  | b, [] => b
  | false, c :: format => inSpec (decide (c = 37)) format
  | true, c :: format => inSpec (modByte c) format

/-- The specifier letters that `_fmt` defines, in the order of its `switch`. -/
def specLetters : List Nat :=
  (str "AaBbhCcDdeFHIjklMmnPpRrSsTtUuVGgvWwXxyYZz+")

/-- An ASCII decimal digit. -/
def isDigit (b : Nat) : Bool := decide (48 ≤ b ∧ b ≤ 57)

/-- The value of a string of decimal digits, read from the left. -/
def decVal (l : List Nat) : Nat := l.foldl (fun a b => 10 * a + (b - 48)) 0

/-- The number that a non-empty string of decimal digits denotes. -/
def readNat (l : List Nat) : Option Nat :=
  if l ≠ [] ∧ l.all isDigit = true then some (decVal l) else none

/-- The integer that a signed decimal numeral denotes: an optional `-`, then digits. -/
def readInt (l : List Nat) : Option Int :=
  match l with
  | 45 :: r => (readNat r).map fun (n : Nat) => -(n : Int)
  | _ => (readNat l).map fun (n : Nat) => (n : Int)

/-! ## The calendar of the statements -/

/-- The Gregorian leap-year rule, by divisibility. -/
def leapYear (y : Int) : Bool := decide (y % 4 = 0 ∧ (y % 100 ≠ 0 ∨ y % 400 = 0))

/-- The number of days of the Gregorian year `y`. -/
def daysInYear (y : Int) : Int := if leapYear y then 366 else 365

/-- The number of days from January 1 of the year 1 to January 1 of the year `y` in the
(proleptic) Gregorian calendar. -/
def daysBeforeYear (y : Int) : Int :=
  365 * (y - 1) + (y - 1) / 4 - (y - 1) / 100 + (y - 1) / 400

/-- The day number of the day `yday` (from 0) of the year `y`; day 0 is January 1 of the
year 1, a Monday. -/
def dayNumber (y yday : Int) : Int := daysBeforeYear y + yday

/-- The weekday of a day number, 0 for Sunday to 6 for Saturday. -/
def weekdayOf (d : Int) : Int := (d + 1) % 7

/-- The day number of the Monday of the week that contains January 4 of the year `y`: the
first day of the ISO 8601 year `y`. -/
def isoYearStart (y : Int) : Int := dayNumber y 3 - dayNumber y 3 % 7

/-- A timestamp whose `tm_yday` is a day of its year and whose `tm_wday` is the weekday of
that day. -/
def Consistent (t : tm) : Prop :=
  0 ≤ t.tm_yday ∧ t.tm_yday < daysInYear (t.tm_year + TM_YEAR_BASE) ∧
    t.tm_wday = weekdayOf (dayNumber (t.tm_year + TM_YEAR_BASE) t.tm_yday)

instance (t : tm) : Decidable (Consistent t) := by
  unfold Consistent
  exact inferInstance

/-- The weekday number of `case 'u'`: 1 for Monday to 7 for Sunday. -/
def isoWeekday (t : tm) : Int := if t.tm_wday = 0 then DAYSPERWEEK else t.tm_wday

/-! ## Example inputs -/

/-- The timestamp `T0` of the concrete scenarios, with a zone string and an offset. -/
def T0 : tm :=
  { tm_sec := 7, tm_min := 6, tm_hour := 5, tm_mday := 4, tm_mon := 2, tm_year := 108,
    tm_wday := 2, tm_yday := 93, tm_isdst := 1, tm_gmtoff := -25200,
    tm_zone := some (str "PDT") }

/-- An environment for the examples: the build of bionic, where `TM_GMTOFF` is set. -/
def E0 : Env :=
  { tzname0 := some (str "PST"), tzname1 := some (str "PDT"), mktime64 := fun _ => 1207310767,
    TM_GMTOFF := true, USG_COMPAT := false, ALTZONE := false, timezone := 0, altzone := 0 }

/-- The timestamp of 1996-12-31, a Tuesday. -/
def T1996 : tm :=
  { tm_sec := 0, tm_min := 0, tm_hour := 0, tm_mday := 31, tm_mon := 11, tm_year := 96,
    tm_wday := 2, tm_yday := 365, tm_isdst := 0, tm_gmtoff := 0, tm_zone := some (str "UTC") }

/-- A memory that holds the byte 255 everywhere. -/
def mem0 : Nat → Nat := fun _ => 255

/-! ## Numerals, padding and strings of the statements -/

/-- The standard decimal numeral of a natural number, as bytes. -/
def decimal (n : Nat) : List Nat := (Nat.toDigits 10 n).map Char.toNat

/-- The bytes `d` behind as many copies of the byte `f` as bring them to the width `w`. -/
def padTo (f w : Nat) (d : List Nat) : List Nat := List.replicate (w - d.length) f ++ d

/-- The numeral `d` as a specifier of least width `w` renders it under the flag `_`, `-` or
`0`: behind spaces, bare, behind zeros. -/
def flagPad (flag w : Nat) (d : List Nat) : List Nat :=
  if flag = 95 then padTo 32 w d else if flag = 48 then padTo 48 w d else d

/-- The least width of the number of a specifier letter: 3 for `j`, 2 for the others. -/
def fieldWidth (c : Nat) : Nat := if c = 106 then 3 else 2

/-- The number that the case of the specifier letter `c` gives to `_conv`, for the letters
`d e H I j k l M m S U V W`. -/
def fieldValue (c : Nat) (t : tm) : Option Int :=
  if c = 100 ∨ c = 101 then some t.tm_mday
  else if c = 72 ∨ c = 107 then some t.tm_hour
  else if c = 73 ∨ c = 108 then
    some (if Int.tmod t.tm_hour 12 ≠ 0 then Int.tmod t.tm_hour 12 else 12)
  else if c = 106 then some (wrapInt (t.tm_yday + 1))
  else if c = 77 then some t.tm_min
  else if c = 109 then some (wrapInt (t.tm_mon + 1))
  else if c = 83 then some t.tm_sec
  else if c = 85 then
    some (Int.tdiv (wrapInt (t.tm_yday + DAYSPERWEEK - t.tm_wday)) DAYSPERWEEK)
  else if c = 86 then (isoWeek t).map Prod.snd
  else if c = 87 then
    some (Int.tdiv (wrapInt (t.tm_yday + DAYSPERWEEK -
      (if t.tm_wday ≠ 0 then t.tm_wday - 1 else DAYSPERWEEK - 1))) DAYSPERWEEK)
  else none

/-- The content of a C string: its bytes before the first zero byte. -/
def cstr (s : List Nat) : List Nat := s.takeWhile fun c => c ≠ 0

/-- The content of a string that may be absent: nothing for the null pointer. -/
def cstrOf (z : Option (List Nat)) : List Nat :=
  match z with
  | none => []
  | some s => cstr s

/-- The sign byte of an offset of `sec` seconds: `-` when `sec` is negative, or zero with a
zone string that begins with `-`, and `+` otherwise. -/
def offsetSign (sec : Int) (zone : Option (List Nat)) : Nat :=
  if sec < 0 ∨ (sec = 0 ∧ (cstrOf zone).head? = some 45) then 45 else 43

/-- The number `hhmm` of an offset of `sec` seconds: the hours times 100 plus the minutes. -/
def offsetNumber (sec : Int) : Nat := sec.natAbs / 60 / 60 * 100 + sec.natAbs / 60 % 60

/-! ## Case mapping and warning levels of the statements -/

/-- The byte that `_add` stores for the byte `c` of the string under a modifier: lower case
for `FORCE_LOWER_CASE`, upper case for `^`, the other case for `#`, and `c` itself otherwise. -/
def caseMap (modifier c : Nat) : Nat :=
  if modifier = FORCE_LOWER_CASE then tolower c
  else if modifier = 94 then toupper c
  else if modifier = 35 then swapcase c
  else c

/-- The greater of two values of `enum warn`. -/
def warn.max (a b : warn) : warn := if a.rank < b.rank then b else a

/-- The number of bytes that `"%m/%d/"`, the part of the format of `%x` before its `%y`,
gives for a timestamp: the month, a slash, the day, a slash. -/
def dateHeadLen (t : tm) : Nat :=
  (addBytes (convBuf (wrapInt (t.tm_mon + 1)) (fmt02 0)) 0).length + 1
    + (addBytes (convBuf t.tm_mday (fmt02 0)) 0).length + 1

/-- A specifier letter whose case, or whose format, touches `*warnp`: `y`, `g`, `c`, `x`, and
`D` with its format `"%m/%d/%y"`. -/
def loud (c : Nat) : Bool := decide (c = 121 ∨ c = 103 ∨ c = 99 ∨ c = 120 ∨ c = 68)

/-! ## The writers -/

@[simp] theorem store_pt (b : Buf) (c : Nat) : (b.store c).pt = b.pt := rfl
@[simp] theorem next_pt (b : Buf) : b.next.pt = b.pt + 1 := rfl
@[simp] theorem next_mem (b : Buf) : b.next.mem = b.mem := rfl
theorem store_mem (b : Buf) (c j : Nat) :
    (b.store c).mem j = if j = b.pt then c else b.mem j := by
  simp [Buf.store, Function.update_apply]

theorem store_mem_ne (b : Buf) (c j : Nat) (h : j ≠ b.pt) : (b.store c).mem j = b.mem j := by
  simp [store_mem, h]

theorem store_mem_self (b : Buf) (c : Nat) : (b.store c).mem b.pt = c := by
  simp [store_mem]

theorem addLoop_emits (f : Nat → Nat) (s : List Nat) :
    Emits (addLoop f s) ((s.takeWhile fun c => f c ≠ 0).map f) := by
  induction s with
  | nil =>
    intro pt ptlim hle
    simp only [addLoop, List.takeWhile_nil, List.map_nil, List.length_nil]
    split
    · refine ⟨by simp; omega, by simp, ?_⟩
      intro j hj
      exact store_mem_ne _ _ _ (by omega)
    · refine ⟨by simp; omega, by simp, fun _ _ => rfl⟩
  | cons c s ih =>
    intro pt ptlim hle
    simp only [addLoop]
    split
    · rename_i hlt
      split
      · rename_i h0
        have hd : decide (f c ≠ 0) = false := by simpa using h0
        simp only [List.takeWhile_cons, hd, Bool.false_eq_true, ↓reduceIte, List.map_nil,
          List.length_nil]
        refine ⟨by simp; omega, by simp, ?_⟩
        intro j hj
        exact store_mem_ne _ _ _ (by omega)
      · rename_i h0
        have ih1 := ih (pt.store (f c)).next ptlim (by simp; omega)
        simp only [next_pt, store_pt, next_mem] at ih1
        obtain ⟨h1, h2, h3⟩ := ih1
        have hd : decide (f c ≠ 0) = true := by simpa using h0
        simp only [List.takeWhile_cons, hd, ↓reduceIte, List.map_cons, List.length_cons]
        refine ⟨by rw [h1]; omega, ?_, ?_⟩
        · intro i hi hlim
          cases i with
          | zero =>
            rw [h3 _ (Or.inl (by omega))]
            simp [store_mem]
          | succ i =>
            have := h2 i (by simpa using hi) (by omega)
            rw [show pt.pt + (i + 1) = pt.pt + 1 + i by omega, this]
            simp
        · intro j hj
          rw [h3 j (by omega)]
          exact store_mem_ne _ _ _ (by omega)
    · rename_i hlt
      have : pt.pt = ptlim := by omega
      refine ⟨by omega, ?_, fun _ _ => rfl⟩
      intro i _ hi
      omega

theorem addSwapLoop_emits (s : List Nat) :
    Emits (addSwapLoop s) ((s.takeWhile fun c => c ≠ 0).map swapcase) := by
  induction s with
  | nil =>
    intro pt ptlim hle
    simp only [addSwapLoop, List.takeWhile_nil, List.map_nil, List.length_nil]
    exact ⟨by omega, by simp, fun _ _ => trivial⟩
  | cons c s ih =>
    intro pt ptlim hle
    simp only [addSwapLoop]
    split
    · rename_i hc
      obtain ⟨hlt, h0⟩ := hc
      have ih1 := ih (pt.store (swapcase c)).next ptlim (by simp; omega)
      simp only [next_pt, store_pt, next_mem] at ih1
      obtain ⟨h1, h2, h3⟩ := ih1
      have hd : decide (c ≠ 0) = true := by simpa using h0
      simp only [List.takeWhile_cons, hd, ↓reduceIte, List.map_cons, List.length_cons]
      refine ⟨by rw [h1]; omega, ?_, ?_⟩
      · intro i hi hlim
        cases i with
        | zero =>
          rw [h3 _ (Or.inl (by omega))]
          simp [store_mem]
        | succ i =>
          have := h2 i (by simpa using hi) (by omega)
          rw [show pt.pt + (i + 1) = pt.pt + 1 + i by omega, this]
          simp
      · intro j hj
        rw [h3 j (by omega)]
        exact store_mem_ne _ _ _ (by omega)
    · rename_i hc
      by_cases h0 : c = 0
      · have hd : decide (c ≠ 0) = false := by simpa using h0
        simp only [List.takeWhile_cons, hd, Bool.false_eq_true, ↓reduceIte, List.map_nil,
          List.length_nil]
        exact ⟨by omega, by simp, fun _ _ => trivial⟩
      · have : pt.pt = ptlim := by
          by_contra hne
          exact hc ⟨by omega, h0⟩
        refine ⟨by omega, ?_, fun _ _ => rfl⟩
        intro i _ hi
        omega

theorem add_emits (s : List Nat) (modifier : Nat) :
    Emits (fun pt ptlim => _add s pt ptlim modifier) (addBytes s modifier) := by
  unfold _add addBytes
  split
  · exact addLoop_emits _ _
  split
  · exact addLoop_emits _ _
  split
  · exact addSwapLoop_emits _
  · exact addLoop_emits _ _

theorem conv_emits (n : Int) (format : List Nat) :
    Emits (fun pt ptlim => _conv n format pt ptlim) (addBytes (convBuf n format) 0) :=
  add_emits (convBuf n format) 0

theorem emits_skip : Emits (fun pt _ => pt) [] := by
  intro pt ptlim h
  exact ⟨by simp; omega, by simp, fun _ _ => rfl⟩

theorem emits_comp {f g : Buf → Nat → Buf} {a b : List Nat} (hf : Emits f a) (hg : Emits g b) :
    Emits (fun pt ptlim => g (f pt ptlim) ptlim) (a ++ b) := by
  intro pt ptlim hle
  obtain ⟨f1, f2, f3⟩ := hf pt ptlim hle
  obtain ⟨g1, g2, g3⟩ := hg (f pt ptlim) ptlim (by rw [f1]; omega)
  refine ⟨by simp only [g1, f1, List.length_append]; omega, ?_, ?_⟩
  · intro i hi hlim
    simp only [List.length_append] at hi
    by_cases hia : i < a.length
    · rw [g3 _ (Or.inl (by rw [f1]; omega)), f2 i hia hlim]
      simp [List.getD_eq_getElem?_getD, List.getElem?_append_left hia]
    · have hfp : (f pt ptlim).pt = pt.pt + a.length := by rw [f1]; omega
      have := g2 (i - a.length) (by omega) (by rw [hfp]; omega)
      rw [hfp, show pt.pt + a.length + (i - a.length) = pt.pt + i by omega] at this
      rw [this]
      simp [List.getD_eq_getElem?_getD, List.getElem?_append_right (Nat.le_of_not_lt hia)]
  · intro j hj
    rw [g3 j (by rw [f1]; omega), f3 j hj]

theorem yconv_emits (a b : Int) (top yy : Bool) (modifier : Nat) :
    Emits (fun pt ptlim => _yconv a b top yy pt ptlim modifier) (yconvBytes a b top yy modifier) := by
  unfold _yconv yconvBytes
  apply emits_comp (f := fun pt ptlim => if top = true then
      if (yearSplit a b).1 = 0 ∧ (yearSplit a b).2 < 0 then _add (str "-0") pt ptlim modifier
      else _conv (yearSplit a b).1 (getformat modifier (str "02") (str " 2") (str "  ") (str "02")) pt ptlim
    else pt) (g := fun pt ptlim => if yy = true then
    _conv (if (yearSplit a b).2 < 0 then -(yearSplit a b).2 else (yearSplit a b).2)
      (getformat modifier (str "02") (str " 2") (str "  ") (str "02")) pt ptlim
  else pt)
  · cases top
    · simpa using emits_skip
    · by_cases h : (yearSplit a b).1 = 0 ∧ (yearSplit a b).2 < 0
      · simp only [h, and_self, ↓reduceIte]
        exact add_emits _ _
      · simp only [h, ↓reduceIte]
        exact conv_emits _ _
  · cases yy
    · simpa using emits_skip
    · simp only [↓reduceIte]
      exact conv_emits _ _

theorem addName_writer {table : List (List Nat)} {n i : Int} {modifier : Nat} {all : Bool}
    {f : Buf → Nat → Buf} (h : addName table n i modifier = .write all f) : ∃ bs, Emits f bs := by
  unfold addName at h
  split at h
  · cases h; exact ⟨_, add_emits _ _⟩
  · split at h
    · cases h; exact ⟨_, add_emits _ _⟩
    · cases h

theorem zoneOffset_writer {modifier : Nat} {t : tm} {env : Env} {all : Bool}
    {f : Buf → Nat → Buf} (h : zoneOffset modifier t env = .write all f) : ∃ bs, Emits f bs := by
  unfold zoneOffset at h
  split at h
  · cases h; exact ⟨_, emits_skip⟩
  · simp only at h
    split at h
    · cases h; exact ⟨_, emits_skip⟩
    · split at h
      · cases h
      · cases h
        exact ⟨_, emits_comp (add_emits _ _) (conv_emits _ _)⟩

theorem dispatch_writer {c modifier : Nat} {t : tm} {env : Env} {all : Bool}
    {f : Buf → Nat → Buf} (h : dispatch c modifier t env = .write all f) : ∃ bs, Emits f bs := by
  unfold dispatch at h
  split at h <;>
    first
    | exact addName_writer h
    | exact zoneOffset_writer h
    | (cases h; exact ⟨_, add_emits _ _⟩)
    | (cases h; exact ⟨_, conv_emits _ _⟩)
    | (cases h; exact ⟨_, yconv_emits _ _ _ _ _⟩)
    | (split at h <;> first
        | (cases h; exact ⟨_, conv_emits _ _⟩)
        | (cases h; exact ⟨_, yconv_emits _ _ _ _ _⟩)
        | cases h)
    | cases h

/-! ## The cursor stays within the limit -/

theorem within_refl (pt : Buf) (ptlim : Nat) (h : pt.pt ≤ ptlim) : Within pt ptlim pt :=
  ⟨Nat.le_refl _, h, fun _ _ => rfl⟩

theorem within_trans {a b c : Buf} {ptlim : Nat} (h1 : Within a ptlim b) (h2 : Within b ptlim c) :
    Within a ptlim c := by
  obtain ⟨a1, a2, a3⟩ := h1
  obtain ⟨b1, b2, b3⟩ := h2
  refine ⟨by omega, b2, ?_⟩
  intro j hj
  rw [b3 j (by omega), a3 j hj]

theorem emits_within {f : Buf → Nat → Buf} {bs : List Nat} (hf : Emits f bs) (pt : Buf)
    (ptlim : Nat) (h : pt.pt ≤ ptlim) : Within pt ptlim (f pt ptlim) := by
  obtain ⟨h1, _, h3⟩ := hf pt ptlim h
  exact ⟨by rw [h1]; omega, by rw [h1]; omega, h3⟩

theorem putByte_within {c : Nat} {pt r : Buf} {ptlim : Nat} (h : pt.pt ≤ ptlim)
    (hp : putByte c pt ptlim = some r) : Within pt ptlim r := by
  unfold putByte at hp
  split at hp
  · cases hp
  · cases hp
    refine ⟨by simp, by simp; omega, ?_⟩
    intro j hj
    simp only [next_mem]
    exact store_mem_ne _ _ _ (by omega)

theorem putByte_none {c : Nat} {pt : Buf} {ptlim : Nat} :
    putByte c pt ptlim = none ↔ pt.pt = ptlim := by
  unfold putByte
  split <;> simp_all

theorem fmtLoop_within (self : List Nat → Buf → warn → Option (Buf × warn)) (t : tm) (env : Env)
    (ptlim : Nat)
    (hself : ∀ f pt w r w2, pt.pt ≤ ptlim → self f pt w = some (r, w2) → Within pt ptlim r)
    (format : List Nat) :
    ∀ (mode : Option (Nat × Nat)) (pt : Buf) (w : warn) (r : Buf) (w2 : warn), pt.pt ≤ ptlim →
      fmtLoop self t env ptlim mode format pt w = some (r, w2) → Within pt ptlim r := by
  have tail : ∀ (c : Nat) (pt : Buf) (w : warn) (r : Buf) (w2 : warn), pt.pt ≤ ptlim →
      (match putByte c pt ptlim with
        | none => some (pt, w)
        | some pt => some (pt, w)) = some (r, w2) → Within pt ptlim r := by
    intro c pt w r w2 hle h
    split at h
    · cases h; exact within_refl _ _ hle
    · rename_i p hp
      cases h; exact putByte_within hle hp
  induction format with
  | nil =>
    intro mode pt w r w2 hle h
    cases mode with
    | none =>
      simp only [fmtLoop] at h
      cases h; exact within_refl _ _ hle
    | some m =>
      obtain ⟨prev, modifier⟩ := m
      simp only [fmtLoop] at h
      exact tail _ _ _ _ _ hle h
  | cons c format ih =>
    intro mode pt w r w2 hle h
    have lit : ∀ (x : Nat), (match putByte x pt ptlim with
        | none => some (pt, w)
        | some pt => fmtLoop self t env ptlim none format pt w) = some (r, w2) →
        Within pt ptlim r := by
      intro x h
      split at h
      · cases h; exact within_refl _ _ hle
      · rename_i p hp
        have hw := putByte_within hle hp
        exact within_trans hw (ih _ _ _ _ _ hw.2.1 h)
    cases mode with
    | none =>
      simp only [fmtLoop] at h
      split at h
      · cases h; exact within_refl _ _ hle
      split at h
      · exact ih _ _ _ _ _ hle h
      · exact lit _ h
    | some m =>
      obtain ⟨prev, modifier⟩ := m
      simp only [fmtLoop] at h
      split at h
      · exact tail _ _ _ _ _ hle h
      split at h
      · rename_i all f hd
        obtain ⟨bs, hf⟩ := dispatch_writer hd
        have hw := emits_within hf pt ptlim hle
        exact within_trans hw (ih _ _ _ _ _ hw.2.1 h)
      · split at h
        · cases h
        · rename_i p wp hs
          have hw := hself _ _ _ _ _ hle hs
          exact within_trans hw (ih _ _ _ _ _ hw.2.1 h)
      · exact ih _ _ _ _ _ hle h
      · exact lit _ h
      · cases h

theorem fmtSelf_within (t : tm) (env : Env) (ptlim : Nat) (depth : Nat) :
    ∀ f pt w r w2, pt.pt ≤ ptlim → fmtSelf t env ptlim depth f pt w = some (r, w2) →
      Within pt ptlim r := by
  induction depth with
  | zero => intro f pt w r w2 _ h; simp [fmtSelf] at h
  | succ d ih =>
    intro f pt w r w2 hle h
    simp only [fmtSelf] at h
    exact fmtLoop_within _ t env ptlim ih f none pt w r w2 hle h

theorem fmt_within {depth : Nat} {format : List Nat} {t : tm} {env : Env} {pt r : Buf}
    {ptlim : Nat} {w w2 : warn} (hle : pt.pt ≤ ptlim)
    (h : _fmt depth format t env pt ptlim w = some (r, w2)) : Within pt ptlim r :=
  fmtLoop_within _ t env ptlim (fmtSelf_within t env ptlim depth) format none pt w r w2 hle h

/-! ## A run under a smaller limit is the cut of a run under a larger one -/

theorem cut_le {lim : Nat} {b u : Buf} (h : Cut lim b u) : b.pt ≤ lim := by
  rw [h.1]; omega

theorem cut_self (lim : Nat) (pt : Buf) (h : pt.pt ≤ lim) : Cut lim pt pt :=
  ⟨by omega, fun _ _ => rfl⟩

theorem cut_frozen {lim big : Nat} {b u u2 : Buf} (h : Cut lim b u) (hb : b.pt = lim)
    (hw : Within u big u2) : Cut lim b u2 := by
  obtain ⟨h1, h2⟩ := h
  obtain ⟨w1, _, w3⟩ := hw
  refine ⟨by omega, ?_⟩
  intro i hi
  rw [h2 i hi, w3 i (by omega)]

theorem emits_cut {f : Buf → Nat → Buf} {bs : List Nat} (hf : Emits f bs) {lim big : Nat}
    (hlb : lim ≤ big) {b u : Buf} (h : Cut lim b u) (hu : u.pt ≤ big) :
    Cut lim (f b lim) (f u big) := by
  obtain ⟨h1, h2⟩ := h
  obtain ⟨b1, b2, b3⟩ := hf b lim (by omega)
  obtain ⟨u1, u2, u3⟩ := hf u big hu
  refine ⟨by rw [b1, u1]; omega, ?_⟩
  intro i hi
  rw [b1] at hi
  by_cases hib : i < b.pt
  · rw [b3 i (Or.inl hib), u3 i (Or.inl (by omega)), h2 i hib]
  · have hbu : b.pt = u.pt := by omega
    have e1 := b2 (i - b.pt) (by omega) (by omega)
    have e2 := u2 (i - u.pt) (by omega) (by omega)
    rw [show b.pt + (i - b.pt) = i by omega] at e1
    rw [show u.pt + (i - u.pt) = i by omega] at e2
    rw [e1, e2, hbu]

theorem putByte_cut {c : Nat} {lim big : Nat} {b u p q : Buf} (h : Cut lim b u)
    (hb : putByte c b lim = some p) (hu : putByte c u big = some q) : Cut lim p q := by
  unfold putByte at hb hu
  split at hb
  · cases hb
  split at hu
  · cases hu
  cases hb; cases hu
  obtain ⟨h1, h2⟩ := h
  have hbu : b.pt = u.pt := by omega
  refine ⟨by simp; omega, ?_⟩
  intro i hi
  simp only [next_pt, store_pt] at hi
  simp only [next_mem, store_mem, hbu]
  split
  · rfl
  · exact h2 i (by omega)

theorem putByte_some_iff (c : Nat) (pt : Buf) (ptlim : Nat) :
    (∃ p, putByte c pt ptlim = some p) ↔ pt.pt ≠ ptlim := by
  unfold putByte
  split <;> simp_all

theorem fmtLoop_cut (selfb selfu : List Nat → Buf → warn → Option (Buf × warn)) (t : tm)
    (env : Env) (lim big : Nat) (hlb : lim ≤ big)
    (hwu : ∀ f pt w r w2, pt.pt ≤ big → selfu f pt w = some (r, w2) → Within pt big r)
    (hself : ∀ f b u wb wu u2 wu2, Cut lim b u → u.pt ≤ big → selfu f u wu = some (u2, wu2) →
      ∃ b2 wb2, selfb f b wb = some (b2, wb2) ∧ Cut lim b2 u2)
    (format : List Nat) :
    ∀ (mode : Option (Nat × Nat)) (b u : Buf) (wb wu : warn) (u2 : Buf) (wu2 : warn),
      Cut lim b u → u.pt ≤ big →
      fmtLoop selfu t env big mode format u wu = some (u2, wu2) →
      ∃ b2 wb2, fmtLoop selfb t env lim mode format b wb = some (b2, wb2) ∧ Cut lim b2 u2 := by
  have tail : ∀ (c : Nat) (b u : Buf) (wb wu : warn) (u2 : Buf) (wu2 : warn),
      Cut lim b u → u.pt ≤ big →
      (match putByte c u big with
        | none => some (u, wu)
        | some pt => some (pt, wu)) = some (u2, wu2) →
      ∃ b2 wb2, (match putByte c b lim with
        | none => some (b, wb)
        | some pt => some (pt, wb)) = some (b2, wb2) ∧ Cut lim b2 u2 := by
    intro c b u wb wu u2 wu2 hc hu h
    split at h
    · rename_i hn
      cases h
      have hbl : b.pt = lim := by
        have := putByte_none.1 hn
        have := hc.1
        omega
      rw [putByte_none.2 hbl]
      exact ⟨_, _, rfl, hc⟩
    · rename_i q hq
      cases h
      cases hp : putByte c b lim with
      | none =>
        refine ⟨_, _, rfl, ?_⟩
        exact cut_frozen hc (putByte_none.1 hp) (putByte_within hu hq)
      | some p => exact ⟨_, _, rfl, putByte_cut hc hp hq⟩
  induction format with
  | nil =>
    intro mode b u wb wu u2 wu2 hc hu h
    cases mode with
    | none =>
      simp only [fmtLoop] at h ⊢
      cases h; exact ⟨_, _, rfl, hc⟩
    | some m =>
      obtain ⟨prev, modifier⟩ := m
      simp only [fmtLoop] at h ⊢
      exact tail _ _ _ _ _ _ _ hc hu h
  | cons c format ih =>
    intro mode b u wb wu u2 wu2 hc hu h
    have lit : ∀ (x : Nat), (match putByte x u big with
        | none => some (u, wu)
        | some pt => fmtLoop selfu t env big none format pt wu) = some (u2, wu2) →
        ∃ b2 wb2, (match putByte x b lim with
        | none => some (b, wb)
        | some pt => fmtLoop selfb t env lim none format pt wb) = some (b2, wb2) ∧
          Cut lim b2 u2 := by
      intro x h
      split at h
      · rename_i hn
        cases h
        have hbl : b.pt = lim := by
          have := putByte_none.1 hn
          have := hc.1
          omega
        rw [putByte_none.2 hbl]
        exact ⟨_, _, rfl, hc⟩
      · rename_i q hq
        have hwq := putByte_within hu hq
        cases hp : putByte x b lim with
        | none =>
          refine ⟨_, _, rfl, ?_⟩
          have hw2 := fmtLoop_within selfu t env big hwu format none q wu u2 wu2 hwq.2.1 h
          exact cut_frozen hc (putByte_none.1 hp) (within_trans hwq hw2)
        | some p => exact ih _ _ _ _ _ _ _ (putByte_cut hc hp hq) hwq.2.1 h
    cases mode with
    | none =>
      simp only [fmtLoop] at h ⊢
      split at h
      · rename_i h0
        cases h
        simp only [h0, ↓reduceIte]
        exact ⟨_, _, rfl, hc⟩
      rename_i h0
      simp only [h0, ↓reduceIte]
      split at h
      · rename_i h37
        subst h37
        simp only [↓reduceIte]
        exact ih _ _ _ _ _ _ _ hc hu h
      · rename_i h37
        simp only [h37, ↓reduceIte]
        exact lit _ h
    | some m =>
      obtain ⟨prev, modifier⟩ := m
      simp only [fmtLoop] at h ⊢
      split at h
      · rename_i h0
        simp only [h0, ↓reduceIte]
        exact tail _ _ _ _ _ _ _ hc hu h
      rename_i h0
      simp only [h0, ↓reduceIte]
      split at h
      · rename_i all f hd
        obtain ⟨bs, hf⟩ := dispatch_writer hd
        exact ih _ _ _ _ _ _ _ (emits_cut hf hlb hc hu) (emits_within hf u big hu).2.1 h
      · rename_i fresh sf hd
        split at h
        · cases h
        · rename_i q wq hs
          obtain ⟨b2, wb2, hb2, hc2⟩ := hself sf b u (if fresh = true then warn.IN_SOME else wb)
            _ _ _ hc hu hs
          simp only [hb2]
          exact ih _ _ _ _ _ _ _ hc2 (hwu _ _ _ _ _ hu hs).2.1 h
      · rename_i m hd
        exact ih _ _ _ _ _ _ _ hc hu h
      · rename_i hd
        exact lit _ h
      · cases h

theorem fmtSelf_cut (t : tm) (env : Env) (lim big : Nat) (hlb : lim ≤ big) (depth : Nat) :
    ∀ f b u wb wu u2 wu2, Cut lim b u → u.pt ≤ big →
      fmtSelf t env big depth f u wu = some (u2, wu2) →
      ∃ b2 wb2, fmtSelf t env lim depth f b wb = some (b2, wb2) ∧ Cut lim b2 u2 := by
  induction depth with
  | zero => intro f b u wb wu u2 wu2 _ _ h; simp [fmtSelf] at h
  | succ d ih =>
    intro f b u wb wu u2 wu2 hc hu h
    simp only [fmtSelf] at h ⊢
    exact fmtLoop_cut _ _ t env lim big hlb (fmtSelf_within t env big d) ih f none b u wb wu
      u2 wu2 hc hu h

/-- Truncation: what `_fmt` does under a limit `lim` is the cut at `lim` of what it does under
any larger limit. -/
theorem fmt_cut {depth : Nat} {format : List Nat} {t : tm} {env : Env} {lim big : Nat}
    (hlb : lim ≤ big) {b u : Buf} {wb wu : warn} {u2 : Buf} {wu2 : warn} (hc : Cut lim b u)
    (hu : u.pt ≤ big) (h : _fmt depth format t env u big wu = some (u2, wu2)) :
    ∃ b2 wb2, _fmt depth format t env b lim wb = some (b2, wb2) ∧ Cut lim b2 u2 :=
  fmtLoop_cut _ _ t env lim big hlb (fmtSelf_within t env big depth)
    (fmtSelf_cut t env lim big hlb depth) format none b u wb wu u2 wu2 hc hu h

/-! ## A run that stays below its limit is the same under any larger limit -/

theorem cut_below {lim : Nat} {b u : Buf} (h : Cut lim b u) (hb : b.pt < lim) : u.pt = b.pt := by
  have := h.1
  omega

theorem fmtLoop_slack (selfb selfu : List Nat → Buf → warn → Option (Buf × warn)) (t : tm)
    (env : Env) (lim big : Nat) (hlb : lim ≤ big)
    (hwb : ∀ f pt w r w2, pt.pt ≤ lim → selfb f pt w = some (r, w2) → Within pt lim r)
    (hself : ∀ f b u wb wu b2 wb2, Cut lim b u → selfb f b wb = some (b2, wb2) → b2.pt < lim →
      ∃ u2 wu2, selfu f u wu = some (u2, wu2) ∧ Cut lim b2 u2)
    (format : List Nat) :
    ∀ (mode : Option (Nat × Nat)) (b u : Buf) (wb wu : warn) (b2 : Buf) (wb2 : warn),
      Cut lim b u →
      fmtLoop selfb t env lim mode format b wb = some (b2, wb2) → b2.pt < lim →
      ∃ u2 wu2, fmtLoop selfu t env big mode format u wu = some (u2, wu2) ∧ Cut lim b2 u2 := by
  have tail : ∀ (c : Nat) (b u : Buf) (wb wu : warn) (b2 : Buf) (wb2 : warn),
      Cut lim b u →
      (match putByte c b lim with
        | none => some (b, wb)
        | some pt => some (pt, wb)) = some (b2, wb2) → b2.pt < lim →
      ∃ u2 wu2, (match putByte c u big with
        | none => some (u, wu)
        | some pt => some (pt, wu)) = some (u2, wu2) ∧ Cut lim b2 u2 := by
    intro c b u wb wu b2 wb2 hc h hlt
    split at h
    · rename_i hn
      cases h
      have := putByte_none.1 hn
      omega
    · rename_i p hp
      cases h
      have hbl : b.pt < lim := by
        have := (putByte_within (cut_le hc) hp).1
        omega
      have hub := cut_below hc hbl
      obtain ⟨q, hq⟩ := (putByte_some_iff c u big).2 (by omega)
      rw [hq]
      exact ⟨_, _, rfl, putByte_cut hc hp hq⟩
  induction format with
  | nil =>
    intro mode b u wb wu b2 wb2 hc h hlt
    cases mode with
    | none =>
      simp only [fmtLoop] at h ⊢
      cases h; exact ⟨_, _, rfl, hc⟩
    | some m =>
      obtain ⟨prev, modifier⟩ := m
      simp only [fmtLoop] at h ⊢
      exact tail _ _ _ _ _ _ _ hc h hlt
  | cons c format ih =>
    intro mode b u wb wu b2 wb2 hc h hlt
    have hle := cut_le hc
    have lit : ∀ (x : Nat), (match putByte x b lim with
        | none => some (b, wb)
        | some pt => fmtLoop selfb t env lim none format pt wb) = some (b2, wb2) →
        ∃ u2 wu2, (match putByte x u big with
        | none => some (u, wu)
        | some pt => fmtLoop selfu t env big none format pt wu) = some (u2, wu2) ∧
          Cut lim b2 u2 := by
      intro x h
      split at h
      · rename_i hn
        cases h
        have := putByte_none.1 hn
        omega
      · rename_i p hp
        have hwp := putByte_within hle hp
        have hw2 := fmtLoop_within selfb t env lim hwb format none p wb b2 wb2 hwp.2.1 h
        have hbl : b.pt < lim := by
          have := hwp.1
          have := hw2.1
          omega
        have hub := cut_below hc hbl
        obtain ⟨q, hq⟩ := (putByte_some_iff x u big).2 (by omega)
        rw [hq]
        exact ih _ _ _ _ _ _ _ (putByte_cut hc hp hq) h hlt
    cases mode with
    | none =>
      simp only [fmtLoop] at h ⊢
      split at h
      · rename_i h0
        cases h
        simp only [h0, ↓reduceIte]
        exact ⟨_, _, rfl, hc⟩
      rename_i h0
      simp only [h0, ↓reduceIte]
      split at h
      · rename_i h37
        subst h37
        simp only [↓reduceIte]
        exact ih _ _ _ _ _ _ _ hc h hlt
      · rename_i h37
        simp only [h37, ↓reduceIte]
        exact lit _ h
    | some m =>
      obtain ⟨prev, modifier⟩ := m
      simp only [fmtLoop] at h ⊢
      split at h
      · rename_i h0
        simp only [h0, ↓reduceIte]
        exact tail _ _ _ _ _ _ _ hc h hlt
      rename_i h0
      simp only [h0, ↓reduceIte]
      split at h
      · rename_i all f hd
        obtain ⟨bs, hf⟩ := dispatch_writer hd
        have hw1 := emits_within hf b lim hle
        have hw2 := fmtLoop_within selfb t env lim hwb format none _ _ b2 wb2 hw1.2.1 h
        have hbl : b.pt < lim := by
          have := hw1.1
          have := hw2.1
          omega
        have hub := cut_below hc hbl
        exact ih _ _ _ _ _ _ _ (emits_cut hf hlb hc (by omega)) h hlt
      · rename_i fresh sf hd
        split at h
        · cases h
        · rename_i p wp hs
          have hw1 := hwb _ _ _ _ _ hle hs
          have hw2 := fmtLoop_within selfb t env lim hwb format none _ _ b2 wb2 hw1.2.1 h
          obtain ⟨u2, wu2, hu2, hc2⟩ := hself sf b u _ (if fresh = true then warn.IN_SOME else wu)
            _ _ hc hs (by have := hw2.1; omega)
          simp only [hu2]
          exact ih _ _ _ _ _ _ _ hc2 h hlt
      · exact ih _ _ _ _ _ _ _ hc h hlt
      · exact lit _ h
      · cases h

theorem fmtSelf_slack (t : tm) (env : Env) (lim big : Nat) (hlb : lim ≤ big) (depth : Nat) :
    ∀ f b u wb wu b2 wb2, Cut lim b u → fmtSelf t env lim depth f b wb = some (b2, wb2) →
      b2.pt < lim → ∃ u2 wu2, fmtSelf t env big depth f u wu = some (u2, wu2) ∧ Cut lim b2 u2 := by
  induction depth with
  | zero => intro f b u wb wu b2 wb2 _ h; simp [fmtSelf] at h
  | succ d ih =>
    intro f b u wb wu b2 wb2 hc h hlt
    simp only [fmtSelf] at h ⊢
    exact fmtLoop_slack _ _ t env lim big hlb (fmtSelf_within t env lim d) ih f none b u wb wu
      b2 wb2 hc h hlt

/-- A run of `_fmt` that ends below its limit ends at the same cursor, with the same bytes
below it, under any larger limit. -/
theorem fmt_slack {depth : Nat} {format : List Nat} {t : tm} {env : Env} {lim big : Nat}
    (hlb : lim ≤ big) {b u : Buf} {wb wu : warn} {b2 : Buf} {wb2 : warn} (hc : Cut lim b u)
    (h : _fmt depth format t env b lim wb = some (b2, wb2)) (hlt : b2.pt < lim) :
    ∃ u2 wu2, _fmt depth format t env u big wu = some (u2, wu2) ∧ Cut lim b2 u2 :=
  fmtLoop_slack _ _ t env lim big hlb (fmtSelf_within t env lim depth)
    (fmtSelf_slack t env lim big hlb depth) format none b u wb wu b2 wb2 hc h hlt

/-! ## C division and remainder -/

theorem tdiv_cases (x k : Int) (hk : 0 < k) :
    (0 ≤ x ∧ Int.tdiv x k = x / k) ∨ (x < 0 ∧ Int.tdiv x k = -((-x) / k)) := by
  by_cases h : 0 ≤ x
  · exact Or.inl ⟨h, Int.tdiv_eq_ediv h (by omega)⟩
  · refine Or.inr ⟨by omega, ?_⟩
    have h1 : Int.tdiv (-x) k = (-x) / k := Int.tdiv_eq_ediv (by omega) (by omega)
    rw [← h1, Int.neg_tdiv, Int.neg_neg]

theorem tmod_cases (x k : Int) (hk : 0 < k) :
    (0 ≤ x ∧ Int.tmod x k = x % k) ∨ (x < 0 ∧ Int.tmod x k = -((-x) % k)) := by
  have hmd := Int.tmod_add_tdiv x k
  have hed := Int.emod_add_ediv x k
  have hed2 := Int.emod_add_ediv (-x) k
  rcases tdiv_cases x k hk with ⟨h1, h2⟩ | ⟨h1, h2⟩
  · refine Or.inl ⟨h1, ?_⟩
    rw [h2] at hmd
    omega
  · refine Or.inr ⟨h1, ?_⟩
    rw [h2] at hmd
    have e : k * -(-x / k) = -(k * (-x / k)) := by ring
    rw [e] at hmd
    omega

theorem tmod7_bounds (x : Int) : -6 ≤ Int.tmod x 7 ∧ Int.tmod x 7 ≤ 6 := by
  rcases tmod_cases x 7 (by norm_num) with ⟨_, h2⟩ | ⟨_, h2⟩ <;> rw [h2] <;> omega

/-! ## The week loop ends -/

theorem yearLen_cases (year base : Int) : yearLen year base = 365 ∨ yearLen year base = 366 := by
  unfold yearLen DAYSPERLYEAR DAYSPERNYEAR
  split <;> simp

theorem isoBot_bounds (yday wday : Int) : -9 ≤ isoBot yday wday ∧ isoBot yday wday ≤ 3 := by
  have hb := tmod7_bounds (wrapInt (yday + 11 - wday))
  unfold isoBot DAYSPERWEEK
  omega

theorem isoLoop_some (k : Nat) : ∀ (year base yday wday : Int), (3 - yday).toNat < k →
    ∃ r, isoLoop k year base yday wday = some r := by
  induction k with
  | zero => intro _ _ _ _ h; omega
  | succ k ih =>
    intro year base yday wday hk
    simp only [isoLoop]
    by_cases h1 : yday ≥ isoTop (isoBot yday wday) (yearLen year base)
    · simp only [h1, ↓reduceIte]
      exact ⟨_, rfl⟩
    simp only [h1, ↓reduceIte]
    by_cases h2 : yday ≥ isoBot yday wday
    · simp only [h2, ↓reduceIte]
      exact ⟨_, rfl⟩
    simp only [h2, ↓reduceIte]
    apply ih
    have hb := isoBot_bounds yday wday
    rcases yearLen_cases year (wrapInt (base - 1)) with hl | hl <;> rw [hl] <;>
      unfold wrapInt <;> omega

theorem isoWeek_some (t : tm) : ∃ r, isoWeek t = some r :=
  isoLoop_some _ _ _ _ _ (by omega)

/-! ## `_fmt` returns -/

theorem addName_ne_stuck {table : List (List Nat)} {n i : Int} {modifier : Nat}
    (hn : n ≤ table.length) : addName table n i modifier ≠ .stuck := by
  unfold addName
  split
  · simp
  · rename_i h
    have hlt : i.toNat < table.length := by omega
    have : lookup table i = some (table.get ⟨i.toNat, hlt⟩) := by
      unfold lookup
      rw [if_pos (by omega)]
      exact List.get?_eq_get hlt
    rw [this]
    simp

theorem addName_ne_sub {table : List (List Nat)} {n i : Int} {modifier : Nat} {fresh : Bool}
    {f : List Nat} : addName table n i modifier ≠ .sub fresh f := by
  unfold addName
  split
  · simp
  · split <;> simp

theorem zoneOffset_ne_stuck {modifier : Nat} {t : tm} {env : Env} (hz : t.tm_zone ≠ none) :
    zoneOffset modifier t env ≠ .stuck := by
  obtain ⟨z, hz⟩ := Option.ne_none_iff_exists.1 hz
  unfold zoneOffset
  split
  · simp
  · simp only
    split
    · simp
    · split
      · rename_i h
        rw [← hz] at h
        split at h <;> simp at h
      · simp

theorem zoneOffset_ne_sub {modifier : Nat} {t : tm} {env : Env} {fresh : Bool} {f : List Nat} :
    zoneOffset modifier t env ≠ .sub fresh f := by
  unfold zoneOffset
  split
  · simp
  · simp only
    split
    · simp
    · split <;> simp

theorem dispatch_ne_stuck {c modifier : Nat} {t : tm} {env : Env} (hz : t.tm_zone ≠ none) :
    dispatch c modifier t env ≠ .stuck := by
  obtain ⟨r, hr⟩ := isoWeek_some t
  unfold dispatch
  split <;>
    first
    | exact addName_ne_stuck (by decide)
    | exact zoneOffset_ne_stuck hz
    | (rw [hr]; simp)
    | simp

theorem dispatch_sub_rank {c modifier : Nat} {t : tm} {env : Env} {fresh : Bool} {f : List Nat}
    (h : dispatch c modifier t env = .sub fresh f) :
    1 ≤ nestRank c ∧ ∀ x ∈ f, nestRank x + 1 ≤ nestRank c := by
  unfold dispatch at h
  split at h <;>
    first
    | exact absurd h addName_ne_sub
    | exact absurd h zoneOffset_ne_sub
    | (cases h; decide)
    | (split at h <;> cases h)
    | cases h

theorem fmtLoop_returns (self : List Nat → Buf → warn → Option (Buf × warn)) (t : tm) (env : Env)
    (ptlim : Nat) (hz : t.tm_zone ≠ none)
    (hself : ∀ c m fresh f, dispatch c m t env = .sub fresh f → ∀ pt w, ∃ r, self f pt w = some r)
    (format : List Nat) :
    ∀ (mode : Option (Nat × Nat)) (pt : Buf) (w : warn),
      ∃ r, fmtLoop self t env ptlim mode format pt w = some r := by
  induction format with
  | nil =>
    intro mode pt w
    cases mode with
    | none => exact ⟨_, rfl⟩
    | some m =>
      obtain ⟨prev, modifier⟩ := m
      simp only [fmtLoop]
      split <;> exact ⟨_, rfl⟩
  | cons c format ih =>
    intro mode pt w
    cases mode with
    | none =>
      simp only [fmtLoop]
      split
      · exact ⟨_, rfl⟩
      split
      · exact ih _ _ _
      · split
        · exact ⟨_, rfl⟩
        · exact ih _ _ _
    | some m =>
      obtain ⟨prev, modifier⟩ := m
      simp only [fmtLoop]
      split
      · split <;> exact ⟨_, rfl⟩
      split
      · exact ih _ _ _
      · rename_i fresh sf hd
        obtain ⟨r, hr⟩ := hself _ _ _ _ hd pt (if fresh = true then warn.IN_SOME else w)
        rw [hr]
        exact ih _ _ _
      · exact ih _ _ _
      · split
        · exact ⟨_, rfl⟩
        · exact ih _ _ _
      · rename_i hd
        exact absurd hd (dispatch_ne_stuck hz)

theorem fmtLoop_returns_ranked (self : List Nat → Buf → warn → Option (Buf × warn)) (t : tm)
    (env : Env) (ptlim : Nat) (hz : t.tm_zone ≠ none) (d : Nat)
    (hself : ∀ c m fresh f, nestRank c ≤ d → dispatch c m t env = .sub fresh f →
      ∀ pt w, ∃ r, self f pt w = some r)
    (format : List Nat) :
    (∀ x ∈ format, nestRank x ≤ d) → ∀ (mode : Option (Nat × Nat)) (pt : Buf) (w : warn),
      ∃ r, fmtLoop self t env ptlim mode format pt w = some r := by
  induction format with
  | nil =>
    intro _ mode pt w
    cases mode with
    | none => exact ⟨_, rfl⟩
    | some m =>
      obtain ⟨prev, modifier⟩ := m
      simp only [fmtLoop]
      split <;> exact ⟨_, rfl⟩
  | cons c format ih =>
    intro hr mode pt w
    have hc : nestRank c ≤ d := hr c (List.mem_cons_self _ _)
    have ih := ih (fun x hx => hr x (List.mem_cons_of_mem _ hx))
    cases mode with
    | none =>
      simp only [fmtLoop]
      split
      · exact ⟨_, rfl⟩
      split
      · exact ih _ _ _
      · split
        · exact ⟨_, rfl⟩
        · exact ih _ _ _
    | some m =>
      obtain ⟨prev, modifier⟩ := m
      simp only [fmtLoop]
      split
      · split <;> exact ⟨_, rfl⟩
      split
      · exact ih _ _ _
      · rename_i fresh sf hd
        obtain ⟨r, hr⟩ := hself _ _ _ _ hc hd pt (if fresh = true then warn.IN_SOME else w)
        rw [hr]
        exact ih _ _ _
      · exact ih _ _ _
      · split
        · exact ⟨_, rfl⟩
        · exact ih _ _ _
      · rename_i hd
        exact absurd hd (dispatch_ne_stuck hz)

theorem fmtSelf_returns (t : tm) (env : Env) (ptlim : Nat) (hz : t.tm_zone ≠ none) (d : Nat) :
    ∀ f, (∀ x ∈ f, nestRank x ≤ d) → ∀ pt w, ∃ r, fmtSelf t env ptlim (d + 1) f pt w = some r := by
  induction d with
  | zero =>
    intro f hf pt w
    simp only [fmtSelf]
    refine fmtLoop_returns_ranked _ t env ptlim hz 0 ?_ f hf none pt w
    intro c m fresh sf hc hd
    have := (dispatch_sub_rank hd).1
    omega
  | succ d ih =>
    intro f hf pt w
    simp only [fmtSelf]
    refine fmtLoop_returns_ranked _ t env ptlim hz (d + 1) ?_ f hf none pt w
    intro c m fresh sf hc hd
    apply ih
    intro x hx
    have := (dispatch_sub_rank hd).2 x hx
    omega

theorem nestRank_le (c : Nat) : nestRank c ≤ 2 := by
  unfold nestRank
  split
  · omega
  · split <;> omega

/-- With two nested calls allowed and a zone string present, `_fmt` returns. -/
theorem fmt_returns {depth : Nat} (hd : 2 ≤ depth) (format : List Nat) (t : tm) (env : Env)
    (hz : t.tm_zone ≠ none) (pt : Buf) (ptlim : Nat) (w : warn) :
    ∃ r, _fmt depth format t env pt ptlim w = some r := by
  unfold _fmt
  refine fmtLoop_returns _ t env ptlim hz ?_ format none pt w
  intro c m fresh sf hdc
  obtain ⟨d, rfl⟩ : ∃ d, depth = d + 1 := ⟨depth - 1, by omega⟩
  apply fmtSelf_returns t env ptlim hz d
  intro x hx
  have := (dispatch_sub_rank hdc).2 x hx
  have := nestRank_le c
  omega

/-! ## The expansion of a format does not depend on the limit -/

theorem appends_stop (pt : Buf) (ptlim : Nat) (bs : List Nat) (h : pt.pt = ptlim) :
    Appends pt ptlim bs pt :=
  ⟨by omega, fun i _ hi => by omega⟩

theorem appends_nil (pt : Buf) (ptlim : Nat) (h : pt.pt ≤ ptlim) : Appends pt ptlim [] pt :=
  ⟨by simp; omega, fun i hi _ => by simp at hi⟩

theorem emits_appends {f : Buf → Nat → Buf} {bs : List Nat} (hf : Emits f bs) (pt : Buf)
    (ptlim : Nat) (h : pt.pt ≤ ptlim) : Appends pt ptlim bs (f pt ptlim) :=
  ⟨(hf pt ptlim h).1, (hf pt ptlim h).2.1⟩

theorem appends_comp {pt r1 r : Buf} {ptlim : Nat} {a b : List Nat}
    (h1 : Appends pt ptlim a r1) (hw : Within r1 ptlim r) (h2 : Appends r1 ptlim b r) :
    Appends pt ptlim (a ++ b) r := by
  obtain ⟨a1, a2⟩ := h1
  obtain ⟨b1, b2⟩ := h2
  obtain ⟨_, _, w3⟩ := hw
  refine ⟨by simp only [List.length_append]; omega, ?_⟩
  intro i hi hlim
  simp only [List.length_append] at hi
  by_cases hia : i < a.length
  · rw [w3 _ (Or.inl (by omega)), a2 i hia hlim]
    simp [List.getD_eq_getElem?_getD, List.getElem?_append_left hia]
  · have hr1 : r1.pt = pt.pt + a.length := by omega
    have := b2 (i - a.length) (by omega) (by omega)
    rw [hr1, show pt.pt + a.length + (i - a.length) = pt.pt + i by omega] at this
    rw [this]
    simp [List.getD_eq_getElem?_getD, List.getElem?_append_right (Nat.le_of_not_lt hia)]

theorem putByte_appends {c : Nat} {pt p : Buf} {ptlim : Nat} (hle : pt.pt ≤ ptlim)
    (h : putByte c pt ptlim = some p) :
    Appends pt ptlim [c] p := by
  unfold putByte at h
  split at h
  · cases h
  · cases h
    refine ⟨by simp; omega, ?_⟩
    intro i hi _
    simp only [List.length_singleton] at hi
    have : i = 0 := by omega
    subst this
    simp [store_mem]

theorem fmtLoop_stream (self : Nat → List Nat → Buf → warn → Option (Buf × warn)) (t : tm)
    (env : Env)
    (hw : ∀ ptlim f pt w r w2, pt.pt ≤ ptlim → self ptlim f pt w = some (r, w2) →
      Within pt ptlim r)
    (hself : ∀ f, ∃ bs, ∀ ptlim pt w r w2, pt.pt ≤ ptlim → self ptlim f pt w = some (r, w2) →
      Appends pt ptlim bs r)
    (format : List Nat) :
    ∀ (mode : Option (Nat × Nat)), ∃ bs, ∀ ptlim pt w r w2, pt.pt ≤ ptlim →
      fmtLoop (self ptlim) t env ptlim mode format pt w = some (r, w2) →
      Appends pt ptlim bs r := by
  have tail : ∀ (c : Nat) ptlim (pt : Buf) (w : warn) (r : Buf) (w2 : warn), pt.pt ≤ ptlim →
      (match putByte c pt ptlim with
        | none => some (pt, w)
        | some pt => some (pt, w)) = some (r, w2) → Appends pt ptlim [c] r := by
    intro c ptlim pt w r w2 hle h
    split at h
    · rename_i hn
      cases h
      exact appends_stop _ _ _ (putByte_none.1 hn)
    · rename_i p hp
      cases h
      exact putByte_appends hle hp
  induction format with
  | nil =>
    intro mode
    cases mode with
    | none =>
      refine ⟨[], ?_⟩
      intro ptlim pt w r w2 hle h
      simp only [fmtLoop] at h
      cases h
      exact appends_nil _ _ hle
    | some m =>
      obtain ⟨prev, modifier⟩ := m
      refine ⟨[prev], ?_⟩
      intro ptlim pt w r w2 hle h
      simp only [fmtLoop] at h
      exact tail _ _ _ _ _ _ hle h
  | cons c format ih =>
    intro mode
    obtain ⟨bsn, hn⟩ := ih none
    have lit : ∀ (x : Nat) ptlim (pt : Buf) (w : warn) (r : Buf) (w2 : warn), pt.pt ≤ ptlim →
        (match putByte x pt ptlim with
          | none => some (pt, w)
          | some pt => fmtLoop (self ptlim) t env ptlim none format pt w) = some (r, w2) →
        Appends pt ptlim ([x] ++ bsn) r := by
      intro x ptlim pt w r w2 hle h
      split at h
      · rename_i hnn
        cases h
        exact appends_stop _ _ _ (putByte_none.1 hnn)
      · rename_i p hp
        have hwp := putByte_within hle hp
        exact appends_comp (putByte_appends hle hp)
          (fmtLoop_within (self ptlim) t env ptlim (hw ptlim) format none p w r w2 hwp.2.1 h)
          (hn _ _ _ _ _ hwp.2.1 h)
    cases mode with
    | none =>
      by_cases h0 : c = 0
      · refine ⟨[], ?_⟩
        intro ptlim pt w r w2 hle h
        simp only [fmtLoop, h0, ↓reduceIte] at h
        cases h
        exact appends_nil _ _ hle
      by_cases h37 : c = 37
      · obtain ⟨bs, hb⟩ := ih (some (c, 0))
        refine ⟨bs, ?_⟩
        intro ptlim pt w r w2 hle h
        simp only [fmtLoop, h0, h37, ↓reduceIte] at h
        rw [h37] at hb
        exact hb _ _ _ _ _ hle h
      · refine ⟨[c] ++ bsn, ?_⟩
        intro ptlim pt w r w2 hle h
        simp only [fmtLoop, h0, h37, ↓reduceIte] at h
        exact lit _ _ _ _ _ _ hle h
    | some m =>
      obtain ⟨prev, modifier⟩ := m
      by_cases h0 : c = 0
      · refine ⟨[prev], ?_⟩
        intro ptlim pt w r w2 hle h
        simp only [fmtLoop, h0, ↓reduceIte] at h
        exact tail _ _ _ _ _ _ hle h
      cases hd : dispatch c modifier t env with
      | write all f =>
        obtain ⟨bf, hf⟩ := dispatch_writer hd
        refine ⟨bf ++ bsn, ?_⟩
        intro ptlim pt w r w2 hle h
        simp only [fmtLoop, h0, ↓reduceIte, hd] at h
        have hwf := emits_within hf pt ptlim hle
        exact appends_comp (emits_appends hf pt ptlim hle)
          (fmtLoop_within (self ptlim) t env ptlim (hw ptlim) format none _ _ r w2 hwf.2.1 h)
          (hn _ _ _ _ _ hwf.2.1 h)
      | sub fresh sf =>
        obtain ⟨bi, hi⟩ := hself sf
        refine ⟨bi ++ bsn, ?_⟩
        intro ptlim pt w r w2 hle h
        simp only [fmtLoop, h0, ↓reduceIte, hd] at h
        split at h
        · cases h
        · rename_i p wp hs
          have hws := hw _ _ _ _ _ _ hle hs
          exact appends_comp (hi _ _ _ _ _ hle hs)
            (fmtLoop_within (self ptlim) t env ptlim (hw ptlim) format none _ _ r w2 hws.2.1 h)
            (hn _ _ _ _ _ hws.2.1 h)
      | again m =>
        obtain ⟨bs, hb⟩ := ih (some (c, m))
        refine ⟨bs, ?_⟩
        intro ptlim pt w r w2 hle h
        simp only [fmtLoop, h0, ↓reduceIte, hd] at h
        exact hb _ _ _ _ _ hle h
      | lit =>
        refine ⟨[c] ++ bsn, ?_⟩
        intro ptlim pt w r w2 hle h
        simp only [fmtLoop, h0, ↓reduceIte, hd] at h
        exact lit _ _ _ _ _ _ hle h
      | stuck =>
        refine ⟨[], ?_⟩
        intro ptlim pt w r w2 hle h
        simp only [fmtLoop, h0, ↓reduceIte, hd] at h
        cases h

theorem fmtSelf_stream (t : tm) (env : Env) (depth : Nat) :
    ∀ f, ∃ bs, ∀ ptlim pt w r w2, pt.pt ≤ ptlim →
      fmtSelf t env ptlim depth f pt w = some (r, w2) → Appends pt ptlim bs r := by
  induction depth with
  | zero =>
    intro f
    refine ⟨[], ?_⟩
    intro ptlim pt w r w2 _ h
    simp [fmtSelf] at h
  | succ d ih =>
    intro f
    obtain ⟨bs, hb⟩ := fmtLoop_stream (fun ptlim => fmtSelf t env ptlim d) t env
      (fun ptlim => fmtSelf_within t env ptlim d) ih f none
    refine ⟨bs, ?_⟩
    intro ptlim pt w r w2 hle h
    simp only [fmtSelf] at h
    exact hb _ _ _ _ _ hle h

/-- The expansion: the bytes that `_fmt` appends, whatever the cursor, the memory, the warning
level and the limit, as far as the limit allows. -/
theorem fmt_stream (depth : Nat) (format : List Nat) (t : tm) (env : Env) :
    ∃ bs, ∀ ptlim pt w r w2, pt.pt ≤ ptlim →
      _fmt depth format t env pt ptlim w = some (r, w2) → Appends pt ptlim bs r :=
  fmtLoop_stream (fun ptlim => fmtSelf t env ptlim depth) t env
    (fun ptlim => fmtSelf_within t env ptlim depth) (fmtSelf_stream t env depth) format none

/-- A run that does not reach its limit exists, once `_fmt` returns. -/
theorem fmt_full_run {depth : Nat} (hd : 2 ≤ depth) (format : List Nat) (t : tm) (env : Env)
    (hz : t.tm_zone ≠ none) (pt : Buf) (w : warn) :
    ∃ big u wu, _fmt depth format t env pt (pt.pt + big) w = some (u, wu) ∧
      u.pt < pt.pt + big := by
  obtain ⟨bs, hb⟩ := fmt_stream depth format t env
  obtain ⟨⟨u, wu⟩, hu⟩ := fmt_returns hd format t env hz pt (pt.pt + (bs.length + 1)) w
  refine ⟨bs.length + 1, u, wu, hu, ?_⟩
  have := (hb _ _ _ _ _ (by omega) hu).1
  omega

/-! ## Claims -/

/-- C1: with the cursor at or below the limit, the cursor returned by `_add`, `_conv`, `_yconv`
and `_fmt` is between the cursor on entry and the limit, and every byte below the cursor on
entry or at or above the limit is as before (nothing is written there); and `_fmt` does
return, once two nested calls are allowed and the zone string is present. -/
theorem C1_cursor_within_limit (depth : Nat) (format : List Nat) (t : tm) (env : Env) (pt : Buf)
    (ptlim : Nat) (warnp : warn) (s : List Nat) (modifier : Nat) (n : Int) (fc : List Nat)
    (a b : Int) (top yy : Bool) (h : pt.pt ≤ ptlim) :
    Within pt ptlim (_add s pt ptlim modifier) ∧
    Within pt ptlim (_conv n fc pt ptlim) ∧
    Within pt ptlim (_yconv a b top yy pt ptlim modifier) ∧
    (∀ r w2, _fmt depth format t env pt ptlim warnp = some (r, w2) →
      pt.pt ≤ r.pt ∧ r.pt ≤ ptlim ∧ ∀ j, j < pt.pt ∨ ptlim ≤ j → r.mem j = pt.mem j) ∧
    (2 ≤ depth → t.tm_zone ≠ none → ∃ r, _fmt depth format t env pt ptlim warnp = some r) :=
  ⟨emits_within (add_emits s modifier) pt ptlim h,
   emits_within (conv_emits n fc) pt ptlim h,
   emits_within (yconv_emits a b top yy modifier) pt ptlim h,
   fun _ _ hr => fmt_within h hr,
   fun hd hz => fmt_returns hd format t env hz pt ptlim warnp⟩

/-- C1 at the format `"%c"` with room for three bytes: the cursor ends between 2 and 5, the
bytes outside stay, and the call returns. -/
theorem C1_cursor_within_limit_witness :
    (⟨2, mem0⟩ : Buf).pt ≤ 5 ∧
    (∀ r w2, _fmt 2 (str "%c") T0 E0 ⟨2, mem0⟩ 5 warn.IN_NONE = some (r, w2) →
      (⟨2, mem0⟩ : Buf).pt ≤ r.pt ∧ r.pt ≤ 5 ∧
        ∀ j, j < (⟨2, mem0⟩ : Buf).pt ∨ 5 ≤ j → r.mem j = (⟨2, mem0⟩ : Buf).mem j) ∧
    ((2 ≤ 2 ∧ T0.tm_zone ≠ none) ∧
      ∃ r, _fmt 2 (str "%c") T0 E0 ⟨2, mem0⟩ 5 warn.IN_NONE = some r) :=
  ⟨by decide,
   (C1_cursor_within_limit 2 (str "%c") T0 E0 ⟨2, mem0⟩ 5 warn.IN_NONE [] 0 0 [] 0 0 true true
      (by decide)).2.2.2.1,
   ⟨by decide, by decide⟩,
   (C1_cursor_within_limit 2 (str "%c") T0 E0 ⟨2, mem0⟩ 5 warn.IN_NONE [] 0 0 [] 0 0 true true
      (by decide)).2.2.2.2 (by decide) (by decide)⟩

theorem strftime_of_fmt {depth s maxsize : Nat} {format : List Nat} {t : tm} {env : Env}
    {errno : Nat} {mem : Nat → Nat} {p : Buf} {w : warn}
    (h : _fmt depth format t env ⟨s, mem⟩ (s + maxsize) warn.IN_NONE = some (p, w)) :
    strftime depth s maxsize format t env errno mem =
      if p.pt = 0 then some ⟨0, EOVERFLOW, p.mem⟩
      else if p.pt = s + maxsize then some ⟨0, ERANGE, p.mem⟩
      else some ⟨p.pt - s, errno, (p.store 0).mem⟩ := by
  unfold strftime
  simp only [h]

/-- C2: let a run of `_fmt` from the start `s` of the buffer, under a limit that it does not
reach, end at the cursor `u.pt`, so that `L = u.pt - s` is the length of the full expansion and
the bytes of `u` from `s` on are the expansion.  Then for every capacity `maxsize`: if
`L < maxsize`, `strftime` returns `L`, leaves `errno` as on entry, and the buffer holds the `L`
bytes of the expansion and then a zero byte; if `maxsize ≤ L`, `strftime` returns 0 with
`errno = ERANGE`.  Such a run exists once two nested calls are allowed and the zone string is
present. -/
theorem C2_strftime_result (depth s maxsize : Nat) (format : List Nat) (t : tm) (env : Env)
    (errno : Nat) (mem : Nat → Nat) (hs : 0 < s) :
    (∀ big u wu, _fmt depth format t env ⟨s, mem⟩ (s + big) warn.IN_NONE = some (u, wu) →
      u.pt < s + big →
      (u.pt - s < maxsize →
        ∃ r, strftime depth s maxsize format t env errno mem = some r ∧
          r.ret = u.pt - s ∧ r.errno = errno ∧
          (∀ i, i < u.pt - s → r.mem (s + i) = u.mem (s + i)) ∧ r.mem (s + (u.pt - s)) = 0) ∧
      (maxsize ≤ u.pt - s →
        ∃ r, strftime depth s maxsize format t env errno mem = some r ∧
          r.ret = 0 ∧ r.errno = ERANGE)) ∧
    (2 ≤ depth → t.tm_zone ≠ none →
      ∃ big u wu, _fmt depth format t env ⟨s, mem⟩ (s + big) warn.IN_NONE = some (u, wu) ∧
        u.pt < s + big) := by
  refine ⟨?_, fun hd hz => fmt_full_run hd format t env hz ⟨s, mem⟩ warn.IN_NONE⟩
  intro big u wu hu hfull
  have hwu : Within ⟨s, mem⟩ (s + big) u := fmt_within (by simp) hu
  have hsu : s ≤ u.pt := hwu.1
  -- the run under the limit `s + maxsize`, cut at the smaller of the two limits
  have key : ∃ p w, _fmt depth format t env ⟨s, mem⟩ (s + maxsize) warn.IN_NONE = some (p, w) ∧
      p.pt = min (s + maxsize) u.pt ∧ ∀ i, i < p.pt → p.mem i = u.mem i := by
    by_cases hmb : maxsize ≤ big
    · obtain ⟨p, w, hp, hc⟩ := @fmt_cut depth format t env (s + maxsize) (s + big) (by omega)
        ⟨s, mem⟩ ⟨s, mem⟩ warn.IN_NONE warn.IN_NONE u wu (cut_self _ ⟨s, mem⟩ (by simp))
        (by simp) hu
      exact ⟨p, w, hp, hc.1, hc.2⟩
    · obtain ⟨p, w, hp, hc⟩ := @fmt_slack depth format t env (s + big) (s + maxsize) (by omega)
        ⟨s, mem⟩ ⟨s, mem⟩ warn.IN_NONE warn.IN_NONE u wu (cut_self _ ⟨s, mem⟩ (by simp))
        hu hfull
      have h1 := hc.1
      refine ⟨p, w, hp, by omega, ?_⟩
      intro i hi
      exact (hc.2 i (by omega)).symm
  obtain ⟨p, w, hp, hpt, hmem⟩ := key
  rw [strftime_of_fmt hp]
  constructor
  · intro hL
    have hpu : p.pt = u.pt := by omega
    rw [if_neg (by omega), if_neg (by omega)]
    refine ⟨_, rfl, by simp only; omega, rfl, ?_, ?_⟩
    · intro i hi
      simp only
      rw [store_mem_ne _ _ _ (by omega)]
      exact hmem _ (by omega)
    · simp only
      rw [show s + (u.pt - s) = p.pt by omega]
      exact store_mem_self _ _
  · intro hL
    rw [if_neg (by omega), if_pos (by omega)]
    exact ⟨_, rfl, rfl, rfl⟩

/-- C2 at `"%Y"` for the year 2008, the expansion of length 4: a buffer of 5 bytes gets
`"2008"` and a zero byte, a buffer of 4 bytes gives 0 and `ERANGE`. -/
theorem C2_strftime_result_witness :
    (0 < 1 ∧
     _fmt 2 (str "%Y") T0 E0 ⟨1, mem0⟩ (1 + 10) warn.IN_NONE
        = some (_yconv 108 1900 true true ⟨1, mem0⟩ 11 0, warn.IN_NONE) ∧
     (_yconv 108 1900 true true ⟨1, mem0⟩ 11 0).pt < 1 + 10 ∧
     (_yconv 108 1900 true true ⟨1, mem0⟩ 11 0).pt - 1 = 4) ∧
    ((_yconv 108 1900 true true ⟨1, mem0⟩ 11 0).pt - 1 < 5 →
      ∃ r, strftime 2 1 5 (str "%Y") T0 E0 7 mem0 = some r ∧
        r.ret = (_yconv 108 1900 true true ⟨1, mem0⟩ 11 0).pt - 1 ∧ r.errno = 7 ∧
        (∀ i, i < (_yconv 108 1900 true true ⟨1, mem0⟩ 11 0).pt - 1 →
          r.mem (1 + i) = (_yconv 108 1900 true true ⟨1, mem0⟩ 11 0).mem (1 + i)) ∧
        r.mem (1 + ((_yconv 108 1900 true true ⟨1, mem0⟩ 11 0).pt - 1)) = 0) ∧
    (4 ≤ (_yconv 108 1900 true true ⟨1, mem0⟩ 11 0).pt - 1 →
      ∃ r, strftime 2 1 4 (str "%Y") T0 E0 7 mem0 = some r ∧ r.ret = 0 ∧ r.errno = ERANGE) ∧
    ((2 ≤ 2 ∧ T0.tm_zone ≠ none) ∧
      ∃ big u wu, _fmt 2 (str "%Y") T0 E0 ⟨1, mem0⟩ (1 + big) warn.IN_NONE = some (u, wu) ∧
        u.pt < 1 + big) :=
  ⟨⟨by decide, rfl, by decide, by decide⟩,
   ((C2_strftime_result 2 1 5 (str "%Y") T0 E0 7 mem0 (by decide)).1 10 _ warn.IN_NONE rfl
      (by decide)).1,
   ((C2_strftime_result 2 1 4 (str "%Y") T0 E0 7 mem0 (by decide)).1 10 _ warn.IN_NONE rfl
      (by decide)).2,
   ⟨by decide, by decide⟩,
   (C2_strftime_result 2 1 4 (str "%Y") T0 E0 7 mem0 (by decide)).2 (by decide) (by decide)⟩

/-- C3, as stated, fails for the capacity 0: with the empty format and a buffer of no bytes,
`strftime` does not return 0 with the byte at `s` zero and `errno` as on entry. -/
theorem C3_empty_format_capacity_zero :
    ¬ ∃ r, strftime 2 1 0 [] T0 E0 7 mem0 = some r ∧ r.ret = 0 ∧ r.errno = 7 ∧ r.mem 1 = 0 := by
  decide

/-- C3, amended: for the empty format, any timestamp and any capacity of at least one byte,
`strftime` writes the zero byte at the start of the buffer and nothing else, returns 0 and
leaves `errno` as on entry. -/
theorem C3_empty_format (depth s maxsize : Nat) (t : tm) (env : Env) (errno : Nat)
    (mem : Nat → Nat) (hs : 0 < s) (hm : 0 < maxsize) :
    ∃ r, strftime depth s maxsize [] t env errno mem = some r ∧ r.ret = 0 ∧ r.errno = errno ∧
      r.mem s = 0 ∧ ∀ j, j ≠ s → r.mem j = mem j := by
  have h : _fmt depth [] t env ⟨s, mem⟩ (s + maxsize) warn.IN_NONE
      = some (⟨s, mem⟩, warn.IN_NONE) := by
    simp [_fmt, fmtLoop]
  rw [strftime_of_fmt h]
  simp only
  rw [if_neg (by omega), if_neg (by omega)]
  refine ⟨_, rfl, by simp, rfl, ?_, ?_⟩
  · exact store_mem_self ⟨s, mem⟩ 0
  · intro j hj
    exact store_mem_ne ⟨s, mem⟩ 0 j hj

/-- C3, amended, for a buffer of one byte at address 1. -/
theorem C3_empty_format_witness :
    (0 < 1 ∧ 0 < 1) ∧
    ∃ r, strftime 2 1 1 [] T0 E0 7 mem0 = some r ∧ r.ret = 0 ∧ r.errno = 7 ∧
      r.mem 1 = 0 ∧ ∀ j, j ≠ 1 → r.mem j = mem0 j :=
  ⟨⟨by decide, by decide⟩, C3_empty_format 2 1 1 T0 E0 7 mem0 (by decide) (by decide)⟩

theorem fmt_eq_loop (depth : Nat) (format : List Nat) (t : tm) (env : Env) (pt : Buf)
    (ptlim : Nat) (w : warn) :
    _fmt depth format t env pt ptlim w
      = fmtLoop (fmtSelf t env ptlim depth) t env ptlim none format pt w := rfl

/-- One specification `%c` whose case calls writers: the loop goes on after them. -/
theorem fmtLoop_spec_write {self : List Nat → Buf → warn → Option (Buf × warn)} {t : tm}
    {env : Env} {ptlim : Nat} {c modifier : Nat} {all : Bool} {f : Buf → Nat → Buf}
    (hc : c ≠ 0) (hd : dispatch c modifier t env = .write all f) (prev : Nat)
    (format : List Nat) (pt : Buf) (w : warn) :
    fmtLoop self t env ptlim (some (prev, modifier)) (c :: format) pt w
      = fmtLoop self t env ptlim none format (f pt ptlim) (if all then warn.IN_ALL else w) := by
  simp only [fmtLoop, hc, ↓reduceIte, hd]

theorem fmtLoop_percent {self : List Nat → Buf → warn → Option (Buf × warn)} {t : tm}
    {env : Env} {ptlim : Nat} (format : List Nat) (pt : Buf) (w : warn) :
    fmtLoop self t env ptlim none (37 :: format) pt w
      = fmtLoop self t env ptlim (some (37, 0)) format pt w := by
  simp [fmtLoop]

theorem yconv_split (a b : Int) (pt : Buf) (ptlim modifier : Nat) :
    _yconv a b false true (_yconv a b true false pt ptlim modifier) ptlim modifier
      = _yconv a b true true pt ptlim modifier := by
  simp [_yconv]

/-- C4: for every timestamp, cursor, limit and memory, the formats `"%C%y"` and `"%Y"` leave
the same cursor and the same memory: the bytes they produce are identical. -/
theorem C4_century_and_year_is_full_year (depth : Nat) (t : tm) (env : Env) (pt : Buf)
    (ptlim : Nat) (w : warn) :
    ∃ r w1 w2, _fmt depth (str "%C%y") t env pt ptlim w = some (r, w1) ∧
      _fmt depth (str "%Y") t env pt ptlim w = some (r, w2) := by
  have e1 : str "%C%y" = [37, 67, 37, 121] := by decide
  have e2 : str "%Y" = [37, 89] := by decide
  have dC : dispatch 67 0 t env = .write false fun pt ptlim =>
      _yconv t.tm_year TM_YEAR_BASE true false pt ptlim 0 := rfl
  have dy : dispatch 121 0 t env = .write true fun pt ptlim =>
      _yconv t.tm_year TM_YEAR_BASE false true pt ptlim 0 := rfl
  have dY : dispatch 89 0 t env = .write false fun pt ptlim =>
      _yconv t.tm_year TM_YEAR_BASE true true pt ptlim 0 := rfl
  refine ⟨_yconv t.tm_year TM_YEAR_BASE true true pt ptlim 0, warn.IN_ALL, w, ?_, ?_⟩
  · rw [fmt_eq_loop, e1, fmtLoop_percent, fmtLoop_spec_write (by decide) dC, fmtLoop_percent,
      fmtLoop_spec_write (by decide) dy]
    simp only [fmtLoop, yconv_split, ↓reduceIte]
  · rw [fmt_eq_loop, e2, fmtLoop_percent, fmtLoop_spec_write (by decide) dY]
    simp [fmtLoop]

/-! ### The trailing `%` -/

theorem modByte_again (c modifier : Nat) (t : tm) (env : Env) (h : modByte c = true) :
    ∃ m, dispatch c modifier t env = .again m ∧ (flagByte c = true → m = c) ∧
      (flagByte c = false → m = modifier) := by
  simp only [modByte, flagByte, Bool.or_eq_true, decide_eq_true_eq] at h
  rcases h with (h | h | h | h | h) | (h | h) <;> subst h <;>
    first
    | exact ⟨_, rfl, fun _ => rfl, fun hf => absurd hf (by decide)⟩
    | exact ⟨_, rfl, fun hf => absurd hf (by decide), fun _ => rfl⟩

theorem not_modByte_not_again {c modifier : Nat} {t : tm} {env : Env} (h : modByte c = false)
    {m : Nat} : dispatch c modifier t env ≠ .again m := by
  intro hd
  unfold dispatch at hd
  split at hd <;>
    first
    | exact absurd h (by decide)
    | exact absurd hd (by unfold addName; split <;> [simp; (split <;> simp)])
    | exact absurd hd (by
        unfold zoneOffset
        split
        · simp
        · simp only
          split
          · simp
          · split <;> simp)
    | (split at hd <;> cases hd)
    | cases hd

/-- The loop of `_fmt` on a format followed by a bare `%`: it does what it does on the format,
and then copies the byte `%` if the cursor is below the limit. -/
theorem fmtLoop_trailing_percent (self : List Nat → Buf → warn → Option (Buf × warn)) (t : tm)
    (env : Env) (ptlim : Nat) (format : List Nat) :
    ∀ (mode : Option (Nat × Nat)) (pt : Buf) (w : warn), 0 ∉ format →
      inSpec mode.isSome format = false →
      fmtLoop self t env ptlim mode (format ++ [37]) pt w
        = (fmtLoop self t env ptlim mode format pt w).map
            fun rw => ((putByte 37 rw.1 ptlim).getD rw.1, rw.2) := by
  have stop : ∀ (pt : Buf) (w : warn), pt.pt = ptlim →
      some (pt, w) = (some (pt, w)).map
        fun rw : Buf × warn => ((putByte 37 rw.1 ptlim).getD rw.1, rw.2) := by
    intro pt w h
    simp [putByte_none.2 h]
  induction format with
  | nil =>
    intro mode pt w _ hin
    cases mode with
    | none =>
      simp only [List.nil_append, fmtLoop]
      simp only [show (37 : Nat) ≠ 0 by decide, ↓reduceIte, Option.map_some']
      cases putByte 37 pt ptlim <;> rfl
    | some m => simp [inSpec] at hin
  | cons c format ih =>
    intro mode pt w h0 hin
    have hc0 : c ≠ 0 := fun h => h0 (by simp [h])
    have h0r : 0 ∉ format := fun h => h0 (List.mem_cons_of_mem _ h)
    cases mode with
    | none =>
      simp only [Option.isSome_none, inSpec] at hin
      simp only [List.cons_append, fmtLoop, hc0, ↓reduceIte]
      by_cases h37 : c = 37
      · subst h37
        simp only [↓reduceIte]
        exact ih _ _ _ h0r (by simpa using hin)
      · simp only [h37, ↓reduceIte]
        have hin2 : inSpec false format = false := by simpa [h37] using hin
        cases hp : putByte c pt ptlim with
        | none => exact stop pt w (putByte_none.1 hp)
        | some p => exact ih none p w h0r hin2
    | some m =>
      obtain ⟨prev, modifier⟩ := m
      simp only [Option.isSome_some, inSpec] at hin
      simp only [List.cons_append, fmtLoop, hc0, ↓reduceIte]
      by_cases hm : modByte c = true
      · obtain ⟨m, hd, _, _⟩ := modByte_again c modifier t env hm
        simp only [hd]
        exact ih _ _ _ h0r (by simpa [hm] using hin)
      · have hm : modByte c = false := by simpa using hm
        rw [hm] at hin
        cases hd : dispatch c modifier t env with
        | write all f => exact ih none _ _ h0r hin
        | sub fresh sf =>
          simp only
          cases self sf pt (if fresh = true then warn.IN_SOME else w) with
          | none => rfl
          | some r => exact ih none _ _ h0r hin
        | again m => exact absurd hd (not_modByte_not_again hm)
        | lit =>
          simp only
          cases hp : putByte c pt ptlim with
          | none => exact stop pt w (putByte_none.1 hp)
          | some p => exact ih none p w h0r hin
        | stuck => rfl

/-- C8, as stated, fails: the format `"%"` and the empty format do not give the same output
(the first gives the byte `%`, the second nothing). -/
theorem C8_trailing_percent_is_copied :
    ¬ ((_fmt 2 (str "%") T0 E0 ⟨0, mem0⟩ 10 warn.IN_NONE).map (fun rw => output 0 rw.1)
      = (_fmt 2 [] T0 E0 ⟨0, mem0⟩ 10 warn.IN_NONE).map (fun rw => output 0 rw.1)) := by
  decide

/-- C8, amended: for every format without a zero byte at whose end the scan is outside a
conversion specification, the format followed by a bare `%` does what the format does and then
copies the byte `%` itself to the output, if the cursor is below the limit. -/
theorem C8_trailing_percent (depth : Nat) (format : List Nat) (t : tm) (env : Env) (pt : Buf)
    (ptlim : Nat) (w : warn) (h0 : 0 ∉ format) (hin : inSpec false format = false) :
    _fmt depth (format ++ [37]) t env pt ptlim w
      = (_fmt depth format t env pt ptlim w).map
          fun rw => ((putByte 37 rw.1 ptlim).getD rw.1, rw.2) :=
  fmtLoop_trailing_percent _ t env ptlim format none pt w h0 hin

/-- C8, amended, at the format `"%d%"` for the timestamp `T0`: its output is `"04%"`. -/
theorem C8_trailing_percent_witness :
    (0 ∉ str "%d" ∧ inSpec false (str "%d") = false) ∧
    _fmt 2 (str "%d" ++ [37]) T0 E0 ⟨0, mem0⟩ 10 warn.IN_NONE
      = (_fmt 2 (str "%d") T0 E0 ⟨0, mem0⟩ 10 warn.IN_NONE).map
          fun rw => ((putByte 37 rw.1 10).getD rw.1, rw.2) :=
  ⟨⟨by decide, by decide⟩,
   C8_trailing_percent 2 (str "%d") T0 E0 ⟨0, mem0⟩ 10 warn.IN_NONE (by decide) (by decide)⟩

/-! ### Undefined specifier letters -/

theorem dispatch_lit {c modifier : Nat} {t : tm} {env : Env} (hc : c ∉ specLetters)
    (hm : modByte c = false) : dispatch c modifier t env = .lit := by
  unfold dispatch
  split <;>
    first
    | exact absurd (by decide) hc
    | exact absurd hm (by decide)
    | rfl

theorem fmt_lit_spec (depth : Nat) {c : Nat} (t : tm) (env : Env) (hc0 : c ≠ 0)
    (hc : c ∉ specLetters) (hm : modByte c = false) (pt : Buf) (ptlim : Nat) (w : warn)
    (hlt : pt.pt < ptlim) :
    _fmt depth [37, c] t env pt ptlim w = some ((pt.store c).next, w) := by
  rw [fmt_eq_loop, fmtLoop_percent]
  simp only [fmtLoop, hc0, ↓reduceIte, dispatch_lit hc hm, putByte]
  rw [if_neg (by omega)]

/-- C9: for every byte `c` other than the terminator that is not a specifier letter of the
`switch`, a flag byte, `E` or `O`, `strftime` with the format `%c` and room for two bytes
returns 1, leaves `errno` as on entry, and the buffer holds the byte `c` and then a zero byte;
so does the format `"%%"` with the byte `%`. -/
theorem C9_unknown_specifier (depth s maxsize : Nat) (t : tm) (env : Env) (errno : Nat)
    (mem : Nat → Nat) (c : Nat) (hc0 : c ≠ 0) (hc : c ∉ specLetters) (hm : modByte c = false)
    (hs : 0 < s) (h2 : 2 ≤ maxsize) :
    (∃ r, strftime depth s maxsize [37, c] t env errno mem = some r ∧ r.ret = 1 ∧
      r.errno = errno ∧ r.mem s = c ∧ r.mem (s + 1) = 0) ∧
    (∃ r, strftime depth s maxsize (str "%%") t env errno mem = some r ∧ r.ret = 1 ∧
      r.errno = errno ∧ r.mem s = 37 ∧ r.mem (s + 1) = 0) := by
  have main : ∀ x : Nat, x ≠ 0 → x ∉ specLetters → modByte x = false →
      ∃ r, strftime depth s maxsize [37, x] t env errno mem = some r ∧ r.ret = 1 ∧
        r.errno = errno ∧ r.mem s = x ∧ r.mem (s + 1) = 0 := by
    intro x hx0 hx hxm
    have h := fmt_lit_spec depth t env hx0 hx hxm ⟨s, mem⟩
      (s + maxsize) warn.IN_NONE (by simp; omega)
    rw [strftime_of_fmt h]
    simp only [next_pt, store_pt]
    rw [if_neg (by omega), if_neg (by omega)]
    refine ⟨_, rfl, by simp, rfl, ?_, ?_⟩
    · simp only
      rw [store_mem_ne _ _ _ (by simp)]
      simp [store_mem]
    · simp only
      exact store_mem_self (Buf.next (Buf.store ⟨s, mem⟩ x)) 0
  exact ⟨main c hc0 hc hm, main 37 (by decide) (by decide) (by decide)⟩

/-- C9 at the byte `q`: `"%q"` gives the byte `q`. -/
theorem C9_unknown_specifier_witness :
    ((113 : Nat) ≠ 0 ∧ 113 ∉ specLetters ∧ modByte 113 = false ∧ 0 < 1 ∧ 2 ≤ 2) ∧
    (∃ r, strftime 2 1 2 [37, 113] T0 E0 7 mem0 = some r ∧ r.ret = 1 ∧
      r.errno = 7 ∧ r.mem 1 = 113 ∧ r.mem (1 + 1) = 0) ∧
    (∃ r, strftime 2 1 2 (str "%%") T0 E0 7 mem0 = some r ∧ r.ret = 1 ∧
      r.errno = 7 ∧ r.mem 1 = 37 ∧ r.mem (1 + 1) = 0) :=
  ⟨⟨by decide, by decide, by decide, by decide, by decide⟩,
   C9_unknown_specifier 2 1 2 T0 E0 7 mem0 113 (by decide) (by decide) (by decide) (by decide)
     (by decide)⟩

/-! ### Flags -/

theorem fmtLoop_spec_again {self : List Nat → Buf → warn → Option (Buf × warn)} {t : tm}
    {env : Env} {ptlim : Nat} {c modifier m : Nat} (hc : c ≠ 0)
    (hd : dispatch c modifier t env = .again m) (prev : Nat) (format : List Nat) (pt : Buf)
    (w : warn) :
    fmtLoop self t env ptlim (some (prev, modifier)) (c :: format) pt w
      = fmtLoop self t env ptlim (some (c, m)) format pt w := by
  simp only [fmtLoop, hc, ↓reduceIte, hd]

/-- The modifier in force after a sequence of flag bytes, `E` and `O`. -/
theorem fmtLoop_mods (self : List Nat → Buf → warn → Option (Buf × warn)) (t : tm) (env : Env)
    (ptlim : Nat) (x : Nat) (rest : List Nat) (hx : x ≠ 0) (m : List Nat) :
    ∀ (prev modifier : Nat) (pt : Buf) (w : warn), (∀ b ∈ m, modByte b = true) →
      fmtLoop self t env ptlim (some (prev, modifier)) (m ++ x :: rest) pt w
        = fmtLoop self t env ptlim
            (some (prev, ((m.filter flagByte).getLast?).getD modifier)) (x :: rest) pt w := by
  have prev_free : ∀ (p1 p2 md : Nat) (pt : Buf) (w : warn),
      fmtLoop self t env ptlim (some (p1, md)) (x :: rest) pt w
        = fmtLoop self t env ptlim (some (p2, md)) (x :: rest) pt w := by
    intro p1 p2 md pt w
    simp only [fmtLoop, hx, ↓reduceIte]
  induction m with
  | nil => intro prev modifier pt w _; rfl
  | cons c m ih =>
    intro prev modifier pt w hm
    have hc : modByte c = true := hm c (List.mem_cons_self _ _)
    have hr : ∀ b ∈ m, modByte b = true := fun b hb => hm b (List.mem_cons_of_mem _ hb)
    have hc0 : c ≠ 0 := by
      intro h
      subst h
      exact absurd hc (by decide)
    obtain ⟨md, hd, hf1, hf2⟩ := modByte_again c modifier t env hc
    rw [List.cons_append, fmtLoop_spec_again hc0 hd, ih c md pt w hr, prev_free c prev]
    congr 3
    by_cases hf : flagByte c = true
    · rw [hf1 hf, List.filter_cons_of_pos hf]
      cases hl : List.filter flagByte m with
      | nil => simp
      | cons a l =>
        rw [List.getLast?_cons_cons, List.getLast?_eq_getLast _ (List.cons_ne_nil a l)]
        rfl
    · have hf : flagByte c = false := by simpa using hf
      rw [hf2 hf, List.filter_cons_of_neg (by simp [hf])]

/-- C10: for every byte `x` other than the terminator and every sequence `m` of flag bytes
and letters `E`, `O`, the format `%`, `m`, `x` (and whatever follows) does what the format
with `m` replaced by its last flag byte does, or by nothing when `m` has no flag byte. -/
theorem C10_last_flag_wins (depth : Nat) (m : List Nat) (x : Nat) (rest : List Nat) (t : tm)
    (env : Env) (pt : Buf) (ptlim : Nat) (w : warn) (hm : ∀ b ∈ m, modByte b = true)
    (hx : x ≠ 0) :
    _fmt depth (37 :: (m ++ x :: rest)) t env pt ptlim w
      = _fmt depth (37 :: (lastFlag m ++ x :: rest)) t env pt ptlim w := by
  rw [fmt_eq_loop, fmt_eq_loop, fmtLoop_percent, fmtLoop_percent,
    fmtLoop_mods _ t env ptlim x rest hx m 37 0 pt w hm]
  have hl : ∀ b ∈ lastFlag m, modByte b = true := by
    intro b hb
    unfold lastFlag at hb
    cases hg : (m.filter flagByte).getLast? with
    | none => simp [hg] at hb
    | some f =>
      simp only [hg, List.mem_singleton] at hb
      subst hb
      have hmem := List.mem_of_getLast?_eq_some hg
      have := (List.mem_filter.1 hmem).2
      simp [modByte, this]
  rw [fmtLoop_mods _ t env ptlim x rest hx (lastFlag m) 37 0 pt w hl]
  congr 3
  unfold lastFlag
  cases hg : (m.filter flagByte).getLast? with
  | none => simp
  | some f =>
    have hmem := List.mem_of_getLast?_eq_some hg
    have hf := (List.mem_filter.1 hmem).2
    simp [List.filter_cons_of_pos, hf]

/-- C10 at `"%-E_#d"`: it does what `"%#d"` does. -/
theorem C10_last_flag_wins_witness :
    ((∀ b ∈ str "-E_#", modByte b = true) ∧ (100 : Nat) ≠ 0) ∧
    _fmt 2 (37 :: (str "-E_#" ++ 100 :: [])) T0 E0 ⟨0, mem0⟩ 10 warn.IN_NONE
      = _fmt 2 (37 :: (lastFlag (str "-E_#") ++ 100 :: [])) T0 E0 ⟨0, mem0⟩ 10 warn.IN_NONE :=
  ⟨⟨by decide, by decide⟩,
   C10_last_flag_wins 2 (str "-E_#") 100 [] T0 E0 ⟨0, mem0⟩ 10 warn.IN_NONE (by decide)
     (by decide)⟩

/-! ## The year splitter and the week loop, in numbers -/

theorem tdivmod_spec (x k : Int) (hk : 0 < k) :
    x = k * Int.tdiv x k + Int.tmod x k ∧ (0 ≤ x → 0 ≤ Int.tmod x k ∧ Int.tmod x k < k) ∧
      (x ≤ 0 → -k < Int.tmod x k ∧ Int.tmod x k ≤ 0) := by
  have h := Int.tdiv_add_tmod x k
  refine ⟨h.symm, ?_, ?_⟩
  · intro hx
    rcases tmod_cases x k hk with ⟨_, h2⟩ | ⟨h1, _⟩
    · rw [h2]
      exact ⟨Int.emod_nonneg _ (by omega), Int.emod_lt_of_pos _ hk⟩
    · omega
  · intro hx
    rcases tmod_cases x k hk with ⟨h1, h2⟩ | ⟨_, h2⟩
    · have : x = 0 := by omega
      subst this
      simp
      omega
    · rw [h2]
      have := Int.emod_nonneg (-x) (show k ≠ 0 by omega)
      have := Int.emod_lt_of_pos (-x) hk
      omega

/-- What `_yconv` computes: `lead * 100 + trail` is `a + b`, `trail` is below 100 in absolute
value, and `lead` and `trail` do not have opposite signs. -/
theorem yearSplit_spec (a b : Int) :
    (yearSplit a b).1 * 100 + (yearSplit a b).2 = a + b ∧
      -100 < (yearSplit a b).2 ∧ (yearSplit a b).2 < 100 ∧
      ¬ ((yearSplit a b).1 > 0 ∧ (yearSplit a b).2 < 0) ∧
      ¬ ((yearSplit a b).1 < 0 ∧ (yearSplit a b).2 > 0) := by
  obtain ⟨a1, a2, a3⟩ := tdivmod_spec a 100 (by norm_num)
  obtain ⟨b1, b2, b3⟩ := tdivmod_spec b 100 (by norm_num)
  obtain ⟨c1, c2, c3⟩ := tdivmod_spec (Int.tmod a 100 + Int.tmod b 100) 100 (by norm_num)
  unfold yearSplit
  simp only
  split
  · simp only; omega
  · split
    · simp only; omega
    · simp only; omega

theorem isleap_eq (y : Int) : isleap y = leapYear y := by
  unfold isleap leapYear
  rcases tmod_cases y 4 (by norm_num) with ⟨_, h4⟩ | ⟨_, h4⟩ <;>
  rcases tmod_cases y 100 (by norm_num) with ⟨_, h100⟩ | ⟨_, h100⟩ <;>
  rcases tmod_cases y 400 (by norm_num) with ⟨_, h400⟩ | ⟨_, h400⟩ <;>
  rw [h4, h100, h400] <;>
  · congr 1
    apply propext
    omega

theorem yearLen_eq (year base : Int) : yearLen year base = daysInYear (year + base) := by
  unfold yearLen daysInYear isleap_sum
  rw [isleap_eq]
  rfl

theorem daysInYear_cases (y : Int) : daysInYear y = 365 ∨ daysInYear y = 366 := by
  unfold daysInYear
  split <;> simp

theorem daysBeforeYear_succ (y : Int) :
    daysBeforeYear (y + 1) = daysBeforeYear y + daysInYear y := by
  unfold daysBeforeYear daysInYear leapYear
  split
  · rename_i h
    simp only [decide_eq_true_eq] at h
    omega
  · rename_i h
    simp only [decide_eq_true_eq] at h
    omega

theorem wrapInt_id (x : Int) (h1 : -2147483648 ≤ x) (h2 : x < 2147483648) : wrapInt x = x := by
  unfold wrapInt
  omega

theorem isoBot_eq (yday wday : Int) (h1 : 0 ≤ yday + 11 - wday)
    (h2 : yday + 11 - wday < 2147483648) :
    isoBot yday wday = (yday + 11 - wday) % 7 - 3 := by
  unfold isoBot DAYSPERWEEK
  rw [wrapInt_id _ (by omega) h2, Int.tmod_eq_emod h1 (by norm_num)]

theorem isoTop_eq (bot len : Int) (hl : len = 365 ∨ len = 366) :
    isoTop bot len = (if bot - (len - 364) < -3 then bot - (len - 364) + 7 else bot - (len - 364))
      + len := by
  unfold isoTop DAYSPERWEEK
  rcases hl with h | h <;> subst h <;> rfl

/-- The week loop on a timestamp in range: at most two rounds, and the week is 1 to 53. -/
theorem isoLoop_bounds (year yday wday : Int) (hw0 : 0 ≤ wday) (hw6 : wday ≤ 6) (hy0 : 0 ≤ yday)
    (hy : yday ≤ 365) (k : Nat) (hk : yday ≤ 2 → 1 ≤ k) :
    ∃ base w, isoLoop (k + 1) year TM_YEAR_BASE yday wday = some (base, w) ∧ 1 ≤ w ∧ w ≤ 53 := by
  have hbot := isoBot_eq yday wday (by omega) (by omega)
  have hlen := yearLen_cases year TM_YEAR_BASE
  have htop := isoTop_eq (isoBot yday wday) _ hlen
  simp only [isoLoop]
  by_cases h1 : yday ≥ isoTop (isoBot yday wday) (yearLen year TM_YEAR_BASE)
  · rw [if_pos h1]
    exact ⟨_, _, rfl, by omega, by omega⟩
  rw [if_neg h1]
  by_cases h2 : yday ≥ isoBot yday wday
  · rw [if_pos h2]
    refine ⟨_, _, rfl, ?_⟩
    rw [DAYSPERWEEK, Int.tdiv_eq_ediv (by omega) (by norm_num)]
    split at htop <;> omega
  rw [if_neg h2]
  obtain ⟨j, rfl⟩ : ∃ j, k = j + 1 := ⟨k - 1, by have := hk (by omega); omega⟩
  have hlen2 := yearLen_cases year (wrapInt (TM_YEAR_BASE - 1))
  have hyd : wrapInt (yday + yearLen year (wrapInt (TM_YEAR_BASE - 1)))
      = yday + yearLen year (wrapInt (TM_YEAR_BASE - 1)) := wrapInt_id _ (by omega) (by omega)
  rw [hyd]
  generalize yearLen year (wrapInt (TM_YEAR_BASE - 1)) = len2 at hlen2 ⊢
  have hbot2 := isoBot_eq (yday + len2) wday (by omega) (by omega)
  have hlen3 := yearLen_cases year (wrapInt (TM_YEAR_BASE - 1))
  have htop2 := isoTop_eq (isoBot (yday + len2) wday) _ hlen3
  simp only [isoLoop]
  by_cases h3 : yday + len2 ≥ isoTop (isoBot (yday + len2) wday)
      (yearLen year (wrapInt (TM_YEAR_BASE - 1)))
  · rw [if_pos h3]
    exact ⟨_, _, rfl, by omega, by omega⟩
  rw [if_neg h3]
  by_cases h4 : yday + len2 ≥ isoBot (yday + len2) wday
  · rw [if_pos h4]
    refine ⟨_, _, rfl, ?_⟩
    rw [DAYSPERWEEK, Int.tdiv_eq_ediv (by omega) (by norm_num)]
    split at htop2 <;> omega
  · omega

theorem isoWeek_bounds (t : tm) (hw0 : 0 ≤ t.tm_wday) (hw6 : t.tm_wday ≤ 6)
    (hy0 : 0 ≤ t.tm_yday) (hy : t.tm_yday ≤ 365) :
    ∃ base w, isoWeek t = some (base, w) ∧ 1 ≤ w ∧ w ≤ 53 :=
  isoLoop_bounds t.tm_year t.tm_yday t.tm_wday hw0 hw6 hy0 hy _ (by omega)

/-! ### The arithmetic of the week loop

`A` is the day number of January 1, `L` the length of the year, `bot` and `top` the values of
the loop, `A0` and `L0` those of the year before. -/

theorem iso_arith_next (A L yday wday bot top : Int) (hL : L = 365 ∨ L = 366) (hy0 : 0 ≤ yday)
    (hy : yday < L) (hw : wday = (A + yday + 1) % 7) (hbot : bot = (yday + 11 - wday) % 7 - 3)
    (htop : top = (if bot - (L - 364) < -3 then bot - (L - 364) + 7 else bot - (L - 364)) + L)
    (h1 : yday ≥ top) :
    A + yday = A + L + 3 - (A + L + 3) % 7 + (1 - 1) * 7
      + ((if wday = 0 then 7 else wday) - 1) := by
  subst hbot
  rcases hL with hL | hL <;> subst hL <;> split at htop <;> split <;> omega

theorem iso_arith_same (A L yday wday bot top : Int) (hL : L = 365 ∨ L = 366) (hy0 : 0 ≤ yday)
    (hy : yday < L) (hw : wday = (A + yday + 1) % 7) (hbot : bot = (yday + 11 - wday) % 7 - 3)
    (htop : top = (if bot - (L - 364) < -3 then bot - (L - 364) + 7 else bot - (L - 364)) + L)
    (h1 : ¬ yday ≥ top) (h2 : yday ≥ bot) :
    1 ≤ 1 + (yday - bot) / 7 ∧ 1 + (yday - bot) / 7 ≤ 53 ∧
    A + yday = A + 3 - (A + 3) % 7 + (1 + (yday - bot) / 7 - 1) * 7
      + ((if wday = 0 then 7 else wday) - 1) := by
  subst hbot
  rcases hL with hL | hL <;> subst hL <;> split at htop <;> split <;> omega

theorem iso_arith_prev (A0 L0 yday wday bot bot2 top2 : Int) (hL0 : L0 = 365 ∨ L0 = 366)
    (hy0 : 0 ≤ yday) (hw : wday = (A0 + L0 + yday + 1) % 7)
    (hbot : bot = (yday + 11 - wday) % 7 - 3) (h2 : ¬ yday ≥ bot)
    (hbot2 : bot2 = (yday + L0 + 11 - wday) % 7 - 3)
    (htop2 : top2
      = (if bot2 - (L0 - 364) < -3 then bot2 - (L0 - 364) + 7 else bot2 - (L0 - 364)) + L0) :
    ¬ yday + L0 ≥ top2 ∧ yday + L0 ≥ bot2 ∧
    1 ≤ 1 + (yday + L0 - bot2) / 7 ∧ 1 + (yday + L0 - bot2) / 7 ≤ 53 ∧
    A0 + L0 + yday = A0 + 3 - (A0 + 3) % 7 + (1 + (yday + L0 - bot2) / 7 - 1) * 7
      + ((if wday = 0 then 7 else wday) - 1) := by
  subst hbot hbot2
  rcases hL0 with hL0 | hL0 <;> subst hL0 <;> split at htop2 <;> split <;> omega

/-- The week loop on a consistent timestamp: the ISO year is the calendar year or a neighbour
of it, the week is 1 to 53, and year, week and weekday give back the day. -/
theorem isoLoop_reconstructs (year yday wday : Int) (hy0 : 0 ≤ yday)
    (hy : yday < daysInYear (year + TM_YEAR_BASE))
    (hw : wday = weekdayOf (dayNumber (year + TM_YEAR_BASE) yday))
    (k : Nat) (hk : yday ≤ 2 → 1 ≤ k) :
    ∃ base w, isoLoop (k + 1) year TM_YEAR_BASE yday wday = some (base, w) ∧ 1 ≤ w ∧ w ≤ 53 ∧
      year + TM_YEAR_BASE - 1 ≤ year + base ∧ year + base ≤ year + TM_YEAR_BASE + 1 ∧
      dayNumber (year + TM_YEAR_BASE) yday
        = isoYearStart (year + base) + (w - 1) * 7 + ((if wday = 0 then 7 else wday) - 1) := by
  have e1 : wrapInt (TM_YEAR_BASE + 1) = TM_YEAR_BASE + 1 := by decide
  have e0 : wrapInt (TM_YEAR_BASE - 1) = TM_YEAR_BASE - 1 := by decide
  have hlen : yearLen year TM_YEAR_BASE = daysInYear (year + TM_YEAR_BASE) := yearLen_eq _ _
  have hlen0 : yearLen year (TM_YEAR_BASE - 1) = daysInYear (year + TM_YEAR_BASE - 1) := by
    rw [yearLen_eq, show year + (TM_YEAR_BASE - 1) = year + TM_YEAR_BASE - 1 by ring]
  have hA1 : daysBeforeYear (year + (TM_YEAR_BASE + 1))
      = daysBeforeYear (year + TM_YEAR_BASE) + daysInYear (year + TM_YEAR_BASE) := by
    rw [show year + (TM_YEAR_BASE + 1) = year + TM_YEAR_BASE + 1 by ring, daysBeforeYear_succ]
  have hA0 : daysBeforeYear (year + TM_YEAR_BASE)
      = daysBeforeYear (year + (TM_YEAR_BASE - 1)) + daysInYear (year + TM_YEAR_BASE - 1) := by
    have := daysBeforeYear_succ (year + TM_YEAR_BASE - 1)
    rw [show year + TM_YEAR_BASE - 1 + 1 = year + TM_YEAR_BASE by ring] at this
    rw [this, show year + (TM_YEAR_BASE - 1) = year + TM_YEAR_BASE - 1 by ring]
  have hL := daysInYear_cases (year + TM_YEAR_BASE)
  have hL0 := daysInYear_cases (year + TM_YEAR_BASE - 1)
  have hwr : 0 ≤ wday ∧ wday ≤ 6 := by
    unfold weekdayOf at hw
    omega
  unfold weekdayOf dayNumber at hw
  have hbot := isoBot_eq yday wday (by omega) (by omega)
  have htop := isoTop_eq (isoBot yday wday) _ hL
  simp only [isoLoop, e1, e0, hlen, hlen0]
  unfold isoYearStart dayNumber
  by_cases h1 : yday ≥ isoTop (isoBot yday wday) (daysInYear (year + TM_YEAR_BASE))
  · rw [if_pos h1]
    refine ⟨_, _, rfl, by omega, by omega, by omega, by omega, ?_⟩
    rw [hA1]
    exact iso_arith_next _ _ _ _ _ _ hL hy0 hy hw hbot htop h1
  rw [if_neg h1]
  by_cases h2 : yday ≥ isoBot yday wday
  · rw [if_pos h2]
    rw [DAYSPERWEEK, Int.tdiv_eq_ediv (by omega) (by norm_num)]
    obtain ⟨a1, a2, a3⟩ := iso_arith_same _ _ _ _ _ _ hL hy0 hy hw hbot htop h1 h2
    exact ⟨_, _, rfl, a1, a2, by omega, by omega, a3⟩
  rw [if_neg h2]
  obtain ⟨j, rfl⟩ : ∃ j, k = j + 1 := ⟨k - 1, by have := hk (by omega); omega⟩
  have hyd : wrapInt (yday + daysInYear (year + TM_YEAR_BASE - 1))
      = yday + daysInYear (year + TM_YEAR_BASE - 1) := wrapInt_id _ (by omega) (by omega)
  rw [hyd]
  have hbot2 := isoBot_eq (yday + daysInYear (year + TM_YEAR_BASE - 1)) wday (by omega)
    (by omega)
  have htop2 := isoTop_eq (isoBot (yday + daysInYear (year + TM_YEAR_BASE - 1)) wday) _ hL0
  rw [hA0] at hw
  obtain ⟨p1, p2, p3, p4, p5⟩ := iso_arith_prev _ _ _ _ _ _ _ hL0 hy0 hw hbot h2 hbot2 htop2
  simp only [isoLoop, hlen0]
  rw [if_neg p1, if_pos p2, DAYSPERWEEK, Int.tdiv_eq_ediv (by omega) (by norm_num), hA0]
  exact ⟨_, _, rfl, p3, p4, by omega, by omega, p5⟩

theorem isoWeek_reconstructs (t : tm) (hc : Consistent t) :
    ∃ base w, isoWeek t = some (base, w) ∧ 1 ≤ w ∧ w ≤ 53 ∧
      t.tm_year + TM_YEAR_BASE - 1 ≤ t.tm_year + base ∧
      t.tm_year + base ≤ t.tm_year + TM_YEAR_BASE + 1 ∧
      dayNumber (t.tm_year + TM_YEAR_BASE) t.tm_yday
        = isoYearStart (t.tm_year + base) + (w - 1) * 7 + (isoWeekday t - 1) :=
  isoLoop_reconstructs t.tm_year t.tm_yday t.tm_wday hc.1 hc.2.1 hc.2.2 _ (by omega)

/-! ## What the integer writer renders -/

theorem addBytes_zero (s : List Nat) (h : ∀ b ∈ s, b ≠ 0) : addBytes s 0 = s := by
  unfold addBytes FORCE_LOWER_CASE
  simp only [show ¬ (0 : Nat) = 256 by decide, show ¬ (0 : Nat) = 94 by decide,
    show ¬ (0 : Nat) = 35 by decide, ↓reduceIte, id_eq, List.map_id_fun]
  rw [List.takeWhile_eq_self_iff.2]
  intro b hb
  simpa using h b hb

theorem toByte_digit (d : Int) (h0 : 0 ≤ d) (h9 : d ≤ 9) : toByte (48 + d) = 48 + d.toNat := by
  unfold toByte
  omega

theorem convDigits_small (k : Nat) (n : Int) (h0 : 0 ≤ n) (h : n < 10) (acc : List Nat) :
    convDigits k n acc = (48 + n.toNat) :: acc := by
  cases k with
  | zero => simp only [convDigits, toByte_digit n h0 (by omega)]
  | succ k =>
    simp only [convDigits]
    rw [if_neg (by omega), toByte_digit n h0 (by omega)]

theorem convDigits_step (k : Nat) (n : Int) (h : n ≥ 10) (acc : List Nat) :
    convDigits (k + 1) n acc
      = convDigits k (Int.tdiv n 10) (toByte (48 + Int.tmod n 10) :: acc) := by
  simp only [convDigits]
  rw [if_pos h]

theorem convDigits_append (k : Nat) : ∀ (n : Int) (acc : List Nat),
    convDigits k n acc = convDigits k n [] ++ acc := by
  induction k with
  | zero => intro n acc; simp [convDigits]
  | succ k ih =>
    intro n acc
    simp only [convDigits]
    split
    · rw [ih _ (_ :: acc), ih _ [_]]
      simp
    · simp

theorem decVal_append (a b : List Nat) :
    decVal (a ++ b) = b.foldl (fun x y => 10 * x + (y - 48)) (decVal a) := by
  simp [decVal, List.foldl_append]

theorem decVal_snoc (a : List Nat) (d : Nat) : decVal (a ++ [d]) = 10 * decVal a + (d - 48) := by
  simp [decVal_append]

theorem decVal_zeros (k : Nat) (l : List Nat) : decVal (List.replicate k 48 ++ l) = decVal l := by
  induction k with
  | zero => simp
  | succ k ih =>
    rw [List.replicate_succ, List.cons_append]
    unfold decVal at ih ⊢
    simpa using ih

/-- The digit loop of `_conv` on a number that is not negative: decimal digits whose value is
the number, without a leading zero unless the number is 0. -/
theorem convDigits_spec (k : Nat) : ∀ (n : Int), 0 ≤ n → n.toNat ≤ k →
    convDigits k n [] ≠ [] ∧ (∀ b ∈ convDigits k n [], isDigit b = true) ∧
      decVal (convDigits k n []) = n.toNat := by
  induction k with
  | zero =>
    intro n h0 hk
    have : n = 0 := by omega
    subst this
    decide
  | succ k ih =>
    intro n h0 hk
    by_cases h10 : n < 10
    · rw [convDigits_small _ n h0 h10]
      refine ⟨by simp, ?_, ?_⟩
      · intro b hb
        simp only [List.mem_singleton] at hb
        subst hb
        simp only [isDigit, decide_eq_true_eq]
        omega
      · simp [decVal]
    · have hn : n ≥ 10 := by omega
      simp only [convDigits]
      rw [if_pos hn, convDigits_append]
      obtain ⟨d1, d2, _⟩ := tdivmod_spec n 10 (by norm_num)
      have hq : Int.tdiv n 10 = n / 10 := Int.tdiv_eq_ediv h0 (by norm_num)
      have hr : Int.tmod n 10 = n % 10 := Int.tmod_eq_emod h0 (by norm_num)
      obtain ⟨i1, i2, i3⟩ := ih (Int.tdiv n 10) (by omega) (by omega)
      rw [toByte_digit _ (by omega) (by omega)]
      refine ⟨by simp, ?_, ?_⟩
      · intro b hb
        rcases List.mem_append.1 hb with hb | hb
        · exact i2 b hb
        · simp only [List.mem_singleton] at hb
          subst hb
          simp only [isDigit, decide_eq_true_eq]
          omega
      · rw [decVal_snoc, i3]
        omega

theorem isDigit_ne_zero {b : Nat} (h : isDigit b = true) : b ≠ 0 := by
  simp only [isDigit, decide_eq_true_eq] at h
  omega

/-- The buffer of `_conv` for the format `"02"` and a number from 0 to 99: two digits. -/
theorem convBuf_two (n : Int) (h0 : 0 ≤ n) (h : n < 100) :
    convBuf n (str "02") = [48 + n.toNat / 10, 48 + n.toNat % 10] := by
  have e0 : (str "02").getD 0 0 = 48 := by decide
  have e1 : (str "02").getD 1 0 = 50 := by decide
  unfold convBuf
  rw [e0, e1]
  by_cases h10 : n < 10
  · rw [convDigits_small _ n h0 h10]
    have : n.toNat / 10 = 0 := by omega
    have : n.toNat % 10 = n.toNat := by omega
    simp [*]
  · obtain ⟨k, hk⟩ : ∃ k, n.toNat = k + 1 := ⟨n.toNat - 1, by omega⟩
    have hq : Int.tdiv n 10 = n / 10 := Int.tdiv_eq_ediv h0 (by norm_num)
    have hr : Int.tmod n 10 = n % 10 := Int.tmod_eq_emod h0 (by norm_num)
    have hd : convDigits n.toNat n [] = [48 + n.toNat / 10, 48 + n.toNat % 10] := by
      have a1 : (n.tdiv 10).toNat = n.toNat / 10 := by omega
      have a2 : (n.tmod 10).toNat = n.toNat % 10 := by omega
      rw [hk, convDigits_step k n (by omega), convDigits_small _ _ (by omega) (by omega),
        toByte_digit _ (by omega) (by omega), a1, a2, hk]
    rw [hd]
    simp

/-- The buffer of `_conv` for the format `"  "` and a number from 0 to 9: one digit. -/
theorem convBuf_one (n : Int) (h0 : 0 ≤ n) (h : n < 10) :
    convBuf n (str "  ") = [48 + n.toNat] := by
  have e0 : (str "  ").getD 0 0 = 32 := by decide
  have e1 : (str "  ").getD 1 0 = 32 := by decide
  unfold convBuf
  rw [e0, e1, convDigits_small _ n h0 h]
  simp

/-- The buffer of `_conv` for the format `"02"` and a number that is not negative: digits, at
least two of them, whose value is the number. -/
theorem convBuf_lead (n : Int) (h0 : 0 ≤ n) :
    2 ≤ (convBuf n (str "02")).length ∧ (∀ b ∈ convBuf n (str "02"), isDigit b = true) ∧
      decVal (convBuf n (str "02")) = n.toNat := by
  have e0 : (str "02").getD 0 0 = 48 := by decide
  have e1 : (str "02").getD 1 0 = 50 := by decide
  obtain ⟨s1, s2, s3⟩ := convDigits_spec n.toNat n h0 (Nat.le_refl _)
  unfold convBuf
  rw [e0, e1]
  simp only [show ¬ (50 : Nat) = 32 by decide, ↓reduceIte]
  refine ⟨?_, ?_, ?_⟩
  · simp only [List.length_append, List.length_replicate]
    omega
  · intro b hb
    rcases List.mem_append.1 hb with hb | hb
    · rw [(List.mem_replicate.1 hb).2]
      decide
    · exact s2 b hb
  · rw [decVal_zeros, s3]

theorem emits_output {f : Buf → Nat → Buf} {bs : List Nat} (hf : Emits f bs) (pt : Buf)
    (ptlim : Nat) (h : pt.pt + bs.length ≤ ptlim) :
    (f pt ptlim).pt = pt.pt + bs.length ∧ output pt.pt (f pt ptlim) = bs := by
  obtain ⟨h1, h2, _⟩ := hf pt ptlim (by omega)
  have hp : (f pt ptlim).pt = pt.pt + bs.length := by rw [h1]; omega
  refine ⟨hp, ?_⟩
  unfold output
  rw [hp, Nat.add_sub_cancel_left]
  apply List.ext_getElem
  · simp
  · intro i hi1 hi2
    simp only [List.getElem_map, List.getElem_range]
    rw [h2 i hi2 (by omega)]
    simp [List.getD_eq_getElem?_getD, List.getElem?_eq_getElem hi2]

/-- A format of one specification whose case calls writers renders what they append. -/
theorem renders_write {c : Nat} {t : tm} {env : Env} {all : Bool} {f : Buf → Nat → Buf}
    {bs : List Nat} (hc : c ≠ 0) (hd : dispatch c 0 t env = .write all f) (hf : Emits f bs) :
    Renders [37, c] t env bs := by
  intro depth pt ptlim w hroom
  obtain ⟨h1, h2⟩ := emits_output hf pt ptlim hroom
  refine ⟨f pt ptlim, if all then warn.IN_ALL else w, ?_, h1, h2⟩
  rw [fmt_eq_loop, fmtLoop_percent, fmtLoop_spec_write hc hd]
  simp [fmtLoop]

theorem renders_conv_two {c : Nat} {t : tm} {env : Env} {n : Int} (hc : c ≠ 0)
    (hd : dispatch c 0 t env = .write false fun pt ptlim => _conv n (fmt02 0) pt ptlim)
    (h0 : 0 ≤ n) (h : n < 100) :
    Renders [37, c] t env [48 + n.toNat / 10, 48 + n.toNat % 10] := by
  have hb : addBytes (convBuf n (fmt02 0)) 0 = [48 + n.toNat / 10, 48 + n.toNat % 10] := by
    rw [show fmt02 0 = str "02" from rfl, convBuf_two n h0 h]
    apply addBytes_zero
    intro b hb
    simp only [List.mem_cons, List.mem_singleton, List.not_mem_nil, or_false] at hb
    omega
  have := renders_write hc hd (conv_emits n (fmt02 0))
  rwa [hb] at this

theorem renders_conv_one {c : Nat} {t : tm} {env : Env} {n : Int} (hc : c ≠ 0)
    (hd : dispatch c 0 t env = .write false fun pt ptlim => _conv n (str "  ") pt ptlim)
    (h0 : 0 ≤ n) (h : n < 10) :
    Renders [37, c] t env [48 + n.toNat] := by
  have hb : addBytes (convBuf n (str "  ")) 0 = [48 + n.toNat] := by
    rw [convBuf_one n h0 h]
    apply addBytes_zero
    intro b hb
    simp only [List.mem_singleton] at hb
    omega
  have := renders_write hc hd (conv_emits n (str "  "))
  rwa [hb] at this

/-- C7: for a timestamp with `0 ≤ tm_wday ≤ 6` and `0 ≤ tm_yday ≤ 365`, `%U` and `%W` render
the two decimal digits of a number from 0 to 53, `%V` those of a number from 1 to 53, `%u` the
digit of a number from 1 to 7 and `%w` the digit of a number from 0 to 6. -/
theorem C7_week_number_bounds (t : tm) (env : Env) (hw0 : 0 ≤ t.tm_wday) (hw6 : t.tm_wday ≤ 6)
    (hy0 : 0 ≤ t.tm_yday) (hy : t.tm_yday ≤ 365) :
    (∃ n : Nat, n ≤ 53 ∧ Renders (str "%U") t env [48 + n / 10, 48 + n % 10]) ∧
    (∃ n : Nat, n ≤ 53 ∧ Renders (str "%W") t env [48 + n / 10, 48 + n % 10]) ∧
    (∃ n : Nat, 1 ≤ n ∧ n ≤ 53 ∧ Renders (str "%V") t env [48 + n / 10, 48 + n % 10]) ∧
    (∃ n : Nat, 1 ≤ n ∧ n ≤ 7 ∧ Renders (str "%u") t env [48 + n]) ∧
    (∃ n : Nat, n ≤ 6 ∧ Renders (str "%w") t env [48 + n]) := by
  refine ⟨?_, ?_, ?_, ?_, ?_⟩
  · have hv : Int.tdiv (wrapInt (t.tm_yday + DAYSPERWEEK - t.tm_wday)) DAYSPERWEEK
        = (t.tm_yday + 7 - t.tm_wday) / 7 := by
      rw [DAYSPERWEEK, wrapInt_id _ (by omega) (by omega),
        Int.tdiv_eq_ediv (by omega) (by norm_num)]
    have hd : dispatch 85 0 t env = .write false fun pt ptlim =>
        _conv (Int.tdiv (wrapInt (t.tm_yday + DAYSPERWEEK - t.tm_wday)) DAYSPERWEEK)
          (fmt02 0) pt ptlim := rfl
    exact ⟨_, by omega, renders_conv_two (by decide) hd (by omega) (by omega)⟩
  · have hX : 0 ≤ (if t.tm_wday ≠ 0 then t.tm_wday - 1 else DAYSPERWEEK - 1) ∧
        (if t.tm_wday ≠ 0 then t.tm_wday - 1 else DAYSPERWEEK - 1) ≤ 6 := by
      rw [DAYSPERWEEK]; split <;> omega
    have hv : 0 ≤ Int.tdiv (wrapInt (t.tm_yday + DAYSPERWEEK -
          (if t.tm_wday ≠ 0 then t.tm_wday - 1 else DAYSPERWEEK - 1))) DAYSPERWEEK ∧
        Int.tdiv (wrapInt (t.tm_yday + DAYSPERWEEK -
          (if t.tm_wday ≠ 0 then t.tm_wday - 1 else DAYSPERWEEK - 1))) DAYSPERWEEK ≤ 53 := by
      generalize (if t.tm_wday ≠ 0 then t.tm_wday - 1 else DAYSPERWEEK - 1) = x at hX ⊢
      rw [DAYSPERWEEK, wrapInt_id _ (by omega) (by omega),
        Int.tdiv_eq_ediv (by omega) (by norm_num)]
      omega
    have hd : dispatch 87 0 t env = .write false fun pt ptlim =>
        _conv (Int.tdiv (wrapInt (t.tm_yday + DAYSPERWEEK -
          (if t.tm_wday ≠ 0 then t.tm_wday - 1 else DAYSPERWEEK - 1))) DAYSPERWEEK)
          (fmt02 0) pt ptlim := rfl
    obtain ⟨hv0, hv53⟩ := hv
    exact ⟨_, by omega, renders_conv_two (by decide) hd hv0 (by omega)⟩
  · obtain ⟨base, w, hiso, h1, h53⟩ := isoWeek_bounds t hw0 hw6 hy0 hy
    have hd : dispatch 86 0 t env = .write false fun pt ptlim =>
        _conv w (fmt02 0) pt ptlim := by
      simp only [dispatch, hiso]
    exact ⟨_, by omega, by omega, renders_conv_two (by decide) hd (by omega) (by omega)⟩
  · have hd : dispatch 117 0 t env = .write false fun pt ptlim =>
        _conv (if t.tm_wday = 0 then DAYSPERWEEK else t.tm_wday) (str "  ") pt ptlim := rfl
    have hr : 1 ≤ (if t.tm_wday = 0 then DAYSPERWEEK else t.tm_wday) ∧
        (if t.tm_wday = 0 then DAYSPERWEEK else t.tm_wday) ≤ 7 := by
      rw [DAYSPERWEEK]; split <;> omega
    exact ⟨_, by omega, by omega, renders_conv_one (by decide) hd (by omega) (by omega)⟩
  · have hd : dispatch 119 0 t env = .write false fun pt ptlim =>
        _conv t.tm_wday (str "  ") pt ptlim := rfl
    exact ⟨_, by omega, renders_conv_one (by decide) hd (by omega) (by omega)⟩

/-- C7 at the timestamp `T0`. -/
theorem C7_week_number_bounds_witness :
    (0 ≤ T0.tm_wday ∧ T0.tm_wday ≤ 6 ∧ 0 ≤ T0.tm_yday ∧ T0.tm_yday ≤ 365) ∧
    (∃ n : Nat, n ≤ 53 ∧ Renders (str "%U") T0 E0 [48 + n / 10, 48 + n % 10]) ∧
    (∃ n : Nat, n ≤ 53 ∧ Renders (str "%W") T0 E0 [48 + n / 10, 48 + n % 10]) ∧
    (∃ n : Nat, 1 ≤ n ∧ n ≤ 53 ∧ Renders (str "%V") T0 E0 [48 + n / 10, 48 + n % 10]) ∧
    (∃ n : Nat, 1 ≤ n ∧ n ≤ 7 ∧ Renders (str "%u") T0 E0 [48 + n]) ∧
    (∃ n : Nat, n ≤ 6 ∧ Renders (str "%w") T0 E0 [48 + n]) :=
  ⟨⟨by decide, by decide, by decide, by decide⟩,
   C7_week_number_bounds T0 E0 (by decide) (by decide) (by decide) (by decide)⟩

/-! ## Reading the rendered numbers back -/

theorem readInt_digits (l : List Nat) (hne : l ≠ []) (hd : ∀ b ∈ l, isDigit b = true) :
    readInt l = some (decVal l : Int) := by
  have hr : readNat l = some (decVal l) := by
    unfold readNat
    rw [if_pos ⟨hne, List.all_eq_true.2 hd⟩]
  cases l with
  | nil => exact absurd rfl hne
  | cons h tl =>
    have h45 : h ≠ 45 := by
      have := hd h (List.mem_cons_self _ _)
      simp only [isDigit, decide_eq_true_eq] at this
      omega
    unfold readInt
    split
    · rename_i r heq
      cases heq
      exact absurd rfl h45
    · rw [hr]; rfl

theorem readInt_two (n : Nat) (h : n < 100) :
    readInt [48 + n / 10, 48 + n % 10] = some (n : Int) := by
  rw [readInt_digits _ (by simp)]
  · simp only [decVal, List.foldl_cons, List.foldl_nil]
    congr 1
    omega
  · intro b hb
    simp only [List.mem_cons, List.mem_singleton, List.not_mem_nil, or_false] at hb
    simp only [isDigit, decide_eq_true_eq]
    omega

theorem readInt_one (n : Nat) (h : n < 10) : readInt [48 + n] = some (n : Int) := by
  rw [readInt_digits _ (by simp)]
  · simp [decVal]
  · intro b hb
    simp only [List.mem_singleton] at hb
    simp only [isDigit, decide_eq_true_eq]
    omega

/-- What `%Y` and `%G` render for a year above -100: at least four bytes that read back as the
year `a + b`. -/
theorem yconvBytes_reads (a b : Int) (h : -100 < a + b) :
    4 ≤ (yconvBytes a b true true 0).length ∧
      readInt (yconvBytes a b true true 0) = some (a + b) := by
  obtain ⟨s1, s2, s3, s4, s5⟩ := yearSplit_spec a b
  have eg : getformat 0 (str "02") (str " 2") (str "  ") (str "02") = str "02" := rfl
  unfold yconvBytes
  simp only [↓reduceIte, eg]
  have htr : ∀ x : Int, 0 ≤ x → x < 100 →
      addBytes (convBuf x (str "02")) 0 = [48 + x.toNat / 10, 48 + x.toNat % 10] := by
    intro x hx0 hx
    rw [convBuf_two x hx0 hx]
    apply addBytes_zero
    intro b hb
    simp only [List.mem_cons, List.mem_singleton, List.not_mem_nil, or_false] at hb
    omega
  by_cases hneg : (yearSplit a b).1 = 0 ∧ (yearSplit a b).2 < 0
  · rw [if_pos hneg, if_pos hneg.2, htr _ (by omega) (by omega),
      addBytes_zero (str "-0") (by decide)]
    refine ⟨by simp [str], ?_⟩
    have e : str "-0" ++ [48 + (-(yearSplit a b).2).toNat / 10,
        48 + (-(yearSplit a b).2).toNat % 10]
        = 45 :: [48, 48 + (-(yearSplit a b).2).toNat / 10,
          48 + (-(yearSplit a b).2).toNat % 10] := rfl
    rw [e]
    have hr : readNat [48, 48 + (-(yearSplit a b).2).toNat / 10,
        48 + (-(yearSplit a b).2).toNat % 10] = some (-(yearSplit a b).2).toNat := by
      unfold readNat
      rw [if_pos]
      · simp only [decVal, List.foldl_cons, List.foldl_nil]
        congr 1
        omega
      · refine ⟨by simp, ?_⟩
        simp only [List.all_cons, List.all_nil, isDigit, Bool.and_true, Bool.and_eq_true,
          decide_eq_true_eq]
        omega
    simp only [readInt, hr, Option.map_some']
    congr 1
    omega
  · rw [if_neg hneg]
    have hl0 : 0 ≤ (yearSplit a b).1 := by omega
    have ht0 : 0 ≤ (yearSplit a b).2 := by
      by_contra hc
      rcases (show (yearSplit a b).1 = 0 ∨ (yearSplit a b).1 > 0 by omega) with h0 | h0
      · exact hneg ⟨h0, by omega⟩
      · exact s4 ⟨h0, by omega⟩
    rw [if_neg (by omega), htr _ ht0 s3]
    obtain ⟨l1, l2, l3⟩ := convBuf_lead (yearSplit a b).1 hl0
    rw [addBytes_zero _ (fun b hb => isDigit_ne_zero (l2 b hb))]
    refine ⟨by simp only [List.length_append, List.length_cons, List.length_nil]; omega, ?_⟩
    rw [readInt_digits]
    · rw [show [48 + (yearSplit a b).2.toNat / 10, 48 + (yearSplit a b).2.toNat % 10]
          = [48 + (yearSplit a b).2.toNat / 10] ++ [48 + (yearSplit a b).2.toNat % 10] from rfl,
        ← List.append_assoc, decVal_snoc, decVal_snoc, l3]
      congr 1
      omega
    · intro hnil
      have := congrArg List.length hnil
      simp at this
    · intro b hb
      rcases List.mem_append.1 hb with hb | hb
      · exact l2 b hb
      · simp only [List.mem_cons, List.mem_singleton, List.not_mem_nil, or_false] at hb
        simp only [isDigit, decide_eq_true_eq]
        omega

/-- C5, the failing input: for `tm_year = -2000`, the year -100, `"%Y"` gives the four bytes
`"0/00"`, which are not a signed decimal numeral. -/
theorem C5_year_minus_100 :
    (_fmt 2 (str "%Y") { T0 with tm_year := -2000 } E0 ⟨0, mem0⟩ 100 warn.IN_NONE).map
        (fun rw => output 0 rw.1) = some (str "0/00") ∧
      readInt (str "0/00") = none := by
  decide

theorem digitChar_toNat (d : Nat) (h : d < 10) : (Nat.digitChar d).toNat = 48 + d := by
  interval_cases d <;> rfl

/-- The digit loop of `_conv` computes the standard decimal numeral. -/
theorem toDigitsCore_conv (fuel : Nat) : ∀ (n k : Nat) (cs : List Char), n < fuel → n ≤ k →
    (Nat.toDigitsCore 10 fuel n cs).map Char.toNat
      = convDigits k (n : Int) (cs.map Char.toNat) := by
  induction fuel with
  | zero => intro n k cs h; omega
  | succ fuel ih =>
    intro n k cs hf hk
    have hmod : toByte (48 + Int.tmod (n : Int) 10) = (Nat.digitChar (n % 10)).toNat := by
      rw [digitChar_toNat _ (Nat.mod_lt _ (by decide)),
        Int.tmod_eq_emod (by omega) (by decide), toByte_digit _ (by omega) (by omega)]
      omega
    by_cases h10 : n < 10
    · have hz : n / 10 = 0 := by omega
      rw [convDigits_small k n (by omega) (by omega)]
      simp only [Nat.toDigitsCore, hz, ↓reduceIte, List.map_cons]
      rw [digitChar_toNat _ (Nat.mod_lt _ (by decide))]
      congr 1
      simp only [Int.toNat_ofNat]
      omega
    · have hz : n / 10 ≠ 0 := by omega
      obtain ⟨k2, rfl⟩ : ∃ k2, k = k2 + 1 := ⟨k - 1, by omega⟩
      rw [convDigits_step k2 n (by omega)]
      simp only [Nat.toDigitsCore, hz, ↓reduceIte]
      rw [ih (n / 10) k2 _ (by omega) (by omega), List.map_cons, hmod,
        Int.tdiv_eq_ediv (by omega) (by decide)]
      rfl

theorem convDigits_fuel (n k : Nat) (h : n ≤ k) : convDigits k (n : Int) [] = decimal n :=
  (toDigitsCore_conv (n + 1) n k [] (by omega) h).symm

theorem convDigits_decimal (n : Int) (h0 : 0 ≤ n) : convDigits n.toNat n [] = decimal n.toNat := by
  have := convDigits_fuel n.toNat n.toNat (le_refl _)
  rwa [Int.toNat_of_nonneg h0] at this

theorem decimal_small (n : Nat) (h : n < 10) : decimal n = [48 + n] := by
  rw [← convDigits_fuel n n (le_refl _), convDigits_small n n (by omega) (by omega)]
  simp

theorem decimal_step (n : Nat) (h : 10 ≤ n) : decimal n = decimal (n / 10) ++ [48 + n % 10] := by
  obtain ⟨k, rfl⟩ : ∃ k, n = k + 1 := ⟨n - 1, by omega⟩
  rw [← convDigits_fuel (k + 1) (k + 1) (le_refl _), convDigits_step k _ (by omega),
    convDigits_append, Int.tdiv_eq_ediv (by omega) (by decide),
    Int.tmod_eq_emod (by omega) (by decide), toByte_digit _ (by omega) (by omega)]
  have e : ((k + 1 : Nat) : Int) / 10 = (((k + 1) / 10 : Nat) : Int) := by omega
  rw [e, convDigits_fuel ((k + 1) / 10) k (by omega)]
  congr 2

theorem decimal_digits (n : Nat) :
    (∀ b ∈ decimal n, isDigit b = true) ∧ decVal (decimal n) = n ∧ decimal n ≠ [] := by
  have h := convDigits_spec n n (by omega) (by simp)
  have e := convDigits_decimal (n : Int) (by omega)
  simp only [Int.toNat_ofNat] at e h
  rw [e] at h
  exact ⟨h.2.1, h.2.2, h.1⟩

/-- The numeral of a number other than 0 does not begin with the digit 0. -/
theorem decimal_head (n : Nat) : n ≠ 0 → (decimal n).head? ≠ some 48 := by
  induction n using Nat.strong_induction_on with
  | _ n ih =>
    intro hn
    by_cases h : n < 10
    · rw [decimal_small n h]
      simp only [List.head?_cons, ne_eq, Option.some.injEq]
      omega
    · rw [decimal_step n (by omega)]
      have hne : decimal (n / 10) ≠ [] := (decimal_digits (n / 10)).2.2
      rw [List.head?_append_of_ne_nil _ hne]
      exact ih (n / 10) (by omega) (by omega)

/-- A number below `10 ^ k` has at most `k` digits. -/
theorem decimal_length (k : Nat) : ∀ n : Nat, n < 10 ^ (k + 1) → (decimal n).length ≤ k + 1 := by
  induction k with
  | zero =>
    intro n h
    rw [decimal_small n (by simpa using h)]
    simp
  | succ k ih =>
    intro n h
    by_cases h10 : n < 10
    · rw [decimal_small n h10]
      simp
    · rw [decimal_step n (by omega)]
      have : n / 10 < 10 ^ (k + 1) := by
        rw [pow_succ] at h
        omega
      have := ih (n / 10) this
      simp only [List.length_append, List.length_singleton]
      omega

/-- What `_conv` appends for a number that is not negative: its numeral behind the fill bytes
that bring it to the width of the format. -/
theorem conv_bytes (n : Int) (f w code : Nat) (h0 : 0 ≤ n) (hf : f ≠ 0)
    (hcode : (code = 32 ∧ w = 0) ∨ code = 48 + w) :
    addBytes (convBuf n [f, code]) 0 = padTo f w (decimal n.toNat) := by
  have hw : ((if code = 32 then (0 : Int) else (code : Int) - 48)
      - ((decimal n.toNat).length : Int)).toNat = w - (decimal n.toNat).length := by
    rcases hcode with ⟨h1, h2⟩ | h1
    · subst h1 h2
      simp
    · subst h1
      rw [if_neg (by omega)]
      omega
  have hb : convBuf n [f, code] = padTo f w (decimal n.toNat) := by
    unfold convBuf padTo
    simp only [List.getD_cons_zero, List.getD_cons_succ]
    rw [convDigits_decimal n h0, hw]
  rw [hb]
  apply addBytes_zero
  intro b hb
  unfold padTo at hb
  rcases List.mem_append.1 hb with h | h
  · rw [(List.mem_replicate.1 h).2]
    exact hf
  · exact isDigit_ne_zero ((decimal_digits n.toNat).1 b h)

/-! ## Rendering a format piece by piece -/

theorem output_append {s : Nat} {p r : Buf} {a bs : List Nat} (hp : p.pt = s + a.length)
    (ha : output s p = a) (hr : r.pt = p.pt + bs.length) (hb : output p.pt r = bs)
    (hframe : ∀ j, j < p.pt → r.mem j = p.mem j) : output s r = a ++ bs := by
  subst ha hb
  unfold output at *
  simp only [List.length_map, List.length_range] at hp hr
  apply List.ext_getElem
  · simp only [List.length_map, List.length_range, List.length_append]
    omega
  · intro i h1 h2
    simp only [List.getElem_map, List.getElem_range]
    by_cases hi : i < p.pt - s
    · rw [List.getElem_append_left (by simpa using hi)]
      simp only [List.getElem_map, List.getElem_range]
      exact hframe _ (by omega)
    · rw [List.getElem_append_right (by simpa using hi)]
      simp only [List.getElem_map, List.getElem_range, List.length_map, List.length_range]
      congr 1
      omega

theorem renders_nil (t : tm) (env : Env) : Renders [] t env [] := by
  intro depth pt ptlim w _
  exact ⟨pt, w, by simp [_fmt, fmtLoop], by simp, by simp [output]⟩

/-- A byte of the format that is not `%` is rendered as itself. -/
theorem renders_lit {c : Nat} {rest bs : List Nat} {t : tm} {env : Env} (hc0 : c ≠ 0)
    (hc : c ≠ 37) (h : Renders rest t env bs) : Renders (c :: rest) t env (c :: bs) := by
  intro depth pt ptlim w hroom
  simp only [List.length_cons] at hroom
  obtain ⟨r, w2, hr, hpt, hout⟩ := h depth (pt.store c).next ptlim w (by
    simp only [next_pt, store_pt]; omega)
  have hw := fmt_within (by simp only [next_pt, store_pt]; omega) hr
  refine ⟨r, w2, ?_, ?_, ?_⟩
  · rw [fmt_eq_loop] at hr ⊢
    simp only [fmtLoop, hc0, hc, ↓reduceIte, putByte]
    rw [if_neg (by omega)]
    exact hr
  · simp only [next_pt, store_pt] at hpt
    simp only [List.length_cons]
    omega
  · have e := @output_append pt.pt (pt.store c).next r [c] bs (by simp [next_pt, store_pt])
      (by
        simp only [output, next_pt, store_pt, Nat.add_sub_cancel_left, next_mem]
        have := store_mem_self pt c
        simp [List.range_succ, this])
      hpt hout (fun j hj => hw.2.2 j (Or.inl hj))
    simpa using e

/-- A specification with flags whose case calls writers renders what they append. -/
theorem renders_spec {c : Nat} {all : Bool} {f : Buf → Nat → Buf} {a rest bs : List Nat}
    {t : tm} {env : Env} (m : List Nat) (hm : ∀ b ∈ m, modByte b = true) (hc : c ≠ 0)
    (hd : dispatch c (((m.filter flagByte).getLast?).getD 0) t env = .write all f)
    (hf : Emits f a) (h : Renders rest t env bs) :
    Renders (37 :: (m ++ c :: rest)) t env (a ++ bs) := by
  intro depth pt ptlim w hroom
  simp only [List.length_append] at hroom
  obtain ⟨h1, h2⟩ := emits_output hf pt ptlim (by omega)
  obtain ⟨r, w2, hr, hpt, hout⟩ := h depth (f pt ptlim) ptlim (if all then warn.IN_ALL else w)
    (by omega)
  have hw := fmt_within (by omega) hr
  refine ⟨r, w2, ?_, ?_, ?_⟩
  · rw [fmt_eq_loop] at hr ⊢
    rw [fmtLoop_percent, fmtLoop_mods _ t env ptlim c rest hc m 37 0 pt w hm,
      fmtLoop_spec_write hc hd]
    exact hr
  · simp only [List.length_append]
    omega
  · exact output_append h1 h2 hpt hout (fun j hj => hw.2.2 j (Or.inl hj))

/-- One specification with flags, alone in the format. -/
theorem renders_one {c : Nat} {all : Bool} {f : Buf → Nat → Buf} {a : List Nat}
    {t : tm} {env : Env} (m : List Nat) (hm : ∀ b ∈ m, modByte b = true) (hc : c ≠ 0)
    (hd : dispatch c (((m.filter flagByte).getLast?).getD 0) t env = .write all f)
    (hf : Emits f a) : Renders (37 :: (m ++ [c])) t env a := by
  have := renders_spec m hm hc hd hf (renders_nil t env)
  rwa [List.append_nil] at this

/-! ## The scenario of `T0` -/

/-- C12, as stated, fails: for `T0`, whose `tm_mon` is 2, the format `"%Y-%m-%d %H:%M:%S"`
gives the bytes `"2008-03-04 05:06:07"` and not `"2008-04-04 05:06:07"`. -/
theorem C12_T0_month_is_march :
    ∃ r w, _fmt 2 (str "%Y-%m-%d %H:%M:%S") T0 E0 ⟨0, mem0⟩ 32 warn.IN_NONE = some (r, w) ∧
      output 0 r = str "2008-03-04 05:06:07" ∧ output 0 r ≠ str "2008-04-04 05:06:07" :=
  ⟨_, _, rfl, by decide, by decide⟩

/-- C12, amended: for the timestamp `T0` = {sec 7, min 6, hour 5, mday 4, mon 2, year 108,
wday 2, yday 93, isdst 1}, whatever its offset and zone string are, the format
`"%Y-%m-%d %H:%M:%S"` renders exactly the bytes `"2008-03-04 05:06:07"`. -/
theorem C12_T0_rendering (env : Env) (g : Int) (z : Option (List Nat)) :
    Renders (str "%Y-%m-%d %H:%M:%S") { T0 with tm_gmtoff := g, tm_zone := z } env
      (str "2008-03-04 05:06:07") := by
  have hm : ∀ b ∈ ([] : List Nat), modByte b = true := by simp
  have s6 := @renders_spec 83 false _ _ _ _ { T0 with tm_gmtoff := g, tm_zone := z } env []
    hm (by decide) rfl (conv_emits 7 (fmt02 0)) (renders_nil _ _)
  have l5 := @renders_lit 58 _ _ _ _ (by decide) (by decide) s6
  have s5 := @renders_spec 77 false _ _ _ _ { T0 with tm_gmtoff := g, tm_zone := z } env []
    hm (by decide) rfl (conv_emits 6 (fmt02 0)) l5
  have l4 := @renders_lit 58 _ _ _ _ (by decide) (by decide) s5
  have s4 := @renders_spec 72 false _ _ _ _ { T0 with tm_gmtoff := g, tm_zone := z } env []
    hm (by decide) rfl (conv_emits 5 (fmt02 0)) l4
  have l3 := @renders_lit 32 _ _ _ _ (by decide) (by decide) s4
  have s3 := @renders_spec 100 false _ _ _ _ { T0 with tm_gmtoff := g, tm_zone := z } env []
    hm (by decide) rfl (conv_emits 4 (fmt02 0)) l3
  have l2 := @renders_lit 45 _ _ _ _ (by decide) (by decide) s3
  have s2 := @renders_spec 109 false _ _ _ _ { T0 with tm_gmtoff := g, tm_zone := z } env []
    hm (by decide) rfl (conv_emits (wrapInt (2 + 1)) (fmt02 0)) l2
  have l1 := @renders_lit 45 _ _ _ _ (by decide) (by decide) s2
  have s1 := @renders_spec 89 false _ _ _ _ { T0 with tm_gmtoff := g, tm_zone := z } env []
    hm (by decide) rfl (yconv_emits 108 1900 true true 0) l1
  exact s1

/-! ## The year splitter -/

/-- C19: for all integers `a` and `b`, the `lead` and `trail` that `_yconv` computes satisfy
`lead * 100 + trail = a + b` and `|trail| < 100`, and they never have opposite signs: not
`lead > 0` with `trail < 0`, and not `lead < 0` with `trail > 0`. -/
theorem C19_year_split (a b : Int) :
    (yearSplit a b).1 * 100 + (yearSplit a b).2 = a + b ∧ |(yearSplit a b).2| < 100 ∧
      ¬ ((yearSplit a b).1 > 0 ∧ (yearSplit a b).2 < 0) ∧
      ¬ ((yearSplit a b).1 < 0 ∧ (yearSplit a b).2 > 0) := by
  obtain ⟨h1, h2, h3, h4, h5⟩ := yearSplit_spec a b
  exact ⟨h1, abs_lt.2 ⟨h2, h3⟩, h4, h5⟩

/-! ## The integer writer -/

/-- C20: for every integer `n ≥ 0`, every fill byte `f` other than the terminator and every
width `w` from 0 to 9, given in the format as the digit of `w` or, for `w = 0`, as a space,
`_conv` with room for the bytes appends exactly `w - d` copies of `f` (none when `d ≥ w`),
where `d` is the number of digits, and then the standard decimal numeral of `n`, in full
also when it is longer than `w`; the numeral consists of digits, has the value `n`, and
does not begin with the digit 0 unless `n` is 0. -/
theorem C20_conv_pads (n : Int) (f w code : Nat) (pt : Buf) (ptlim : Nat) (h0 : 0 ≤ n)
    (hf : f ≠ 0) (hw : w ≤ 9) (hcode : (code = 32 ∧ w = 0) ∨ code = 48 + w)
    (hroom : pt.pt + ((w - (decimal n.toNat).length) + (decimal n.toNat).length) ≤ ptlim) :
    (_conv n [f, code] pt ptlim).pt
        = pt.pt + ((w - (decimal n.toNat).length) + (decimal n.toNat).length) ∧
      output pt.pt (_conv n [f, code] pt ptlim)
        = List.replicate (w - (decimal n.toNat).length) f ++ decimal n.toNat ∧
      (∀ b ∈ decimal n.toNat, isDigit b = true) ∧ decVal (decimal n.toNat) = n.toNat ∧
      (n ≠ 0 → (decimal n.toNat).head? ≠ some 48) := by
  have hb := conv_bytes n f w code h0 hf hcode
  have hl : (padTo f w (decimal n.toNat)).length
      = (w - (decimal n.toNat).length) + (decimal n.toNat).length := by
    simp [padTo]
  have he := emits_output (conv_emits n [f, code]) pt ptlim (by rw [hb, hl]; exact hroom)
  rw [hb, hl] at he
  refine ⟨he.1, he.2, (decimal_digits _).1, (decimal_digits _).2.1, ?_⟩
  intro hn
  exact decimal_head _ (by omega)

/-- C20 for the year 2008 under the format `"02"`, four digits in full, and for the day 4
under the format `" 2"`, one space and the digit. -/
theorem C20_conv_pads_witness :
    (((0 : Int) ≤ 2008 ∧ 48 ≠ 0 ∧ 2 ≤ 9 ∧ ((50 = 32 ∧ 2 = 0) ∨ 50 = 48 + 2) ∧
      0 + ((2 - (decimal (2008 : Int).toNat).length) + (decimal (2008 : Int).toNat).length)
        ≤ 10) ∧
     (_conv 2008 (str "02") ⟨0, mem0⟩ 10).pt = 4 ∧
     output 0 (_conv 2008 (str "02") ⟨0, mem0⟩ 10) = str "2008") ∧
    (_conv 4 (str " 2") ⟨0, mem0⟩ 10).pt = 2 ∧
    output 0 (_conv 4 (str " 2") ⟨0, mem0⟩ 10) = str " 4" :=
  ⟨⟨⟨by decide, by decide, by decide, by decide, by decide⟩,
    (C20_conv_pads 2008 48 2 50 ⟨0, mem0⟩ 10 (by decide) (by decide) (by decide) (by decide)
      (by decide)).1,
    (C20_conv_pads 2008 48 2 50 ⟨0, mem0⟩ 10 (by decide) (by decide) (by decide) (by decide)
      (by decide)).2.1⟩,
   (C20_conv_pads 4 32 2 50 ⟨0, mem0⟩ 10 (by decide) (by decide) (by decide) (by decide)
      (by decide)).1,
   (C20_conv_pads 4 32 2 50 ⟨0, mem0⟩ 10 (by decide) (by decide) (by decide) (by decide)
      (by decide)).2.1⟩

/-! ## Names of the locale table -/

theorem addName_write (table : List (List Nat)) (n i : Int) (modifier : Nat)
    (hn : n ≤ table.length) :
    addName table n i modifier = .write false fun pt ptlim =>
      _add (if i < 0 ∨ n ≤ i then str "?" else table.getD i.toNat []) pt ptlim modifier := by
  unfold addName
  by_cases h : i < 0 ∨ i ≥ n
  · rw [if_pos h, if_pos h]
  · rw [if_neg h, if_neg h]
    have hlt : i.toNat < table.length := by omega
    have hl : lookup table i = some (table.getD i.toNat []) := by
      unfold lookup
      rw [if_pos (by omega), List.getD_eq_getElem?_getD, List.get?_eq_getElem?,
        List.getElem?_eq_getElem hlt]
      rfl
    rw [hl]

theorem renders_name (c : Nat) (table : List (List Nat)) (n i : Int) (t : tm) (env : Env)
    (hc : c ≠ 0) (hn : n ≤ table.length) (hz : ∀ s ∈ table, ∀ b ∈ s, b ≠ 0)
    (hd : dispatch c 0 t env = addName table n i 0) :
    Renders [37, c] t env (if i < 0 ∨ n ≤ i then str "?" else table.getD i.toNat []) := by
  rw [addName_write table n i 0 hn] at hd
  have h := renders_write hc hd (add_emits _ 0)
  rwa [addBytes_zero] at h
  intro b hb
  split at hb
  · have : b = 63 := by simpa [str] using hb
    omega
  · rename_i h
    have hlt : i.toNat < table.length := by omega
    rw [List.getD_eq_getElem?_getD, List.getElem?_eq_getElem hlt] at hb
    exact hz _ (List.getElem_mem hlt) b hb

/-- C16: `%A` and `%a` render `"?"` for every `tm_wday` outside 0..6, and `%B`, `%b` and `%h`
render `"?"` for every `tm_mon` outside 0..11; for an index in range they render the full or
the abbreviated name of that index in the table of the C locale; and none of the five cases
reads the table outside its bounds, whatever the modifier is. -/
theorem C16_names_guarded (t : tm) (env : Env) :
    Renders (str "%A") t env
      (if t.tm_wday < 0 ∨ 7 ≤ t.tm_wday then str "?"
       else (["Sunday", "Monday", "Tuesday", "Wednesday", "Thursday", "Friday",
              "Saturday"].map str).getD t.tm_wday.toNat []) ∧
    Renders (str "%a") t env
      (if t.tm_wday < 0 ∨ 7 ≤ t.tm_wday then str "?"
       else (["Sun", "Mon", "Tue", "Wed", "Thu", "Fri", "Sat"].map str).getD
              t.tm_wday.toNat []) ∧
    Renders (str "%B") t env
      (if t.tm_mon < 0 ∨ 12 ≤ t.tm_mon then str "?"
       else (["January", "February", "March", "April", "May", "June", "July", "August",
              "September", "October", "November", "December"].map str).getD
              t.tm_mon.toNat []) ∧
    Renders (str "%b") t env
      (if t.tm_mon < 0 ∨ 12 ≤ t.tm_mon then str "?"
       else (["Jan", "Feb", "Mar", "Apr", "May", "Jun", "Jul", "Aug", "Sep", "Oct", "Nov",
              "Dec"].map str).getD t.tm_mon.toNat []) ∧
    Renders (str "%h") t env
      (if t.tm_mon < 0 ∨ 12 ≤ t.tm_mon then str "?"
       else (["Jan", "Feb", "Mar", "Apr", "May", "Jun", "Jul", "Aug", "Sep", "Oct", "Nov",
              "Dec"].map str).getD t.tm_mon.toNat []) ∧
    ∀ c ∈ [65, 97, 66, 98, 104], ∀ modifier, dispatch c modifier t env ≠ .stuck := by
  refine ⟨?_, ?_, ?_, ?_, ?_, ?_⟩
  · exact renders_name 65 Locale.weekday DAYSPERWEEK t.tm_wday t env (by decide) (by decide)
      (by decide) rfl
  · exact renders_name 97 Locale.wday DAYSPERWEEK t.tm_wday t env (by decide) (by decide)
      (by decide) rfl
  · exact renders_name 66 Locale.month MONSPERYEAR t.tm_mon t env (by decide) (by decide)
      (by decide) rfl
  · exact renders_name 98 Locale.mon MONSPERYEAR t.tm_mon t env (by decide) (by decide)
      (by decide) rfl
  · exact renders_name 104 Locale.mon MONSPERYEAR t.tm_mon t env (by decide) (by decide)
      (by decide) rfl
  · intro c hc modifier
    simp only [List.mem_cons, List.mem_singleton, List.not_mem_nil, or_false] at hc
    rcases hc with rfl | rfl | rfl | rfl | rfl <;>
      exact addName_ne_stuck (by decide)

/-! ## The marker of the half of the day -/

/-- C17: `%p` renders `"PM"` when `tm_hour ≥ 12` and `"AM"` otherwise, and `%P` renders the
marker in lower case, `"pm"` or `"am"`, whatever flags and letters `E`, `O` stand between
the `%` and the `P`, among them `^` and `#`. -/
theorem C17_half_day_marker (t : tm) (env : Env) (m : List Nat)
    (hm : ∀ b ∈ m, modByte b = true) :
    Renders (str "%p") t env (if 12 ≤ t.tm_hour then str "PM" else str "AM") ∧
    Renders (37 :: (m ++ [80])) t env (if 12 ≤ t.tm_hour then str "pm" else str "am") := by
  constructor
  · have h := @renders_write 112 t env false _ _ (by decide) rfl
      (add_emits (if t.tm_hour ≥ Int.tdiv HOURSPERDAY 2 then Locale.pm else Locale.am) 0)
    have e : addBytes (if t.tm_hour ≥ Int.tdiv HOURSPERDAY 2 then Locale.pm else Locale.am) 0
        = if 12 ≤ t.tm_hour then str "PM" else str "AM" := by
      have h12 : Int.tdiv HOURSPERDAY 2 = 12 := by decide
      rw [h12]
      by_cases h : 12 ≤ t.tm_hour
      · rw [if_pos h, if_pos h]; decide
      · rw [if_neg h, if_neg h]; decide
    rw [e] at h
    exact h
  · have h := @renders_one 80 false _ _ t env m hm (by decide) rfl
      (add_emits (if t.tm_hour ≥ Int.tdiv HOURSPERDAY 2 then Locale.pm else Locale.am)
        FORCE_LOWER_CASE)
    have e : addBytes (if t.tm_hour ≥ Int.tdiv HOURSPERDAY 2 then Locale.pm else Locale.am)
        FORCE_LOWER_CASE = if 12 ≤ t.tm_hour then str "pm" else str "am" := by
      have h12 : Int.tdiv HOURSPERDAY 2 = 12 := by decide
      rw [h12]
      by_cases h : 12 ≤ t.tm_hour
      · rw [if_pos h, if_pos h]; decide
      · rw [if_neg h, if_neg h]; decide
    rw [e] at h
    exact h

/-- C17 at the hour 13: `"%p"` renders `"PM"`, and `"%P"`, `"%^P"` and `"%#P"` render
`"pm"`. -/
theorem C17_half_day_marker_witness :
    ((∀ b ∈ ([] : List Nat), modByte b = true) ∧ (∀ b ∈ [94], modByte b = true) ∧
      (∀ b ∈ [35], modByte b = true)) ∧
    Renders (str "%p") { T0 with tm_hour := 13 } E0 (str "PM") ∧
    Renders (str "%P") { T0 with tm_hour := 13 } E0 (str "pm") ∧
    Renders (str "%^P") { T0 with tm_hour := 13 } E0 (str "pm") ∧
    Renders (str "%#P") { T0 with tm_hour := 13 } E0 (str "pm") :=
  ⟨⟨by decide, by decide, by decide⟩,
   (C17_half_day_marker { T0 with tm_hour := 13 } E0 [] (by decide)).1,
   (C17_half_day_marker { T0 with tm_hour := 13 } E0 [] (by decide)).2,
   (C17_half_day_marker { T0 with tm_hour := 13 } E0 [94] (by decide)).2,
   (C17_half_day_marker { T0 with tm_hour := 13 } E0 [35] (by decide)).2⟩

/-! ## The zone abbreviation -/

theorem addBytes_cstr (s : List Nat) : addBytes s 0 = cstr s := by
  unfold addBytes cstr
  rw [if_neg (by decide), if_neg (by decide), if_neg (by decide)]
  simp

theorem cstr_nil_iff (s : List Nat) : cstr s = [] ↔ s.headD 0 = 0 := by
  cases s with
  | nil => simp [cstr]
  | cons a l =>
    by_cases h : a = 0
    · simp [cstr, h]
    · simp [cstr, h]

/-- The zone string of `case 'Z'`, with the tests `!zone || !*zone` as tests of content. -/
theorem zoneName_eq (t : tm) (env : Env) :
    zoneName t env =
      ((if cstrOf t.tm_zone = [] then
        (if cstrOf (if t.tm_isdst = 0 then env.tzname0
            else if t.tm_isdst > 0 then env.tzname1 else t.tm_zone) = [] then some []
         else (if t.tm_isdst = 0 then env.tzname0
            else if t.tm_isdst > 0 then env.tzname1 else t.tm_zone))
       else t.tm_zone).getD []) := by
  have key : ∀ z : Option (List Nat), ∀ b : Bool,
      b = (match z with
        | none => true
        | some s => decide (s.headD 0 = 0)) → (b = true ↔ cstrOf z = []) := by
    intro z b hb
    subst hb
    cases z with
    | none => simp [cstrOf]
    | some s => simp only [cstrOf, cstr_nil_iff, decide_eq_true_eq]
  unfold zoneName
  simp only []
  have k1 := key t.tm_zone _ rfl
  have k2 := key (if t.tm_isdst = 0 then env.tzname0
            else if t.tm_isdst > 0 then env.tzname1 else t.tm_zone) _ rfl
  by_cases hz : cstrOf t.tm_zone = []
  · by_cases h2 : cstrOf (if t.tm_isdst = 0 then env.tzname0
            else if t.tm_isdst > 0 then env.tzname1 else t.tm_zone) = []
    · exact (congrArg (fun o : Option (List Nat) => o.getD [])
        ((if_pos (k1.2 hz)).trans (if_pos (k2.2 h2)))).trans
        (congrArg (fun o : Option (List Nat) => o.getD [])
          ((if_pos hz).trans (if_pos h2))).symm
    · exact (congrArg (fun o : Option (List Nat) => o.getD [])
        ((if_pos (k1.2 hz)).trans (if_neg (fun h => h2 (k2.1 h))))).trans
        (congrArg (fun o : Option (List Nat) => o.getD [])
          ((if_pos hz).trans (if_neg h2))).symm
  · exact (congrArg (fun o : Option (List Nat) => o.getD [])
        (if_neg (fun h => hz (k1.1 h)))).trans
        (congrArg (fun o : Option (List Nat) => o.getD []) (if_neg hz)).symm

/-- C13: `%Z` renders the zone string of the timestamp when that is present and not empty;
otherwise, when `tm_isdst ≥ 0`, the entry of `tzname` of index `tm_isdst != 0`, which is no
bytes when that entry is absent or empty; otherwise, when `tm_isdst < 0`, no bytes. -/
theorem C13_zone_name (t : tm) (env : Env) :
    Renders (str "%Z") t env
      (if cstrOf t.tm_zone ≠ [] then cstrOf t.tm_zone
       else if 0 ≤ t.tm_isdst then cstrOf (if t.tm_isdst ≠ 0 then env.tzname1 else env.tzname0)
       else []) := by
  have h := @renders_write 90 t env false _ _ (by decide) rfl (add_emits (zoneName t env) 0)
  have e : addBytes (zoneName t env) 0
      = if cstrOf t.tm_zone ≠ [] then cstrOf t.tm_zone
        else if 0 ≤ t.tm_isdst then
          cstrOf (if t.tm_isdst ≠ 0 then env.tzname1 else env.tzname0)
        else [] := by
    have hget : ∀ z : Option (List Nat), cstr (z.getD []) = cstrOf z := by
      intro z
      cases z with
      | none => simp [cstrOf, cstr]
      | some s => simp [cstrOf]
    rw [addBytes_cstr, zoneName_eq]
    have hnil : cstr ((some ([] : List Nat)).getD []) = [] := rfl
    by_cases hz : cstrOf t.tm_zone = []
    · by_cases h0 : t.tm_isdst = 0
      · have h2 : (0 : Int) ≤ t.tm_isdst := by omega
        by_cases hn : cstrOf env.tzname0 = []
        · simp only [hz, h0, hn, ↓reduceIte, ne_eq, not_true_eq_false, le_refl, hnil]
        · simp only [hz, h0, hn, ↓reduceIte, ne_eq, not_true_eq_false, le_refl, hget]
      · by_cases h1 : t.tm_isdst > 0
        · have h2 : (0 : Int) ≤ t.tm_isdst := by omega
          by_cases hn : cstrOf env.tzname1 = []
          · simp only [hz, h0, h1, h2, hn, ↓reduceIte, ne_eq, not_true_eq_false,
              not_false_eq_true, hnil]
          · simp only [hz, h0, h1, h2, hn, ↓reduceIte, ne_eq, not_true_eq_false,
              not_false_eq_true, hget]
        · have h2 : ¬ (0 : Int) ≤ t.tm_isdst := by omega
          simp only [hz, h0, h1, h2, ↓reduceIte, ne_eq, not_true_eq_false, hnil]
    · simp only [hz, ↓reduceIte, ne_eq, not_false_eq_true, hget]
  rw [e] at h
  exact h

/-! ## The offset from UT -/

theorem offset_arith (x : Int) (h0 : 0 ≤ x) (h : x < 2147483648) :
    wrapInt (Int.tdiv (Int.tdiv x 60) 60 * 100 + Int.tmod (Int.tdiv x 60) 60)
      = ((offsetNumber x : Nat) : Int) := by
  rw [Int.tdiv_eq_ediv h0 (by decide), Int.tdiv_eq_ediv (by omega) (by decide),
    Int.tmod_eq_emod (by omega) (by decide)]
  unfold offsetNumber
  rw [wrapInt_id _ (by omega) (by omega)]
  omega

theorem wrapLong_id (x : Int) (h1 : -9223372036854775808 ≤ x) (h2 : x < 9223372036854775808) :
    wrapLong x = x := by
  unfold wrapLong
  omega

theorem offsetNumber_neg (x : Int) : offsetNumber (-x) = offsetNumber x := by
  unfold offsetNumber
  rw [Int.natAbs_neg]

theorem cstr_head (z : List Nat) : (cstrOf (some z)).head? = some 45 ↔ z.headD 0 = 45 := by
  cases z with
  | nil => simp [cstrOf, cstr]
  | cons a l =>
    by_cases h : a = 0
    · simp [cstrOf, cstr, h]
    · simp [cstrOf, cstr, h]

/-- The case `'z'` where the offset field is read: the sign by `_add`, then the number. -/
theorem zoneOffset_gmtoff (modifier : Nat) (t : tm) (env : Env) (hg : env.TM_GMTOFF = true)
    (hs : t.tm_gmtoff.natAbs < 2147483648) (hz : t.tm_gmtoff = 0 → t.tm_zone ≠ none) :
    zoneOffset modifier t env = .write false fun pt ptlim =>
      _conv (offsetNumber t.tm_gmtoff)
        (getformat modifier (str "04") (str " 4") (str "  ") (str "04"))
        (_add [offsetSign t.tm_gmtoff t.tm_zone] pt ptlim modifier) ptlim := by
  unfold zoneOffset
  simp only [hg, Bool.true_or, Bool.not_true, Bool.false_eq_true, ↓reduceIte, SECSPERMIN,
    MINSPERHOUR]
  have hw0 : wrapLong (-0) = 0 := by decide
  have e0 := offset_arith 0 (by decide) (by decide)
  by_cases h0 : t.tm_gmtoff = 0
  · obtain ⟨z, hzz⟩ : ∃ z, t.tm_zone = some z := by
      cases hzz : t.tm_zone with
      | none => exact absurd hzz (hz h0)
      | some z => exact ⟨z, rfl⟩
    simp only [h0, hzz, ↓reduceIte, Option.map_some', offsetSign, cstr_head, lt_self_iff_false,
      true_and, false_or]
    by_cases hh : z.headD 0 = 45
    · simp only [hh, decide_True, ↓reduceIte, hw0, e0]
      rfl
    · simp only [hh, decide_False, Bool.false_eq_true, ↓reduceIte, e0]
      rfl
  · simp only [h0, ↓reduceIte, offsetSign, false_and, or_false]
    by_cases hneg : t.tm_gmtoff < 0
    · simp only [hneg, decide_True, ↓reduceIte]
      rw [wrapLong_id _ (by omega) (by omega), offset_arith _ (by omega) (by omega),
        offsetNumber_neg]
      rfl
    · simp only [hneg, decide_False, Bool.false_eq_true, ↓reduceIte]
      rw [offset_arith _ (by omega) (by omega)]
      rfl

theorem sign_bytes (sec : Int) (zone : Option (List Nat)) (modifier : Nat)
    (hm : modifier = 0 ∨ modifier = 95 ∨ modifier = 45 ∨ modifier = 48) :
    addBytes [offsetSign sec zone] modifier = [offsetSign sec zone] := by
  have h : offsetSign sec zone = 45 ∨ offsetSign sec zone = 43 := by
    unfold offsetSign
    split
    · exact Or.inl rfl
    · exact Or.inr rfl
  rcases hm with rfl | rfl | rfl | rfl <;> rcases h with h | h <;> rw [h] <;> decide

/-- What `%z` renders where the offset field is read, for an offset `sec` below 360000 in
absolute value and, when `sec = 0`, a zone string that is present: the sign, which is `-`
exactly when `sec < 0`, or `sec = 0` and the zone string begins with `-`, and `+` otherwise,
and then the four digits, padded with zeros, of `(|sec| / 60 / 60) * 100 + (|sec| / 60) mod 60`. -/
theorem offset_hhmm_renders (t : tm) (env : Env) (hg : env.TM_GMTOFF = true)
    (hs : t.tm_gmtoff.natAbs < 360000) (hz : t.tm_gmtoff = 0 → t.tm_zone ≠ none) :
    Renders (str "%z") t env
      ((if t.tm_gmtoff < 0 ∨ (t.tm_gmtoff = 0 ∧ (cstrOf t.tm_zone).head? = some 45)
          then 45 else 43)
        :: padTo 48 4 (decimal (t.tm_gmtoff.natAbs / 60 / 60 * 100
            + t.tm_gmtoff.natAbs / 60 % 60))) ∧
      (padTo 48 4 (decimal (t.tm_gmtoff.natAbs / 60 / 60 * 100
            + t.tm_gmtoff.natAbs / 60 % 60))).length = 4 ∧
      (∀ b ∈ padTo 48 4 (decimal (t.tm_gmtoff.natAbs / 60 / 60 * 100
            + t.tm_gmtoff.natAbs / 60 % 60)), isDigit b = true) ∧
      decVal (padTo 48 4 (decimal (t.tm_gmtoff.natAbs / 60 / 60 * 100
            + t.tm_gmtoff.natAbs / 60 % 60)))
        = t.tm_gmtoff.natAbs / 60 / 60 * 100 + t.tm_gmtoff.natAbs / 60 % 60 := by
  have hd : dispatch 122 0 t env = _ := zoneOffset_gmtoff 0 t env hg (by omega) hz
  have h := renders_write (by decide) hd
    (emits_comp (add_emits [offsetSign t.tm_gmtoff t.tm_zone] 0)
      (conv_emits (offsetNumber t.tm_gmtoff)
        (getformat 0 (str "04") (str " 4") (str "  ") (str "04"))))
  rw [sign_bytes _ _ 0 (Or.inl rfl),
    show getformat 0 (str "04") (str " 4") (str "  ") (str "04") = [48, 52] from rfl,
    conv_bytes _ 48 4 52 (by omega) (by decide) (Or.inr rfl)] at h
  have hlen : (decimal (offsetNumber t.tm_gmtoff)).length ≤ 4 :=
    decimal_length 3 _ (by unfold offsetNumber; omega)
  refine ⟨h, ?_, ?_, ?_⟩
  · show (padTo 48 4 (decimal (offsetNumber t.tm_gmtoff))).length = 4
    simp only [padTo, List.length_append, List.length_replicate]
    omega
  · intro b hb
    rcases List.mem_append.1 hb with h1 | h1
    · rw [(List.mem_replicate.1 h1).2]
      rfl
    · exact (decimal_digits _).1 b h1
  · unfold padTo
    rw [decVal_zeros]
    exact (decimal_digits _).2.1

/-- C15: on timestamps with the offset 0 and no zone string (`tm_zone` null), which the claim
covers, `case 'z'` does not return where the offset field is read: it reads `tm_zone[0]`
with no test for null, for every other field of the timestamp, every nesting depth and every
output state, where the claim gives `"+0000"`.  With a zone string present the same offset
renders `"+0000"`, and the offsets 19800 and -34200 render `"+0530"` and `"-0930"`; and
`case 'Z'` does test for null: on `T0` with the offset 0, no zone string and `tm_isdst = 0`
it renders `tzname[0]`. -/
theorem C15_null_zone_at_offset_zero (t : tm) (env : Env) (depth : Nat) (pt : Buf)
    (ptlim : Nat) (w : warn) :
    _fmt depth (str "%z") { t with tm_gmtoff := 0, tm_zone := none }
        { env with TM_GMTOFF := true } pt ptlim w = none ∧
    Renders (str "%z") { t with tm_gmtoff := 0, tm_zone := some (str "UTC") }
        { env with TM_GMTOFF := true } (str "+0000") ∧
    Renders (str "%z") { T0 with tm_gmtoff := 19800 } E0 (str "+0530") ∧
    Renders (str "%z") { T0 with tm_gmtoff := -34200 } E0 (str "-0930") ∧
    Renders (str "%Z") { T0 with tm_isdst := 0, tm_gmtoff := 0, tm_zone := none } E0
        (str "PST") := by
  refine ⟨?_, ?_, ?_, ?_, ?_⟩
  · have hd : dispatch 122 0 { t with tm_gmtoff := 0, tm_zone := none }
        { env with TM_GMTOFF := true } = .stuck := by
      show zoneOffset 0 { t with tm_gmtoff := 0, tm_zone := none }
        { env with TM_GMTOFF := true } = Step.stuck
      unfold zoneOffset
      simp
    rw [fmt_eq_loop]
    show fmtLoop _ _ _ ptlim none [37, 122] pt w = none
    rw [fmtLoop_percent]
    simp only [fmtLoop, hd]
    rfl
  · have h := (offset_hhmm_renders { t with tm_gmtoff := 0, tm_zone := some (str "UTC") }
      { env with TM_GMTOFF := true } rfl (by show (0 : Int).natAbs < 360000; decide)
      (by simp)).1
    dsimp only at h
    have e : ((if (0 : Int) < 0 ∨ (0 : Int) = 0 ∧ (cstrOf (some (str "UTC"))).head? = some 45
        then 45 else 43)
        :: padTo 48 4 (decimal ((0 : Int).natAbs / 60 / 60 * 100 + (0 : Int).natAbs / 60 % 60)))
        = str "+0000" := by decide
    rw [e] at h
    exact h
  · exact (offset_hhmm_renders { T0 with tm_gmtoff := 19800 } E0 rfl (by decide)
      (by decide)).1
  · exact (offset_hhmm_renders { T0 with tm_gmtoff := -34200 } E0 rfl (by decide)
      (by decide)).1
  · exact @renders_write 90 _ E0 false _ _ (by decide) rfl
      (add_emits (zoneName { T0 with tm_isdst := 0, tm_gmtoff := 0, tm_zone := none } E0) 0)

/-- C14, as stated, fails where the offset field is read: for a timestamp with
`tm_isdst = -1` and the offset 3600, `"%z"` gives the five bytes `"+0100"`. -/
theorem C14_unknown_dst_offset_rendered :
    ({ T0 with tm_isdst := -1, tm_gmtoff := 3600 } : tm).tm_isdst < 0 ∧
    ∃ r w, _fmt 2 (str "%z") { T0 with tm_isdst := -1, tm_gmtoff := 3600 } E0 ⟨0, mem0⟩ 16
        warn.IN_NONE = some (r, w) ∧ r.pt = 5 ∧ output 0 r = str "+0100" :=
  ⟨by decide, _, _, rfl, by decide, by decide⟩

/-- C14, amended: for every timestamp with `tm_isdst < 0`, `"%z"` emits no bytes where the
offset field is not read (`TM_GMTOFF` unset); where it is read, as in bionic, `tm_isdst` has
no part in `%z`: a run on `"%z"` gives the same result whatever `tm_isdst` is put in the
timestamp. -/
theorem C14_offset_unknown_dst (t : tm) (env : Env) :
    (env.TM_GMTOFF = false → t.tm_isdst < 0 → Renders (str "%z") t env []) ∧
    (env.TM_GMTOFF = true → ∀ (x : Int) (depth : Nat) (pt : Buf) (ptlim : Nat) (w : warn),
      _fmt depth (str "%z") { t with tm_isdst := x } env pt ptlim w
        = _fmt depth (str "%z") t env pt ptlim w) := by
  constructor
  · intro hg hneg
    have hd : dispatch 122 0 t env = .write false fun pt _ => pt := by
      show zoneOffset 0 t env = _
      unfold zoneOffset
      by_cases hc : (!(env.TM_GMTOFF || env.USG_COMPAT || env.ALTZONE)) = true
      · rw [if_pos hc]
      · rw [if_neg hc]
        simp only [hg, Bool.false_eq_true, ↓reduceIte, hneg]
    exact renders_write (by decide) hd emits_skip
  · intro hg x depth pt ptlim w
    have hd : dispatch 122 0 { t with tm_isdst := x } env = dispatch 122 0 t env := by
      show zoneOffset 0 { t with tm_isdst := x } env = zoneOffset 0 t env
      unfold zoneOffset
      simp only [hg, Bool.true_or, Bool.not_true, Bool.false_eq_true, ↓reduceIte]
    rw [fmt_eq_loop, fmt_eq_loop]
    show fmtLoop _ _ env ptlim none [37, 122] pt w = fmtLoop _ _ env ptlim none [37, 122] pt w
    rw [fmtLoop_percent, fmtLoop_percent]
    simp only [fmtLoop, hd]
    cases hdd : dispatch 122 0 t env <;> simp [fmtLoop]
    exact absurd hdd zoneOffset_ne_sub

/-- C14, amended, for a build that reads `timezone` and not the offset field, and for the
build of bionic. -/
theorem C14_offset_unknown_dst_witness :
    (({ E0 with TM_GMTOFF := false, USG_COMPAT := true } : Env).TM_GMTOFF = false ∧
      ({ T0 with tm_isdst := -1 } : tm).tm_isdst < 0 ∧
      Renders (str "%z") { T0 with tm_isdst := -1 }
        { E0 with TM_GMTOFF := false, USG_COMPAT := true } []) ∧
    (E0.TM_GMTOFF = true ∧
      _fmt 2 (str "%z") { T0 with tm_isdst := -1 } E0 ⟨0, mem0⟩ 16 warn.IN_NONE
        = _fmt 2 (str "%z") T0 E0 ⟨0, mem0⟩ 16 warn.IN_NONE) :=
  ⟨⟨rfl, by decide,
    (C14_offset_unknown_dst { T0 with tm_isdst := -1 }
      { E0 with TM_GMTOFF := false, USG_COMPAT := true }).1 rfl (by decide)⟩,
   rfl, (C14_offset_unknown_dst T0 E0).2 rfl (-1) 2 ⟨0, mem0⟩ 16 warn.IN_NONE⟩

/-! ## The flags `_`, `-` and `0` -/

/-- What `_conv` appends under the format that `getformat` gives for a flag `_`, `-` or `0`
and a width `W`. -/
theorem flag_conv_bytes (flag W : Nat) (normal : List Nat) (v : Int)
    (hflag : flag = 95 ∨ flag = 45 ∨ flag = 48) (h0 : 0 ≤ v) :
    addBytes (convBuf v (getformat flag normal [32, 48 + W] [32, 32] [48, 48 + W])) 0
      = flagPad flag W (decimal v.toNat) := by
  rcases hflag with rfl | rfl | rfl
  · rw [show getformat 95 normal [32, 48 + W] [32, 32] [48, 48 + W] = [32, 48 + W] from rfl,
      conv_bytes v 32 W (48 + W) h0 (by decide) (Or.inr rfl)]
    rfl
  · rw [show getformat 45 normal [32, 48 + W] [32, 32] [48, 48 + W] = [32, 32] from rfl,
      conv_bytes v 32 0 32 h0 (by decide) (Or.inl ⟨rfl, rfl⟩)]
    simp [flagPad, padTo]
  · rw [show getformat 48 normal [32, 48 + W] [32, 32] [48, 48 + W] = [48, 48 + W] from rfl,
      conv_bytes v 48 W (48 + W) h0 (by decide) (Or.inr rfl)]
    rfl

theorem flag_last (flag : Nat) (hflag : flag = 95 ∨ flag = 45 ∨ flag = 48) :
    (∀ b ∈ [flag], modByte b = true) ∧ (([flag].filter flagByte).getLast?).getD 0 = flag := by
  rcases hflag with rfl | rfl | rfl <;> exact ⟨by decide, rfl⟩

theorem renders_flag_write {c flag : Nat} {all : Bool} {f : Buf → Nat → Buf} {a : List Nat}
    {t : tm} {env : Env} (hc : c ≠ 0) (hflag : flag = 95 ∨ flag = 45 ∨ flag = 48)
    (hd : dispatch c flag t env = .write all f) (hf : Emits f a) :
    Renders [37, flag, c] t env a := by
  obtain ⟨hm, hl⟩ := flag_last flag hflag
  exact @renders_one c all f a t env [flag] hm hc (by rw [hl]; exact hd) hf

theorem renders_flag_conv {c flag W : Nat} {normal : List Nat} {v : Int} {t : tm} {env : Env}
    (hc : c ≠ 0) (hflag : flag = 95 ∨ flag = 45 ∨ flag = 48)
    (hd : dispatch c flag t env = .write false fun pt ptlim =>
      _conv v (getformat flag normal [32, 48 + W] [32, 32] [48, 48 + W]) pt ptlim)
    (h0 : 0 ≤ v) : Renders [37, flag, c] t env (flagPad flag W (decimal v.toNat)) := by
  have h := renders_flag_write hc hflag hd (conv_emits v _)
  rw [flag_conv_bytes flag W normal v hflag h0] at h
  exact h

theorem yearSplit_nonneg (a b : Int) (h : 0 ≤ a + b) :
    (yearSplit a b).1 = (a + b) / 100 ∧ (yearSplit a b).2 = (a + b) % 100 := by
  obtain ⟨h1, h2, h3, h4, h5⟩ := yearSplit_spec a b
  have h6 : 0 ≤ (yearSplit a b).2 := by
    by_contra hc
    have : ¬ (yearSplit a b).1 > 0 := fun hp => h4 ⟨hp, by omega⟩
    omega
  omega

theorem yconvBytes_flag (a b : Int) (top yy : Bool) (flag : Nat)
    (hflag : flag = 95 ∨ flag = 45 ∨ flag = 48) (h : 0 ≤ a + b) :
    yconvBytes a b top yy flag
      = (if top then flagPad flag 2 (decimal ((a + b) / 100).toNat) else [])
        ++ (if yy then flagPad flag 2 (decimal ((a + b) % 100).toNat) else []) := by
  obtain ⟨e1, e2⟩ := yearSplit_nonneg a b h
  unfold yconvBytes
  rw [e1, e2]
  have hn : ¬ ((a + b) / 100 = 0 ∧ (a + b) % 100 < 0) := by omega
  have hn2 : ¬ (a + b) % 100 < 0 := by omega
  simp only [hn, hn2, ↓reduceIte]
  have f1 := flag_conv_bytes flag 2 (str "02") ((a + b) / 100) hflag (by omega)
  have f2 := flag_conv_bytes flag 2 (str "02") ((a + b) % 100) hflag (by omega)
  rw [show getformat flag (str "02") (str " 2") (str "  ") (str "02")
    = getformat flag (str "02") [32, 48 + 2] [32, 32] [48, 48 + 2] from rfl, f1, f2]
  simp only [and_false, ↓reduceIte]

/-- C11, as stated, fails for `%j` and `%z`, whose least widths are 3 and 4: for `T0`, day
94 of its year, `"%_j"` gives `" 94"` and `"%0j"` gives `"094"`, not the number at the
width 2, and with the offset -25200 `"%0z"` gives `"-0700"`. -/
theorem C11_width_of_day_of_year :
    (∃ r w, _fmt 2 (str "%_j") T0 E0 ⟨0, mem0⟩ 16 warn.IN_NONE = some (r, w) ∧
      output 0 r = str " 94" ∧ output 0 r ≠ padTo 32 2 (decimal 94)) ∧
    (∃ r w, _fmt 2 (str "%0j") T0 E0 ⟨0, mem0⟩ 16 warn.IN_NONE = some (r, w) ∧
      output 0 r = str "094" ∧ output 0 r ≠ padTo 48 2 (decimal 94)) ∧
    (∃ r w, _fmt 2 (str "%0z") T0 E0 ⟨0, mem0⟩ 16 warn.IN_NONE = some (r, w) ∧
      output 0 r = str "-0700" ∧ output 0 r ≠ 45 :: padTo 48 2 (decimal 700)) :=
  ⟨⟨_, _, rfl, by decide, by decide⟩, ⟨_, _, rfl, by decide, by decide⟩,
   ⟨_, _, rfl, by decide, by decide⟩⟩

/-- C11, amended: under the flag `_` the number of a specifier is rendered behind spaces, under
`0` behind zeros, to the least width of the specifier, and under `-` with no padding, for
every number that is not negative.  The least width is 2 for `%d %e %H %I %k %l %M %m %S %U %V
%W` and for each of the two parts of the year in `%C %y %Y` (for a year that is not
negative), 3 for `%j`, and 4 for the number of `%z`, which follows the sign (where the offset
field is read, the offset fits an `int`, and a zone string is present when the offset is 0). -/
theorem C11_flag_widths (t : tm) (env : Env) (flag : Nat)
    (hflag : flag = 95 ∨ flag = 45 ∨ flag = 48) :
    (∀ c v, fieldValue c t = some v → 0 ≤ v →
      Renders [37, flag, c] t env (flagPad flag (fieldWidth c) (decimal v.toNat))) ∧
    (0 ≤ t.tm_year + TM_YEAR_BASE →
      Renders [37, flag, 67] t env
        (flagPad flag 2 (decimal ((t.tm_year + TM_YEAR_BASE) / 100).toNat)) ∧
      Renders [37, flag, 121] t env
        (flagPad flag 2 (decimal ((t.tm_year + TM_YEAR_BASE) % 100).toNat)) ∧
      Renders [37, flag, 89] t env
        (flagPad flag 2 (decimal ((t.tm_year + TM_YEAR_BASE) / 100).toNat)
          ++ flagPad flag 2 (decimal ((t.tm_year + TM_YEAR_BASE) % 100).toNat))) ∧
    (env.TM_GMTOFF = true → t.tm_gmtoff.natAbs < 2147483648 →
      (t.tm_gmtoff = 0 → t.tm_zone ≠ none) →
      Renders [37, flag, 122] t env
        (offsetSign t.tm_gmtoff t.tm_zone
          :: flagPad flag 4 (decimal (offsetNumber t.tm_gmtoff)))) := by
  refine ⟨?_, ?_, ?_⟩
  · intro c v hv h0
    unfold fieldValue at hv
    by_cases h1 : c = 100 ∨ c = 101
    · rw [if_pos h1] at hv
      cases hv
      rcases h1 with rfl | rfl
      · exact @renders_flag_conv 100 flag 2 (str "02") _ t env (by decide) hflag rfl h0
      · exact @renders_flag_conv 101 flag 2 (str " 2") _ t env (by decide) hflag rfl h0
    rw [if_neg h1] at hv
    by_cases h2 : c = 72 ∨ c = 107
    · rw [if_pos h2] at hv
      cases hv
      rcases h2 with rfl | rfl
      · exact @renders_flag_conv 72 flag 2 (str "02") _ t env (by decide) hflag rfl h0
      · exact @renders_flag_conv 107 flag 2 (str " 2") _ t env (by decide) hflag rfl h0
    rw [if_neg h2] at hv
    by_cases h3 : c = 73 ∨ c = 108
    · rw [if_pos h3] at hv
      cases hv
      rcases h3 with rfl | rfl
      · exact @renders_flag_conv 73 flag 2 (str "02") _ t env (by decide) hflag rfl h0
      · exact @renders_flag_conv 108 flag 2 (str " 2") _ t env (by decide) hflag rfl h0
    rw [if_neg h3] at hv
    by_cases h4 : c = 106
    · rw [if_pos h4] at hv
      cases hv
      subst h4
      exact @renders_flag_conv 106 flag 3 (str "03") _ t env (by decide) hflag rfl h0
    rw [if_neg h4] at hv
    by_cases h5 : c = 77
    · rw [if_pos h5] at hv
      cases hv
      subst h5
      exact @renders_flag_conv 77 flag 2 (str "02") _ t env (by decide) hflag rfl h0
    rw [if_neg h5] at hv
    by_cases h6 : c = 109
    · rw [if_pos h6] at hv
      cases hv
      subst h6
      exact @renders_flag_conv 109 flag 2 (str "02") _ t env (by decide) hflag rfl h0
    rw [if_neg h6] at hv
    by_cases h7 : c = 83
    · rw [if_pos h7] at hv
      cases hv
      subst h7
      exact @renders_flag_conv 83 flag 2 (str "02") _ t env (by decide) hflag rfl h0
    rw [if_neg h7] at hv
    by_cases h8 : c = 85
    · rw [if_pos h8] at hv
      cases hv
      subst h8
      exact @renders_flag_conv 85 flag 2 (str "02") _ t env (by decide) hflag rfl h0
    rw [if_neg h8] at hv
    by_cases h9 : c = 86
    · rw [if_pos h9] at hv
      subst h9
      obtain ⟨⟨base, w⟩, hw, rfl⟩ := Option.map_eq_some'.1 hv
      have hd : dispatch 86 flag t env = .write false fun pt ptlim =>
          _conv w (fmt02 flag) pt ptlim := by
        show (match isoWeek t with
          | none => Step.stuck
          | some (_, w) => Step.write false fun pt ptlim => _conv w (fmt02 flag) pt ptlim) = _
        rw [hw]
      exact @renders_flag_conv 86 flag 2 (str "02") _ t env (by decide) hflag hd h0
    rw [if_neg h9] at hv
    by_cases h10 : c = 87
    · rw [if_pos h10] at hv
      cases hv
      subst h10
      exact @renders_flag_conv 87 flag 2 (str "02") _ t env (by decide) hflag rfl h0
    rw [if_neg h10] at hv
    cases hv
  · intro hy
    refine ⟨?_, ?_, ?_⟩
    · have h := @renders_flag_write 67 flag false _ _ t env (by decide) hflag rfl
        (yconv_emits t.tm_year TM_YEAR_BASE true false flag)
      rw [yconvBytes_flag _ _ _ _ flag hflag hy] at h
      simpa using h
    · have h := @renders_flag_write 121 flag true _ _ t env (by decide) hflag rfl
        (yconv_emits t.tm_year TM_YEAR_BASE false true flag)
      rw [yconvBytes_flag _ _ _ _ flag hflag hy] at h
      simpa using h
    · have h := @renders_flag_write 89 flag false _ _ t env (by decide) hflag rfl
        (yconv_emits t.tm_year TM_YEAR_BASE true true flag)
      rw [yconvBytes_flag _ _ _ _ flag hflag hy] at h
      simpa using h
  · intro hg hs hz
    have hd : dispatch 122 flag t env = _ := zoneOffset_gmtoff flag t env hg hs hz
    have h := @renders_flag_write 122 flag false _ _ t env (by decide) hflag hd
      (emits_comp (add_emits [offsetSign t.tm_gmtoff t.tm_zone] flag)
        (conv_emits (offsetNumber t.tm_gmtoff)
          (getformat flag (str "04") (str " 4") (str "  ") (str "04"))))
    rw [sign_bytes _ _ flag (Or.inr hflag),
      show getformat flag (str "04") (str " 4") (str "  ") (str "04")
        = getformat flag (str "04") [32, 48 + 4] [32, 32] [48, 48 + 4] from rfl,
      flag_conv_bytes flag 4 (str "04") _ hflag (by omega)] at h
    exact h

/-- C11, amended, for the day 4 of the month: `"%-d"` gives `"4"`, `"%_d"` gives `" 4"` and
`"%0d"` gives `"04"`; and for the day 94 of the year `"%_j"` gives `" 94"`. -/
theorem C11_flag_widths_witness :
    ((fieldValue 100 T0 = some 4 ∧ (0 : Int) ≤ 4) ∧
      Renders (str "%-d") T0 E0 (str "4") ∧ Renders (str "%_d") T0 E0 (str " 4") ∧
      Renders (str "%0d") T0 E0 (str "04")) ∧
    (fieldValue 106 T0 = some 94 ∧ (0 : Int) ≤ 94) ∧ Renders (str "%_j") T0 E0 (str " 94") :=
  ⟨⟨⟨rfl, by decide⟩,
    (C11_flag_widths T0 E0 45 (by decide)).1 100 4 rfl (by decide),
    (C11_flag_widths T0 E0 95 (by decide)).1 100 4 rfl (by decide),
    (C11_flag_widths T0 E0 48 (by decide)).1 100 4 rfl (by decide)⟩,
   ⟨rfl, by decide⟩, (C11_flag_widths T0 E0 95 (by decide)).1 106 94 rfl (by decide)⟩

/-! ## The limit cuts the output -/

/-- A run under any limit against a run from the same start that did not reach its limit:
the cursor stops at the smaller of the new limit and the end of the full run, and the bytes
below it are those of the full run. -/
theorem fmt_limit {depth : Nat} {format : List Nat} {t : tm} {env : Env} {s big : Nat}
    {mem : Nat → Nat} {w : warn} {u : Buf} {wu : warn}
    (hu : _fmt depth format t env ⟨s, mem⟩ (s + big) w = some (u, wu)) (hfull : u.pt < s + big)
    (c : Nat) (w1 : warn) :
    ∃ p w2, _fmt depth format t env ⟨s, mem⟩ (s + c) w1 = some (p, w2) ∧
      p.pt = min (s + c) u.pt ∧ ∀ i, i < p.pt → p.mem i = u.mem i := by
  by_cases hmb : c ≤ big
  · obtain ⟨p, w2, hp, hc⟩ := @fmt_cut depth format t env (s + c) (s + big) (by omega)
      ⟨s, mem⟩ ⟨s, mem⟩ w1 w u wu (cut_self _ ⟨s, mem⟩ (by simp)) (by simp) hu
    exact ⟨p, w2, hp, hc.1, hc.2⟩
  · obtain ⟨p, w2, hp, hc⟩ := @fmt_slack depth format t env (s + big) (s + c) (by omega)
      ⟨s, mem⟩ ⟨s, mem⟩ w w1 u wu (cut_self _ ⟨s, mem⟩ (by simp)) hu hfull
    have h1 := hc.1
    refine ⟨p, w2, hp, by omega, ?_⟩
    intro i hi
    exact (hc.2 i (by omega)).symm

/-- C18: let a run of `_fmt` from `start` under a limit that it does not reach end at the
cursor `u.pt`, so that `L = u.pt - start` is the length of the full expansion.  Then for every
capacity `c` the run under the limit `start + c` returns with the cursor at
`start + min c L`, the bytes from `start` up to the cursor are the first `min c L` bytes of
the full expansion, and no byte below `start` or from the limit on has changed; and for every
capacity of at most `L` bytes, among them `L - 1`, `strftime` returns 0.  Such a full run exists
once two nested calls are allowed and the zone string is present. -/
theorem C18_limit_cuts_output (depth start big : Nat) (format : List Nat) (t : tm) (env : Env)
    (mem : Nat → Nat) (w : warn) (u : Buf) (wu : warn)
    (hu : _fmt depth format t env ⟨start, mem⟩ (start + big) w = some (u, wu))
    (hfull : u.pt < start + big) :
    (∀ c, ∃ r w2, _fmt depth format t env ⟨start, mem⟩ (start + c) w = some (r, w2) ∧
      r.pt = start + min c (u.pt - start) ∧
      (∀ i, i < min c (u.pt - start) → r.mem (start + i) = u.mem (start + i)) ∧
      (∀ j, j < start ∨ start + c ≤ j → r.mem j = mem j)) ∧
    (∀ maxsize errno, 0 < start → maxsize ≤ u.pt - start →
      ∃ res, strftime depth start maxsize format t env errno mem = some res ∧ res.ret = 0) ∧
    (2 ≤ depth → t.tm_zone ≠ none →
      ∃ big2 u2 wu2, _fmt depth format t env ⟨start, mem⟩ (start + big2) w = some (u2, wu2) ∧
        u2.pt < start + big2) := by
  have hwu : Within ⟨start, mem⟩ (start + big) u := fmt_within (by simp) hu
  have hsu : start ≤ u.pt := hwu.1
  refine ⟨?_, ?_, fun hd hz => fmt_full_run hd format t env hz ⟨start, mem⟩ w⟩
  · intro c
    obtain ⟨p, w2, hp, hpt, hmem⟩ := fmt_limit hu hfull c w
    have hwp : Within ⟨start, mem⟩ (start + c) p := fmt_within (by simp) hp
    refine ⟨p, w2, hp, by omega, ?_, hwp.2.2⟩
    intro i hi
    exact hmem _ (by omega)
  · intro maxsize errno hs hL
    obtain ⟨p, w2, hp, hpt, hmem⟩ := fmt_limit hu hfull maxsize warn.IN_NONE
    rw [strftime_of_fmt hp, if_neg (by omega), if_pos (by omega)]
    exact ⟨_, rfl, rfl⟩

/-- C18 at `"%Y"` for the year 2008, the expansion of length 4: a limit after 2 bytes gives
the cursor 3 and the bytes `"20"`, and buffers of 3 and of 4 bytes make `strftime` return 0. -/
theorem C18_limit_cuts_output_witness :
    (_fmt 2 (str "%Y") T0 E0 ⟨1, mem0⟩ (1 + 10) warn.IN_NONE
        = some (_yconv 108 1900 true true ⟨1, mem0⟩ 11 0, warn.IN_NONE) ∧
      (_yconv 108 1900 true true ⟨1, mem0⟩ 11 0).pt < 1 + 10 ∧
      (_yconv 108 1900 true true ⟨1, mem0⟩ 11 0).pt - 1 = 4 ∧
      output 1 (_yconv 108 1900 true true ⟨1, mem0⟩ 11 0) = str "2008") ∧
    (∃ r w2, _fmt 2 (str "%Y") T0 E0 ⟨1, mem0⟩ (1 + 2) warn.IN_NONE = some (r, w2) ∧
      r.pt = 1 + min 2 ((_yconv 108 1900 true true ⟨1, mem0⟩ 11 0).pt - 1) ∧
      (∀ i, i < min 2 ((_yconv 108 1900 true true ⟨1, mem0⟩ 11 0).pt - 1) →
        r.mem (1 + i) = (_yconv 108 1900 true true ⟨1, mem0⟩ 11 0).mem (1 + i)) ∧
      (∀ j, j < 1 ∨ 1 + 2 ≤ j → r.mem j = mem0 j)) ∧
    ((0 < 1 ∧ 3 ≤ (_yconv 108 1900 true true ⟨1, mem0⟩ 11 0).pt - 1) ∧
      ∃ res, strftime 2 1 3 (str "%Y") T0 E0 7 mem0 = some res ∧ res.ret = 0) ∧
    ((2 ≤ 2 ∧ T0.tm_zone ≠ none) ∧
      ∃ big2 u2 wu2, _fmt 2 (str "%Y") T0 E0 ⟨1, mem0⟩ (1 + big2) warn.IN_NONE = some (u2, wu2) ∧
        u2.pt < 1 + big2) :=
  ⟨⟨rfl, by decide, by decide, by decide⟩,
   (C18_limit_cuts_output 2 1 10 (str "%Y") T0 E0 mem0 warn.IN_NONE _ warn.IN_NONE rfl
      (by decide)).1 2,
   ⟨⟨by decide, by decide⟩,
    (C18_limit_cuts_output 2 1 10 (str "%Y") T0 E0 mem0 warn.IN_NONE _ warn.IN_NONE rfl
      (by decide)).2.1 3 7 (by decide) (by decide)⟩,
   ⟨by decide, by decide⟩,
   (C18_limit_cuts_output 2 1 10 (str "%Y") T0 E0 mem0 warn.IN_NONE _ warn.IN_NONE rfl
      (by decide)).2.2 (by decide) (by decide)⟩

/-! ## What `_add` copies -/

theorem tolower_eq_zero (c : Nat) : tolower c = 0 ↔ c = 0 := by
  unfold tolower isupper
  split
  · rename_i h
    simp only [decide_eq_true_eq] at h
    omega
  · rfl

theorem toupper_eq_zero (c : Nat) : toupper c = 0 ↔ c = 0 := by
  unfold toupper islower
  split
  · rename_i h
    simp only [decide_eq_true_eq] at h
    omega
  · rfl

theorem takeWhile_congr {p q : Nat → Bool} (h : ∀ c, p c = q c) (s : List Nat) :
    s.takeWhile p = s.takeWhile q := by
  have : p = q := funext h
  rw [this]

/-- The bytes that `_add` appends are the bytes of the string, each mapped by the modifier. -/
theorem addBytes_map (s : List Nat) (modifier : Nat) :
    addBytes s modifier = (cstr s).map (caseMap modifier) := by
  unfold addBytes cstr
  by_cases h1 : modifier = FORCE_LOWER_CASE
  · rw [if_pos h1]
    have e : caseMap modifier = tolower := by
      funext c; simp only [caseMap, h1, ↓reduceIte]
    rw [e, takeWhile_congr (q := fun c => decide (c ≠ 0))]
    intro c
    simp only [ne_eq, tolower_eq_zero]
  rw [if_neg h1]
  by_cases h2 : modifier = 94
  · rw [if_pos h2]
    have e : caseMap modifier = toupper := by
      funext c; subst h2; rfl
    rw [e, takeWhile_congr (q := fun c => decide (c ≠ 0))]
    intro c
    simp only [ne_eq, toupper_eq_zero]
  rw [if_neg h2]
  by_cases h3 : modifier = 35
  · rw [if_pos h3]
    have e : caseMap modifier = swapcase := by
      funext c; subst h3; rfl
    rw [e]
  rw [if_neg h3]
  have e : caseMap modifier = id := by
    funext c; simp only [caseMap, h1, h2, h3, ↓reduceIte, id]
  rw [e]
  rfl

/-- C21: for every string (the bytes at `str` before the first zero byte), every modifier and
every cursor at or below the limit, so that the room is `r = ptlim - pt`, `_add` advances
the cursor by `min (length of the string) r`; the bytes it leaves in that range are the first
bytes of the string, each mapped on its own: lower-cased (`A`..`Z` plus 32) for
`FORCE_LOWER_CASE`, upper-cased (`a`..`z` minus 32) for `^`, case-swapped for `#`, and unchanged
for every other modifier; and no byte below the cursor or from the limit on is changed. -/
theorem C21_add_copies (s : List Nat) (modifier : Nat) (pt : Buf) (ptlim : Nat)
    (h : pt.pt ≤ ptlim) :
    ((_add s pt ptlim modifier).pt = pt.pt + min (cstr s).length (ptlim - pt.pt) ∧
      (∀ i, i < min (cstr s).length (ptlim - pt.pt) →
        (_add s pt ptlim modifier).mem (pt.pt + i) = caseMap modifier ((cstr s).getD i 0)) ∧
      (∀ j, j < pt.pt ∨ ptlim ≤ j → (_add s pt ptlim modifier).mem j = pt.mem j)) ∧
    (∀ c, caseMap FORCE_LOWER_CASE c = if 65 ≤ c ∧ c ≤ 90 then c + 32 else c) ∧
    (∀ c, caseMap 94 c = if 97 ≤ c ∧ c ≤ 122 then c - 32 else c) ∧
    (∀ c, caseMap 35 c
      = if 65 ≤ c ∧ c ≤ 90 then c + 32 else if 97 ≤ c ∧ c ≤ 122 then c - 32 else c) ∧
    (∀ c, modifier ≠ FORCE_LOWER_CASE → modifier ≠ 94 → modifier ≠ 35 →
      caseMap modifier c = c) := by
  refine ⟨?_, ?_, ?_, ?_, ?_⟩
  · obtain ⟨h1, h2, h3⟩ := add_emits s modifier pt ptlim h
    rw [addBytes_map] at h1 h2
    simp only [List.length_map] at h1 h2
    refine ⟨by rw [h1]; omega, ?_, h3⟩
    intro i hi
    rw [h2 i (by omega) (by omega)]
    have hl : i < (cstr s).length := by omega
    simp [List.getD_eq_getElem?_getD, List.getElem?_eq_getElem, hl]
  · intro c
    simp only [caseMap, ↓reduceIte, tolower, isupper, decide_eq_true_eq]
  · intro c
    simp only [caseMap, toupper, islower, decide_eq_true_eq]
    rfl
  · intro c
    by_cases hu : 65 ≤ c ∧ c ≤ 90
    · simp [caseMap, swapcase, tolower, isupper, hu, FORCE_LOWER_CASE]
    · by_cases hl : 97 ≤ c ∧ c ≤ 122
      · simp [caseMap, swapcase, toupper, isupper, islower, hu, hl, FORCE_LOWER_CASE]
      · simp [caseMap, swapcase, isupper, islower, hu, hl, FORCE_LOWER_CASE]
  · intro c h1 h2 h3
    simp only [caseMap, h1, h2, h3, ↓reduceIte]

/-- C21 for the string `"Mar"` with room for two bytes under `#`, which gives `"mA"`, and with
room for five bytes under `^`, which gives `"MAR"`. -/
theorem C21_add_copies_witness :
    ((⟨1, mem0⟩ : Buf).pt ≤ 3 ∧ (⟨1, mem0⟩ : Buf).pt ≤ 6) ∧
    ((_add (str "Mar") ⟨1, mem0⟩ 3 35).pt = 1 + min (cstr (str "Mar")).length (3 - 1) ∧
      output 1 (_add (str "Mar") ⟨1, mem0⟩ 3 35) = str "mA") ∧
    ((_add (str "Mar") ⟨1, mem0⟩ 6 94).pt = 1 + min (cstr (str "Mar")).length (6 - 1) ∧
      output 1 (_add (str "Mar") ⟨1, mem0⟩ 6 94) = str "MAR") :=
  ⟨⟨by decide, by decide⟩,
   ⟨(C21_add_copies (str "Mar") 35 ⟨1, mem0⟩ 3 (by decide)).1.1, by decide⟩,
   ⟨(C21_add_copies (str "Mar") 94 ⟨1, mem0⟩ 6 (by decide)).1.1, by decide⟩⟩

/-! ## The warning level only rises -/

theorem mergeWarn_le (w2 w : warn) : w.rank ≤ (mergeWarn w2 w).rank := by
  cases w2 <;> cases w <;> decide

theorem fmtLoop_warn (self : List Nat → Buf → warn → Option (Buf × warn)) (t : tm) (env : Env)
    (ptlim : Nat)
    (hself : ∀ f pt w r w2, self f pt w = some (r, w2) → w.rank ≤ w2.rank)
    (format : List Nat) :
    ∀ (mode : Option (Nat × Nat)) (pt : Buf) (w : warn) (r : Buf) (w2 : warn),
      fmtLoop self t env ptlim mode format pt w = some (r, w2) → w.rank ≤ w2.rank := by
  have tail : ∀ (c : Nat) (pt : Buf) (w : warn) (r : Buf) (w2 : warn),
      (match putByte c pt ptlim with
        | none => some (pt, w)
        | some pt => some (pt, w)) = some (r, w2) → w.rank ≤ w2.rank := by
    intro c pt w r w2 h
    split at h <;> cases h <;> exact le_refl _
  induction format with
  | nil =>
    intro mode pt w r w2 h
    cases mode with
    | none =>
      simp only [fmtLoop] at h
      cases h; exact le_refl _
    | some m =>
      obtain ⟨prev, modifier⟩ := m
      simp only [fmtLoop] at h
      exact tail _ _ _ _ _ h
  | cons c format ih =>
    intro mode pt w r w2 h
    have lit : ∀ (x : Nat), (match putByte x pt ptlim with
        | none => some (pt, w)
        | some pt => fmtLoop self t env ptlim none format pt w) = some (r, w2) →
        w.rank ≤ w2.rank := by
      intro x h
      split at h
      · cases h; exact le_refl _
      · exact ih _ _ _ _ _ h
    cases mode with
    | none =>
      simp only [fmtLoop] at h
      split at h
      · cases h; exact le_refl _
      split at h
      · exact ih _ _ _ _ _ h
      · exact lit _ h
    | some m =>
      obtain ⟨prev, modifier⟩ := m
      simp only [fmtLoop] at h
      split at h
      · exact tail _ _ _ _ _ h
      split at h
      · rename_i all f hd
        have := ih _ _ _ _ _ h
        cases all
        · simpa using this
        · have h3 : w.rank ≤ warn.IN_ALL.rank := by cases w <;> decide
          simp only [↓reduceIte] at this
          omega
      · split at h
        · cases h
        · rename_i fresh sf hd x p wp hs
          have h1 := hself _ _ _ _ _ hs
          have h2 := ih _ _ _ _ _ h
          cases fresh
          · simp only [Bool.false_eq_true, ↓reduceIte] at h1 h2
            omega
          · simp only [↓reduceIte] at h2
            have := mergeWarn_le wp w
            omega
      · exact ih _ _ _ _ _ h
      · exact lit _ h
      · cases h

theorem fmtSelf_warn (t : tm) (env : Env) (ptlim : Nat) (depth : Nat) :
    ∀ f pt w r w2, fmtSelf t env ptlim depth f pt w = some (r, w2) → w.rank ≤ w2.rank := by
  induction depth with
  | zero => intro f pt w r w2 h; simp [fmtSelf] at h
  | succ d ih =>
    intro f pt w r w2 h
    simp only [fmtSelf] at h
    exact fmtLoop_warn _ t env ptlim ih f none pt w r w2 h

/-- The value of `*warnp` after `_fmt` is at least its value before. -/
theorem fmt_warn {depth : Nat} {format : List Nat} {t : tm} {env : Env} {pt r : Buf}
    {ptlim : Nat} {w w2 : warn} (h : _fmt depth format t env pt ptlim w = some (r, w2)) :
    w.rank ≤ w2.rank :=
  fmtLoop_warn _ t env ptlim (fmtSelf_warn t env ptlim depth) format none pt w r w2 h

/-- C22: for every format, timestamp, output state and starting value `w` of `*warnp`, in the
order `IN_NONE < IN_SOME < IN_THIS < IN_ALL`, the value of `*warnp` when `_fmt` returns is at
least `w`; and `_fmt` does return, once two nested calls are allowed and the zone string is
present. -/
theorem C22_warn_only_rises (depth : Nat) (format : List Nat) (t : tm) (env : Env) (pt : Buf)
    (ptlim : Nat) (w : warn) :
    (warn.IN_NONE.rank < warn.IN_SOME.rank ∧ warn.IN_SOME.rank < warn.IN_THIS.rank ∧
      warn.IN_THIS.rank < warn.IN_ALL.rank) ∧
    (∀ r w2, _fmt depth format t env pt ptlim w = some (r, w2) → w.rank ≤ w2.rank) ∧
    (2 ≤ depth → t.tm_zone ≠ none → ∃ r, _fmt depth format t env pt ptlim w = some r) :=
  ⟨by decide, fun _ _ h => fmt_warn h, fun hd hz => fmt_returns hd format t env hz pt ptlim w⟩

/-- C22 at `"%x"` from the level `IN_SOME`: the run returns with the level `IN_THIS`. -/
theorem C22_warn_only_rises_witness :
    (2 ≤ 2 ∧ T0.tm_zone ≠ none) ∧
    (∃ r, _fmt 2 (str "%x") T0 E0 ⟨0, mem0⟩ 16 warn.IN_SOME = some r) ∧
    (∀ r w2, _fmt 2 (str "%x") T0 E0 ⟨0, mem0⟩ 16 warn.IN_SOME = some (r, w2) →
      warn.IN_SOME.rank ≤ w2.rank) ∧
    (∃ r, _fmt 2 (str "%x") T0 E0 ⟨0, mem0⟩ 16 warn.IN_SOME = some (r, warn.IN_THIS)) :=
  ⟨⟨by decide, by decide⟩,
   (C22_warn_only_rises 2 (str "%x") T0 E0 ⟨0, mem0⟩ 16 warn.IN_SOME).2.2 (by decide)
     (by decide),
   (C22_warn_only_rises 2 (str "%x") T0 E0 ⟨0, mem0⟩ 16 warn.IN_SOME).2.1,
   ⟨_, rfl⟩⟩

/-! ## The warning level of `%x`, `%c`, `%y` and `%g` -/

theorem fmtLoop_lit_step {self : List Nat → Buf → warn → Option (Buf × warn)} {t : tm}
    {env : Env} {ptlim : Nat} {c : Nat} (hc0 : c ≠ 0) (hc : c ≠ 37) (format : List Nat)
    (pt : Buf) (w : warn) :
    fmtLoop self t env ptlim none (c :: format) pt w
      = if pt.pt = ptlim then some (pt, w)
        else fmtLoop self t env ptlim none format (pt.store c).next w := by
  simp only [fmtLoop, hc0, hc, ↓reduceIte, putByte]
  by_cases h : pt.pt = ptlim
  · simp only [h, ↓reduceIte]
  · simp only [h, ↓reduceIte]

theorem fmtLoop_spec_sub {self : List Nat → Buf → warn → Option (Buf × warn)} {t : tm}
    {env : Env} {ptlim : Nat} {c modifier : Nat} {fresh : Bool} {sf : List Nat}
    (hc : c ≠ 0) (hd : dispatch c modifier t env = .sub fresh sf) (prev : Nat)
    (format : List Nat) (pt : Buf) (w : warn) :
    (self sf pt (if fresh then warn.IN_SOME else w) = none →
      fmtLoop self t env ptlim (some (prev, modifier)) (c :: format) pt w = none) ∧
    (∀ p w2, self sf pt (if fresh then warn.IN_SOME else w) = some (p, w2) →
      fmtLoop self t env ptlim (some (prev, modifier)) (c :: format) pt w
        = fmtLoop self t env ptlim none format p (if fresh then mergeWarn w2 w else w2)) := by
  constructor
  · intro hs
    simp only [fmtLoop, hc, ↓reduceIte, hd, hs]
  · intro p w2 hs
    simp only [fmtLoop, hc, ↓reduceIte, hd, hs]

/-- The run on the format `"%m/%d/%y"` of `%x`: `*warnp` becomes `IN_ALL` when the limit is
not reached before the `%y`, and stays otherwise. -/
theorem xfmt_run (self : List Nat → Buf → warn → Option (Buf × warn)) (t : tm) (env : Env)
    (ptlim : Nat) (pt : Buf) (w : warn) (hle : pt.pt ≤ ptlim) :
    ∃ r, fmtLoop self t env ptlim none (str "%m/%d/%y") pt w
      = some (r, if pt.pt + dateHeadLen t ≤ ptlim then warn.IN_ALL else w) := by
  show ∃ r, fmtLoop self t env ptlim none [37, 109, 47, 37, 100, 47, 37, 121] pt w = _
  have hm : dispatch 109 0 t env = .write false fun pt ptlim =>
      _conv (wrapInt (t.tm_mon + 1)) (fmt02 0) pt ptlim := rfl
  have hd : dispatch 100 0 t env = .write false fun pt ptlim =>
      _conv t.tm_mday (fmt02 0) pt ptlim := rfl
  have hy : dispatch 121 0 t env = .write true fun pt ptlim =>
      _yconv t.tm_year TM_YEAR_BASE false true pt ptlim 0 := rfl
  have a1 : (_conv (wrapInt (t.tm_mon + 1)) (fmt02 0) pt ptlim).pt
      = min ptlim (pt.pt + (addBytes (convBuf (wrapInt (t.tm_mon + 1)) (fmt02 0)) 0).length) :=
    (conv_emits (wrapInt (t.tm_mon + 1)) (fmt02 0) pt ptlim hle).1
  rw [fmtLoop_percent, fmtLoop_spec_write (by decide) hm, fmtLoop_lit_step (by decide) (by decide)]
  simp only [Bool.false_eq_true, ↓reduceIte]
  unfold dateHeadLen
  by_cases h1 : (_conv (wrapInt (t.tm_mon + 1)) (fmt02 0) pt ptlim).pt = ptlim
  · rw [if_pos h1, if_neg (by omega)]
    exact ⟨_, rfl⟩
  rw [if_neg h1]
  have b1 : (_conv t.tm_mday (fmt02 0)
      ((_conv (wrapInt (t.tm_mon + 1)) (fmt02 0) pt ptlim).store 47).next ptlim).pt
      = min ptlim ((_conv (wrapInt (t.tm_mon + 1)) (fmt02 0) pt ptlim).pt + 1
          + (addBytes (convBuf t.tm_mday (fmt02 0)) 0).length) :=
    (conv_emits t.tm_mday (fmt02 0)
      ((_conv (wrapInt (t.tm_mon + 1)) (fmt02 0) pt ptlim).store 47).next ptlim
      (by simp only [next_pt, store_pt]; omega)).1
  rw [fmtLoop_percent, fmtLoop_spec_write (by decide) hd,
    fmtLoop_lit_step (by decide) (by decide)]
  simp only [Bool.false_eq_true, ↓reduceIte]
  by_cases h2 : (_conv t.tm_mday (fmt02 0)
      ((_conv (wrapInt (t.tm_mon + 1)) (fmt02 0) pt ptlim).store 47).next ptlim).pt = ptlim
  · rw [if_pos h2, if_neg (by omega)]
    exact ⟨_, rfl⟩
  have hroom : pt.pt + ((addBytes (convBuf (wrapInt (t.tm_mon + 1)) (fmt02 0)) 0).length + 1
      + (addBytes (convBuf t.tm_mday (fmt02 0)) 0).length + 1) ≤ ptlim := by omega
  rw [if_neg h2, fmtLoop_percent, fmtLoop_spec_write (by decide) hy]
  simp only [fmtLoop, hroom, ↓reduceIte]
  exact ⟨_, rfl⟩

theorem addName_all {table : List (List Nat)} {n i : Int} {modifier : Nat} {all : Bool}
    {f : Buf → Nat → Buf} (h : addName table n i modifier = .write all f) : all = false := by
  unfold addName at h
  split at h
  · cases h; rfl
  · split at h
    · cases h; rfl
    · cases h

theorem zoneOffset_all {modifier : Nat} {t : tm} {env : Env} {all : Bool}
    {f : Buf → Nat → Buf} (h : zoneOffset modifier t env = .write all f) : all = false := by
  unfold zoneOffset at h
  split at h
  · cases h; rfl
  · simp only at h
    split at h
    · cases h; rfl
    · split at h
      · cases h
      · cases h; rfl

/-- A case other than those of `y` and `g` that calls writers leaves `*warnp` alone. -/
theorem dispatch_quiet_write {c modifier : Nat} {t : tm} {env : Env} {all : Bool}
    {f : Buf → Nat → Buf} (hc : loud c = false) (h : dispatch c modifier t env = .write all f) :
    all = false := by
  unfold dispatch at h
  split at h <;>
    first
    | exact absurd hc (by decide)
    | exact addName_all h
    | exact zoneOffset_all h
    | (cases h; rfl)
    | (split at h <;> cases h <;> rfl)
    | cases h

/-- A case other than those of `c`, `x` and `D` that calls `_fmt` hands on `warnp`, with a
format that has none of the letters `y`, `g`, `c`, `x`, `D`. -/
theorem dispatch_quiet_sub {c modifier : Nat} {t : tm} {env : Env} {fresh : Bool}
    {sf : List Nat} (hc : loud c = false) (h : dispatch c modifier t env = .sub fresh sf) :
    fresh = false ∧ ∀ x ∈ sf, loud x = false := by
  unfold dispatch at h
  split at h <;>
    first
    | exact absurd hc (by decide)
    | exact absurd h addName_ne_sub
    | exact absurd h zoneOffset_ne_sub
    | (cases h; exact ⟨rfl, by decide⟩)
    | (split at h <;> cases h)
    | cases h

theorem fmtLoop_quiet (self : List Nat → Buf → warn → Option (Buf × warn)) (t : tm) (env : Env)
    (ptlim : Nat)
    (hself : ∀ f pt w r w2, (∀ x ∈ f, loud x = false) → self f pt w = some (r, w2) → w2 = w)
    (format : List Nat) :
    (∀ x ∈ format, loud x = false) →
    ∀ (mode : Option (Nat × Nat)) (pt : Buf) (w : warn) (r : Buf) (w2 : warn),
      fmtLoop self t env ptlim mode format pt w = some (r, w2) → w2 = w := by
  have tail : ∀ (c : Nat) (pt : Buf) (w : warn) (r : Buf) (w2 : warn),
      (match putByte c pt ptlim with
        | none => some (pt, w)
        | some pt => some (pt, w)) = some (r, w2) → w2 = w := by
    intro c pt w r w2 h
    split at h <;> cases h <;> rfl
  induction format with
  | nil =>
    intro _ mode pt w r w2 h
    cases mode with
    | none =>
      simp only [fmtLoop] at h
      cases h; rfl
    | some m =>
      obtain ⟨prev, modifier⟩ := m
      simp only [fmtLoop] at h
      exact tail _ _ _ _ _ h
  | cons c format ih =>
    intro hq mode pt w r w2 h
    have hqc : loud c = false := hq c (List.mem_cons_self _ _)
    have ih := ih (fun x hx => hq x (List.mem_cons_of_mem _ hx))
    have lit : ∀ (x : Nat), (match putByte x pt ptlim with
        | none => some (pt, w)
        | some pt => fmtLoop self t env ptlim none format pt w) = some (r, w2) →
        w2 = w := by
      intro x h
      split at h
      · cases h; rfl
      · exact ih _ _ _ _ _ h
    cases mode with
    | none =>
      simp only [fmtLoop] at h
      split at h
      · cases h; rfl
      split at h
      · exact ih _ _ _ _ _ h
      · exact lit _ h
    | some m =>
      obtain ⟨prev, modifier⟩ := m
      simp only [fmtLoop] at h
      split at h
      · exact tail _ _ _ _ _ h
      split at h
      · rename_i all f hd
        have ha := dispatch_quiet_write hqc hd
        subst ha
        simpa using ih _ _ _ _ _ h
      · split at h
        · cases h
        · rename_i fresh sf hd x p wp hs
          obtain ⟨hf, hsf⟩ := dispatch_quiet_sub hqc hd
          subst hf
          simp only [Bool.false_eq_true, ↓reduceIte] at hs h
          have h1 := hself _ _ _ _ _ hsf hs
          have h2 := ih _ _ _ _ _ h
          rw [h2, h1]
      · exact ih _ _ _ _ _ h
      · exact lit _ h
      · cases h

theorem fmtSelf_quiet (t : tm) (env : Env) (ptlim : Nat) (depth : Nat) :
    ∀ f pt w r w2, (∀ x ∈ f, loud x = false) →
      fmtSelf t env ptlim depth f pt w = some (r, w2) → w2 = w := by
  induction depth with
  | zero => intro f pt w r w2 _ h; simp [fmtSelf] at h
  | succ d ih =>
    intro f pt w r w2 hq h
    simp only [fmtSelf] at h
    exact fmtLoop_quiet _ t env ptlim ih f hq none pt w r w2 h

theorem mergeWarn_all (w : warn) : mergeWarn warn.IN_ALL w = warn.max w warn.IN_THIS := by
  cases w <;> rfl

theorem mergeWarn_some (w : warn) : mergeWarn warn.IN_SOME w = warn.max w warn.IN_SOME := by
  cases w <;> rfl

/-- The bytes of `"%m/%d/"` are six for a month from 0 to 11 and a day from 0 to 99. -/
theorem dateHeadLen_six (t : tm) (hm0 : 0 ≤ t.tm_mon) (hm : t.tm_mon ≤ 11) (hd0 : 0 ≤ t.tm_mday)
    (hd : t.tm_mday ≤ 99) : dateHeadLen t = 6 := by
  unfold dateHeadLen
  have e : fmt02 0 = [48, 50] := rfl
  rw [e, conv_bytes _ 48 2 50 (by rw [wrapInt_id _ (by omega) (by omega)]; omega) (by decide)
      (Or.inr rfl),
    conv_bytes _ 48 2 50 hd0 (by decide) (Or.inr rfl)]
  have l1 := decimal_length 1 (wrapInt (t.tm_mon + 1)).toNat (by
    rw [wrapInt_id _ (by omega) (by omega)]; omega)
  have l2 := decimal_length 1 t.tm_mday.toNat (by omega)
  have n1 := (decimal_digits (wrapInt (t.tm_mon + 1)).toNat).2.2
  have n2 := (decimal_digits t.tm_mday.toNat).2.2
  have p1 := List.length_pos.2 n1
  have p2 := List.length_pos.2 n2
  simp only [padTo, List.length_append, List.length_replicate]
  omega

/-- C23, as stated, fails when the limit is reached before the `%y` of the format of `%x`:
with room for five bytes, `"%x"` from the level `IN_NONE` ends at `IN_SOME`, which is not
the greater of `IN_NONE` and `IN_THIS`. -/
theorem C23_short_buffer_keeps_some :
    ∃ r, _fmt 2 (str "%x") T0 E0 ⟨0, mem0⟩ 5 warn.IN_NONE = some (r, warn.IN_SOME) ∧
      output 0 r = str "03/04" ∧ warn.IN_SOME ≠ warn.max warn.IN_NONE warn.IN_THIS :=
  ⟨_, rfl, by decide, by decide⟩

/-- C23, amended: for every timestamp, starting level `w` and cursor at or below the limit,
a run of `_fmt` that returns leaves `*warnp` as follows.  On `"%x"`: at the greater of `w` and
`IN_THIS` when the limit is not reached before the `%y` of its format `"%m/%d/%y"`, that is when
the bytes of `"%m/%d/"` (six for a month and a day in range) fit below the limit, and at the
greater of `w` and `IN_SOME` otherwise.  On `"%c"`: at the greater of `w` and `IN_SOME`.  On
`"%y"` and on `"%g"`: at `IN_ALL`.  The four runs return once two nested calls are allowed and
the zone string is present. -/
theorem C23_warn_levels (depth : Nat) (t : tm) (env : Env) (pt : Buf) (ptlim : Nat) (w : warn)
    (hle : pt.pt ≤ ptlim) :
    (∀ r w2, _fmt depth (str "%x") t env pt ptlim w = some (r, w2) →
      w2 = if pt.pt + dateHeadLen t ≤ ptlim then warn.max w warn.IN_THIS
           else warn.max w warn.IN_SOME) ∧
    (∀ r w2, _fmt depth (str "%c") t env pt ptlim w = some (r, w2) →
      w2 = warn.max w warn.IN_SOME) ∧
    (∀ r w2, _fmt depth (str "%y") t env pt ptlim w = some (r, w2) → w2 = warn.IN_ALL) ∧
    (∀ r w2, _fmt depth (str "%g") t env pt ptlim w = some (r, w2) → w2 = warn.IN_ALL) ∧
    (2 ≤ depth → t.tm_zone ≠ none →
      (∃ r, _fmt depth (str "%x") t env pt ptlim w = some r) ∧
      (∃ r, _fmt depth (str "%c") t env pt ptlim w = some r) ∧
      (∃ r, _fmt depth (str "%y") t env pt ptlim w = some r) ∧
      (∃ r, _fmt depth (str "%g") t env pt ptlim w = some r)) ∧
    (0 ≤ t.tm_mon → t.tm_mon ≤ 11 → 0 ≤ t.tm_mday → t.tm_mday ≤ 99 → dateHeadLen t = 6) := by
  refine ⟨?_, ?_, ?_, ?_, ?_, dateHeadLen_six t⟩
  · intro r w2 h
    have hx : dispatch 120 0 t env = .sub true Locale.x_fmt := rfl
    rw [fmt_eq_loop] at h
    change fmtLoop _ t env ptlim none [37, 120] pt w = _ at h
    rw [fmtLoop_percent] at h
    cases depth with
    | zero =>
      rw [(fmtLoop_spec_sub (by decide) hx 37 [] pt w).1 rfl] at h
      cases h
    | succ d =>
      obtain ⟨p, hp⟩ := xfmt_run (fmtSelf t env ptlim d) t env ptlim pt warn.IN_SOME hle
      have hs : fmtSelf t env ptlim (d + 1) Locale.x_fmt pt
          (if true = true then warn.IN_SOME else w)
          = some (p, if pt.pt + dateHeadLen t ≤ ptlim then warn.IN_ALL else warn.IN_SOME) := hp
      rw [(fmtLoop_spec_sub (by decide) hx 37 [] pt w).2 _ _ hs] at h
      simp only [fmtLoop, ↓reduceIte, Option.some.injEq, Prod.mk.injEq] at h
      rw [← h.2]
      by_cases hr : pt.pt + dateHeadLen t ≤ ptlim
      · rw [if_pos hr, if_pos hr, mergeWarn_all]
      · rw [if_neg hr, if_neg hr, mergeWarn_some]
  · intro r w2 h
    have hc : dispatch 99 0 t env = .sub true Locale.c_fmt := rfl
    rw [fmt_eq_loop] at h
    change fmtLoop _ t env ptlim none [37, 99] pt w = _ at h
    rw [fmtLoop_percent] at h
    cases hs : fmtSelf t env ptlim depth Locale.c_fmt pt (if true = true then warn.IN_SOME else w)
      with
    | none =>
      rw [(fmtLoop_spec_sub (by decide) hc 37 [] pt w).1 hs] at h
      cases h
    | some pw =>
      obtain ⟨p, wp⟩ := pw
      rw [(fmtLoop_spec_sub (by decide) hc 37 [] pt w).2 _ _ hs] at h
      simp only [fmtLoop, ↓reduceIte, Option.some.injEq, Prod.mk.injEq] at h
      have hq := fmtSelf_quiet t env ptlim depth Locale.c_fmt pt _ p wp (by decide) hs
      rw [← h.2, hq]
      exact mergeWarn_some w
  · intro r w2 h
    have hy : dispatch 121 0 t env = .write true fun pt ptlim =>
        _yconv t.tm_year TM_YEAR_BASE false true pt ptlim 0 := rfl
    rw [fmt_eq_loop] at h
    change fmtLoop _ t env ptlim none [37, 121] pt w = _ at h
    rw [fmtLoop_percent, fmtLoop_spec_write (by decide) hy] at h
    simp only [fmtLoop, ↓reduceIte, Option.some.injEq, Prod.mk.injEq] at h
    exact h.2.symm
  · intro r w2 h
    obtain ⟨⟨base, wk⟩, hw⟩ := isoWeek_some t
    have hg : dispatch 103 0 t env = .write true fun pt ptlim =>
        _yconv t.tm_year base false true pt ptlim 0 := by
      show (match isoWeek t with
        | none => Step.stuck
        | some (base, _) => Step.write true fun pt ptlim =>
            _yconv t.tm_year base false true pt ptlim 0) = _
      rw [hw]
    rw [fmt_eq_loop] at h
    change fmtLoop _ t env ptlim none [37, 103] pt w = _ at h
    rw [fmtLoop_percent, fmtLoop_spec_write (by decide) hg] at h
    simp only [fmtLoop, ↓reduceIte, Option.some.injEq, Prod.mk.injEq] at h
    exact h.2.symm
  · intro hd hz
    exact ⟨fmt_returns hd _ t env hz pt ptlim w, fmt_returns hd _ t env hz pt ptlim w,
      fmt_returns hd _ t env hz pt ptlim w, fmt_returns hd _ t env hz pt ptlim w⟩

/-- C23, amended, for `T0` from the level `IN_NONE` with room for 16 bytes: `"%x"` ends at
`IN_THIS`, `"%c"` at `IN_SOME`, `"%y"` and `"%g"` at `IN_ALL`; and `"%x"` from `IN_ALL` stays at
`IN_ALL`. -/
theorem C23_warn_levels_witness :
    ((⟨0, mem0⟩ : Buf).pt ≤ 16 ∧ 2 ≤ 2 ∧ T0.tm_zone ≠ none ∧ dateHeadLen T0 = 6) ∧
    ((∃ r, _fmt 2 (str "%x") T0 E0 ⟨0, mem0⟩ 16 warn.IN_NONE = some (r, warn.IN_THIS)) ∧
      (∃ r, _fmt 2 (str "%c") T0 E0 ⟨0, mem0⟩ 16 warn.IN_NONE = some (r, warn.IN_SOME)) ∧
      (∃ r, _fmt 2 (str "%y") T0 E0 ⟨0, mem0⟩ 16 warn.IN_NONE = some (r, warn.IN_ALL)) ∧
      (∃ r, _fmt 2 (str "%g") T0 E0 ⟨0, mem0⟩ 16 warn.IN_NONE = some (r, warn.IN_ALL)) ∧
      (∃ r, _fmt 2 (str "%x") T0 E0 ⟨0, mem0⟩ 16 warn.IN_ALL = some (r, warn.IN_ALL))) ∧
    (∀ r w2, _fmt 2 (str "%x") T0 E0 ⟨0, mem0⟩ 16 warn.IN_NONE = some (r, w2) →
      w2 = if (⟨0, mem0⟩ : Buf).pt + dateHeadLen T0 ≤ 16 then warn.max warn.IN_NONE warn.IN_THIS
           else warn.max warn.IN_NONE warn.IN_SOME) ∧
    ((∃ r, _fmt 2 (str "%x") T0 E0 ⟨0, mem0⟩ 16 warn.IN_NONE = some r) ∧
      (∃ r, _fmt 2 (str "%c") T0 E0 ⟨0, mem0⟩ 16 warn.IN_NONE = some r) ∧
      (∃ r, _fmt 2 (str "%y") T0 E0 ⟨0, mem0⟩ 16 warn.IN_NONE = some r) ∧
      (∃ r, _fmt 2 (str "%g") T0 E0 ⟨0, mem0⟩ 16 warn.IN_NONE = some r)) :=
  ⟨⟨by decide, by decide, by decide, by decide⟩,
   ⟨⟨_, rfl⟩, ⟨_, rfl⟩, ⟨_, rfl⟩, ⟨_, rfl⟩, ⟨_, rfl⟩⟩,
   (C23_warn_levels 2 T0 E0 ⟨0, mem0⟩ 16 warn.IN_NONE (by decide)).1,
   (C23_warn_levels 2 T0 E0 ⟨0, mem0⟩ 16 warn.IN_NONE (by decide)).2.2.2.2.1 (by decide)
     (by decide)⟩

/-! ## Termination: the nesting of `_fmt` and the week loop -/

/-- A run that returns with some calls of `_fmt` allowed returns the same with more. -/
theorem fmtLoop_mono (self1 self2 : List Nat → Buf → warn → Option (Buf × warn)) (t : tm)
    (env : Env) (ptlim : Nat)
    (hself : ∀ f pt w r, self1 f pt w = some r → self2 f pt w = some r) (format : List Nat) :
    ∀ (mode : Option (Nat × Nat)) (pt : Buf) (w : warn) (r : Buf × warn),
      fmtLoop self1 t env ptlim mode format pt w = some r →
      fmtLoop self2 t env ptlim mode format pt w = some r := by
  induction format with
  | nil =>
    intro mode pt w r h
    cases mode with
    | none => simpa only [fmtLoop] using h
    | some m =>
      obtain ⟨prev, modifier⟩ := m
      simpa only [fmtLoop] using h
  | cons c format ih =>
    intro mode pt w r h
    cases mode with
    | none =>
      simp only [fmtLoop] at h ⊢
      by_cases h0 : c = 0
      · simpa only [h0, ↓reduceIte] using h
      simp only [h0, ↓reduceIte] at h ⊢
      by_cases h1 : c = 37
      · simp only [h1, ↓reduceIte] at h ⊢
        exact ih _ _ _ _ h
      simp only [h1, ↓reduceIte] at h ⊢
      cases hp : putByte c pt ptlim with
      | none => simpa only [hp] using h
      | some p =>
        simp only [hp] at h ⊢
        exact ih _ _ _ _ h
    | some m =>
      obtain ⟨prev, modifier⟩ := m
      simp only [fmtLoop] at h ⊢
      by_cases h0 : c = 0
      · simpa only [h0, ↓reduceIte] using h
      simp only [h0, ↓reduceIte] at h ⊢
      cases hd : dispatch c modifier t env with
      | write all f =>
        simp only [hd] at h ⊢
        exact ih _ _ _ _ h
      | sub fresh sf =>
        simp only [hd] at h ⊢
        cases hs : self1 sf pt (if fresh = true then warn.IN_SOME else w) with
        | none => simp only [hs] at h; cases h
        | some pw =>
          obtain ⟨p, wp⟩ := pw
          simp only [hs, hself _ _ _ _ hs] at h ⊢
          exact ih _ _ _ _ h
      | again m2 =>
        simp only [hd] at h ⊢
        exact ih _ _ _ _ h
      | lit =>
        simp only [hd] at h ⊢
        cases hp : putByte c pt ptlim with
        | none => simpa only [hp] using h
        | some p =>
          simp only [hp] at h ⊢
          exact ih _ _ _ _ h
      | stuck => simp only [hd] at h; cases h

theorem fmtSelf_mono (t : tm) (env : Env) (ptlim : Nat) (d : Nat) :
    ∀ f pt w r, fmtSelf t env ptlim d f pt w = some r →
      fmtSelf t env ptlim (d + 1) f pt w = some r := by
  induction d with
  | zero => intro f pt w r h; simp [fmtSelf] at h
  | succ d ih =>
    intro f pt w r h
    simp only [fmtSelf] at h ⊢
    exact fmtLoop_mono _ _ t env ptlim (by
      intro f pt w r hs
      have := ih f pt w r hs
      simpa only [fmtSelf] using this) f none pt w r h

theorem fmt_mono {d : Nat} {format : List Nat} {t : tm} {env : Env} {pt : Buf} {ptlim : Nat}
    {w : warn} {r : Buf × warn} (h : _fmt d format t env pt ptlim w = some r) (k : Nat) :
    _fmt (d + k) format t env pt ptlim w = some r := by
  induction k with
  | zero => exact h
  | succ k ih =>
    unfold _fmt at ih ⊢
    exact fmtLoop_mono _ _ t env ptlim (fmtSelf_mono t env ptlim (d + k)) format none pt w r ih

/-- C24: for every format and every timestamp, whatever integers its fields hold, with the
zone string present: `_fmt` returns with two nested calls of itself allowed, so the nesting
never exceeds two levels, and eight are enough; more levels allowed give the same result;
one level is not enough for `"%c"` on `T0` with room for 32 bytes.  The week loop of `%V`, `%G`, `%g` is left after at most
`3 - tm_yday` rounds and one more, and after at most two rounds for a timestamp with
`0 ≤ tm_wday ≤ 6` and `0 ≤ tm_yday ≤ 365`. -/
theorem C24_terminates (format : List Nat) (t : tm) (env : Env) (pt : Buf) (ptlim : Nat)
    (w : warn) :
    (t.tm_zone ≠ none →
      (∃ r, _fmt 2 format t env pt ptlim w = some r) ∧
      (∃ r, _fmt 8 format t env pt ptlim w = some r) ∧
      ∀ depth, 2 ≤ depth →
        _fmt depth format t env pt ptlim w = _fmt 2 format t env pt ptlim w) ∧
    _fmt 1 (str "%c") T0 E0 ⟨0, mem0⟩ 32 warn.IN_NONE = none ∧
    (∃ r, isoLoop ((3 - t.tm_yday).toNat + 1) t.tm_year TM_YEAR_BASE t.tm_yday t.tm_wday
      = some r) ∧
    (0 ≤ t.tm_wday → t.tm_wday ≤ 6 → 0 ≤ t.tm_yday → t.tm_yday ≤ 365 →
      ∃ r, isoLoop 2 t.tm_year TM_YEAR_BASE t.tm_yday t.tm_wday = some r) := by
  refine ⟨?_, ?_, isoWeek_some t, ?_⟩
  · intro hz
    obtain ⟨r, hr⟩ := fmt_returns (le_refl 2) format t env hz pt ptlim w
    have hm : ∀ depth, 2 ≤ depth → _fmt depth format t env pt ptlim w = some r := by
      intro depth hd
      have := fmt_mono hr (depth - 2)
      rwa [show 2 + (depth - 2) = depth by omega] at this
    refine ⟨⟨r, hr⟩, ⟨r, hm 8 (by decide)⟩, ?_⟩
    intro depth hd
    rw [hm depth hd, hr]
  · rfl
  · intro hw0 hw6 hy0 hy
    obtain ⟨base, wk, h, _⟩ := isoLoop_bounds t.tm_year t.tm_yday t.tm_wday hw0 hw6 hy0 hy 1
      (fun _ => le_refl 1)
    exact ⟨_, h⟩

/-- C24 at `"%c %G-%V"` for `T0`, and the week loop for the first day of 2010, a Friday, which
belongs to the last week of 2009: one round is not enough, two are. -/
theorem C24_terminates_witness :
    (T0.tm_zone ≠ none ∧ (2 : Nat) ≤ 8 ∧
      (0 : Int) ≤ 5 ∧ (5 : Int) ≤ 6 ∧ (0 : Int) ≤ 0 ∧ (0 : Int) ≤ 365) ∧
    ((∃ r, _fmt 2 (str "%c %G-%V") T0 E0 ⟨0, mem0⟩ 64 warn.IN_NONE = some r) ∧
      (∃ r, _fmt 8 (str "%c %G-%V") T0 E0 ⟨0, mem0⟩ 64 warn.IN_NONE = some r) ∧
      ∀ depth, 2 ≤ depth →
        _fmt depth (str "%c %G-%V") T0 E0 ⟨0, mem0⟩ 64 warn.IN_NONE
          = _fmt 2 (str "%c %G-%V") T0 E0 ⟨0, mem0⟩ 64 warn.IN_NONE) ∧
    isoLoop 1 110 TM_YEAR_BASE 0 5 = none ∧
    (∃ r, isoLoop 2 110 TM_YEAR_BASE 0 5 = some r) :=
  ⟨⟨by decide, by decide, by decide, by decide, by decide, by decide⟩,
   (C24_terminates (str "%c %G-%V") T0 E0 ⟨0, mem0⟩ 64 warn.IN_NONE).1 (by decide),
   by decide,
   (C24_terminates [] { T0 with tm_year := 110, tm_yday := 0, tm_wday := 5 } E0 ⟨0, mem0⟩ 0
      warn.IN_NONE).2.2.2 (by decide) (by decide) (by decide) (by decide)⟩

end Strftime
